import Mathlib

/-!
# Indexed priority queue (`src/Indexed Priority Queue/index_pq.hpp`)

A shallow embedding of `IndexPriorityQueue<T>`.

* The three `std::vector`s are lists; `operator[]` outside the current length of
  a vector is undefined behaviour in C++ and is the fault `Fault.outOfBounds` here.
* `int` values are mathematical integers (`Int`); capacities are assumed small
  enough that `2 * i` and `N + 1` do not overflow.
* `T` is any linearly ordered type (`<`, `>` and `<=` of the source are the
  comparisons of that order).
* The two `while` loops (`swim`, `sink`) recurse on an explicit fuel; the fuel that
  `swim` and `sink` pass is enough on every state (`swim_ne_outOfFuel`,
  `sink_ne_outOfFuel`), so the only fault a call can end in is `Fault.outOfBounds`.
* Messages written to `std::cerr` are not modelled.
-/

namespace IndexPQ

/-- Ways a call can go wrong in the model. -/
inductive Fault where
  | outOfBounds
  | outOfFuel
  deriving DecidableEq, Repr

/-- Bounds-checked view of `xs[i]` for an `int` subscript. -/
def lookup {α : Type} (xs : List α) (i : Int) : Option α :=
  if 0 ≤ i then xs[i.toNat]? else none

/-- A read `xs[i]`: a fault outside `[0, xs.size())`. -/
def readAt {α : Type} (xs : List α) (i : Int) : Except Fault α :=
  match lookup xs i with
  | some v => .ok v
  | none => .error .outOfBounds

/-- A write `xs[i] = v`: a fault outside `[0, xs.size())`. -/
def writeAt {α : Type} (xs : List α) (i : Int) (v : α) : Except Fault (List α) :=
  if 0 ≤ i ∧ i < xs.length then .ok (xs.set i.toNat v) else .error .outOfBounds

/-- The data members of `IndexPriorityQueue<T>`. -/
structure IndexPriorityQueue (T : Type) where
  priorities : List T
  priorityQueue : List Int
  indexToPosition : List Int
  size_ : Int
  deriving DecidableEq, Repr

def leftChild (i : Int) : Int := 2 * i

def rightChild (i : Int) : Int := 2 * i + 1

/-- C++ `i / 2` on `int` truncates toward zero. -/
def parent (i : Int) : Int := Int.tdiv i 2

section Ops

variable {T : Type}

/-- The constructor `IndexPriorityQueue(int N)`: three vectors of length `N + 1`. -/
def construct [Inhabited T] (N : Nat) : IndexPriorityQueue T :=
  { priorities := List.replicate (N + 1) default
    priorityQueue := List.replicate (N + 1) 0
    indexToPosition := List.replicate (N + 1) (-1)
    size_ := 0 }

def empty (q : IndexPriorityQueue T) : Bool := decide (q.size_ = 0)

def size (q : IndexPriorityQueue T) : Int := q.size_

/-- The member `contains`: the subscript is only evaluated when the two range tests pass. -/
def contains (q : IndexPriorityQueue T) (index : Int) : Bool :=
  decide (index ≥ 0) && (decide (index < (q.indexToPosition.length : Int)) &&
    (match lookup q.indexToPosition index with
     | some pos => decide (pos ≠ -1)
     | none => false))

/-- The helper `setIndexToPosAsPq`: `indexToPosition[priorityQueue[i]] = i`. -/
def setIndexToPosAsPq (q : IndexPriorityQueue T) (i : Int) :
    Except Fault (IndexPriorityQueue T) := do
  let idx ← readAt q.priorityQueue i
  let itp ← writeAt q.indexToPosition idx i
  pure { q with indexToPosition := itp }

/-- The call `std::swap(priorityQueue[a], priorityQueue[b])`. -/
def swapPQ (q : IndexPriorityQueue T) (a b : Int) : Except Fault (IndexPriorityQueue T) := do
  let x ← readAt q.priorityQueue a
  let y ← readAt q.priorityQueue b
  let pq1 ← writeAt q.priorityQueue a y
  let pq2 ← writeAt pq1 b x
  pure { q with priorityQueue := pq2 }

/-- The call `priorityQueue.pop_back()`: undefined on an empty vector. -/
def popBack (q : IndexPriorityQueue T) : Except Fault (IndexPriorityQueue T) :=
  if q.priorityQueue.length = 0 then .error .outOfBounds
  else .ok { q with priorityQueue := q.priorityQueue.dropLast }

variable [LinearOrder T]

/-- The loop of `swim`, one iteration per unit of fuel. -/
def swimAux : Nat → IndexPriorityQueue T → Int → Except Fault (IndexPriorityQueue T)
  | 0, _, _ => .error .outOfFuel
  | fuel + 1, q, i =>
    if i > 1 then do
      let a ← readAt q.priorityQueue i
      let ka ← readAt q.priorities a
      let b ← readAt q.priorityQueue (parent i)
      let kb ← readAt q.priorities b
      if ka < kb then do
        let q1 ← swapPQ q i (parent i)
        let q2 ← setIndexToPosAsPq q1 i
        let q3 ← setIndexToPosAsPq q2 (parent i)
        swimAux fuel q3 (parent i)
      else pure q
    else pure q

/-- The member `swim`; `i` halves at every iteration, so `i + 1` iterations are enough. -/
def swim (q : IndexPriorityQueue T) (i : Int) : Except Fault (IndexPriorityQueue T) :=
  swimAux (i.toNat + 1) q i

/-- The choice of `child` in the body of `sink`: `leftChild(i)`, incremented when
`child < size_` and the left child has the greater priority. -/
def smallerChild (q : IndexPriorityQueue T) (i : Int) : Except Fault Int :=
  if leftChild i < q.size_ then do
    let l ← readAt q.priorityQueue (leftChild i)
    let kl ← readAt q.priorities l
    let r ← readAt q.priorityQueue (rightChild i)
    let kr ← readAt q.priorities r
    pure (if kl > kr then leftChild i + 1 else leftChild i)
  else pure (leftChild i)

/-- The loop of `sink`, one iteration per unit of fuel. -/
def sinkAux : Nat → IndexPriorityQueue T → Int → Except Fault (IndexPriorityQueue T)
  | 0, _, _ => .error .outOfFuel
  | fuel + 1, q, i =>
    if leftChild i ≤ q.size_ then do
      let child ← smallerChild q i
      let a ← readAt q.priorityQueue i
      let ka ← readAt q.priorities a
      let c ← readAt q.priorityQueue child
      let kc ← readAt q.priorities c
      if ka ≤ kc then pure q
      else do
        let q1 ← swapPQ q i child
        let q2 ← setIndexToPosAsPq q1 i
        let q3 ← setIndexToPosAsPq q2 child
        sinkAux fuel q3 child
    else pure q

/-- The member `sink`; from a position `i ≥ 1` the position at least doubles at
every iteration and stays within `size_`. -/
def sink (q : IndexPriorityQueue T) (i : Int) : Except Fault (IndexPriorityQueue T) :=
  sinkAux (q.size_.toNat + 2) q i

/-- The member `push`. -/
def push (q : IndexPriorityQueue T) (priority : T) (index : Int) :
    Except Fault (IndexPriorityQueue T) :=
  if contains q index then pure q
  else do
    let s := q.size_ + 1
    let pq ← writeAt q.priorityQueue s index
    let itp ← writeAt q.indexToPosition index s
    let pr ← writeAt q.priorities index priority
    swim { priorities := pr, priorityQueue := pq, indexToPosition := itp, size_ := s } s

/-- The member `pop`. -/
def pop (q : IndexPriorityQueue T) : Except Fault (IndexPriorityQueue T) :=
  if q.size_ = 0 then pure q
  else do
    let minIndex ← readAt q.priorityQueue 1
    let q1 ← swapPQ q 1 q.size_
    let q2 ← setIndexToPosAsPq q1 1
    let itp ← writeAt q2.indexToPosition minIndex (-1)
    let q3 ← sink { q2 with indexToPosition := itp, size_ := q2.size_ - 1 } 1
    popBack q3

/-- The member `erase`. -/
def erase (q : IndexPriorityQueue T) (index : Int) : Except Fault (IndexPriorityQueue T) :=
  if !contains q index then pure q
  else do
    let pos ← readAt q.indexToPosition index
    let q1 ← swapPQ q pos q.size_
    let q2 ← setIndexToPosAsPq q1 pos
    let itp ← writeAt q2.indexToPosition index (-1)
    let q3 ← popBack { q2 with indexToPosition := itp, size_ := q2.size_ - 1 }
    let q4 ← swim q3 pos
    sink q4 pos

/-- The member `top`. -/
def top (q : IndexPriorityQueue T) : Except Fault (T × Int) := do
  let i ← readAt q.priorityQueue 1
  let k ← readAt q.priorities i
  pure (k, i)

/-- The member `changeKey`. -/
def changeKey (q : IndexPriorityQueue T) (key : T) (index : Int) :
    Except Fault (IndexPriorityQueue T) :=
  if contains q index then do
    let currentKey ← readAt q.priorities index
    let pr ← writeAt q.priorities index key
    let q1 : IndexPriorityQueue T := { q with priorities := pr }
    let pos ← readAt q1.indexToPosition index
    if key < currentKey then swim q1 pos else sink q1 pos
  else push q key index

end Ops

/-! ## Call sequences -/

/-- One call of the public interface. -/
inductive Call (T : Type) where
  | push (priority : T) (index : Int)
  | pop
  | erase (index : Int)
  | changeKey (key : T) (index : Int)
  | top
  | contains (index : Int)

/-- The index argument of a call, when it has one. -/
def Call.index? {T : Type} : Call T → Option Int
  | .push _ i => some i
  | .erase i => some i
  | .changeKey _ i => some i
  | .contains i => some i
  | .pop => none
  | .top => none

/-- Run one call; the observers `top` and `contains` leave the state as it is. -/
def step {T : Type} [LinearOrder T] (q : IndexPriorityQueue T) :
    Call T → Except Fault (IndexPriorityQueue T)
  | .push k i => push q k i
  | .pop => pop q
  | .erase i => erase q i
  | .changeKey k i => changeKey q k i
  | .top => do
    let _ ← top q
    pure q
  | .contains _ => pure q

/-- Run a sequence of calls from left to right, stopping at the first fault. -/
def run {T : Type} [LinearOrder T] (q : IndexPriorityQueue T) :
    List (Call T) → Except Fault (IndexPriorityQueue T)
  | [] => pure q
  | c :: cs => do
    let q1 ← step q c
    run q1 cs

/-- Push every `(priority, index)` pair of a list, in order. -/
def pushAll {T : Type} [LinearOrder T] (q : IndexPriorityQueue T) :
    List (T × Int) → Except Fault (IndexPriorityQueue T)
  | [] => pure q
  | (k, i) :: rest => do
    let q1 ← push q k i
    pushAll q1 rest

/-- The client loop `while (!q.empty()) { record q.top(); q.pop(); }`, one iteration
per unit of fuel. -/
def drainAux {T : Type} [LinearOrder T] :
    Nat → IndexPriorityQueue T → Except Fault (List (T × Int))
  | 0, _ => .error .outOfFuel
  | fuel + 1, q =>
    if empty q then pure []
    else do
      let t ← top q
      let q1 ← pop q
      let rest ← drainAux fuel q1
      pure (t :: rest)

/-- Drain a queue; every iteration removes one element, so `size + 1` iterations
are enough. -/
def drain {T : Type} [LinearOrder T] (q : IndexPriorityQueue T) :
    Except Fault (List (T × Int)) :=
  drainAux (q.size_.toNat + 1) q

/-! ## The invariants of the specification (§3) -/

section Spec

variable {T : Type}

/-- The priority of the index stored at slot `p`: `priorities[heap[p]]`. -/
def keyAt (q : IndexPriorityQueue T) (p : Int) : Option T :=
  (lookup q.priorityQueue p).bind (lookup q.priorities)

/-- An index is present when `positionOf[index]` is stored and is not `-1`. -/
def present (q : IndexPriorityQueue T) (i : Int) : Prop :=
  ∃ pos, lookup q.indexToPosition i = some pos ∧ pos ≠ -1

/-- I1: `positionOf[heap[p]] == p` for every occupied position `p` in `[1, size]`. -/
def I1 (q : IndexPriorityQueue T) : Prop :=
  ∀ p : Int, 1 ≤ p → p ≤ q.size_ →
    ∃ i, lookup q.priorityQueue p = some i ∧ lookup q.indexToPosition i = some p

/-- I2: `heap[positionOf[index]] == index` for every present index. The heap of the
data model has the positions `1..size`, so the position of a present index is one
of them. -/
def I2 (q : IndexPriorityQueue T) : Prop :=
  ∀ i pos : Int, lookup q.indexToPosition i = some pos → pos ≠ -1 →
    1 ≤ pos ∧ pos ≤ q.size_ ∧ lookup q.priorityQueue pos = some i

/-- Both slots hold an index with a stored priority, and
`priorities[heap[a]] <= priorities[heap[b]]`. -/
def LeAt [LinearOrder T] (q : IndexPriorityQueue T) (a b : Int) : Prop :=
  ∃ ka kb, keyAt q a = some ka ∧ keyAt q b = some kb ∧ ka ≤ kb

/-- I3: `priorities[heap[parent(p)]] <= priorities[heap[p]]` for every `p` in `[2, size]`. -/
def I3 [LinearOrder T] (q : IndexPriorityQueue T) : Prop :=
  ∀ p : Int, 2 ≤ p → p ≤ q.size_ → LeAt q (parent p) p

/-- I4: `contains(index)` is true iff `0 <= index < N` and `positionOf[index] != -1`. -/
def I4 (N : Nat) (q : IndexPriorityQueue T) : Prop :=
  ∀ index : Int, contains q index = true ↔ (0 ≤ index ∧ index < N ∧ present q index)

/-- I5: no index is stored at two positions of `heap[1..size]`. -/
def I5 (q : IndexPriorityQueue T) : Prop :=
  ∀ p r i : Int, 1 ≤ p → p ≤ q.size_ → 1 ≤ r → r ≤ q.size_ →
    lookup q.priorityQueue p = some i → lookup q.priorityQueue r = some i → p = r

/-- The storage of a queue of capacity `N`: the priorities and the position map keep
the length `N + 1` the constructor gave them, and `size_` counts elements. -/
def IsQueue (N : Nat) (q : IndexPriorityQueue T) : Prop :=
  q.priorities.length = N + 1 ∧ q.indexToPosition.length = N + 1 ∧ 0 ≤ q.size_

/-- A state of a capacity-`N` queue that satisfies I1..I5. -/
def Valid [LinearOrder T] (N : Nat) (q : IndexPriorityQueue T) : Prop :=
  IsQueue N q ∧ I1 q ∧ I2 q ∧ I3 q ∧ I4 N q ∧ I5 q

/-- The indices at the occupied positions `heap[1..size]`, in position order. -/
def heapList (q : IndexPriorityQueue T) : List Int :=
  (List.range q.size_.toNat).filterMap (fun (k : Nat) => lookup q.priorityQueue ((k : Int) + 1))

/-- The `(priority, index)` associations the queue holds, in position order. -/
def entries (q : IndexPriorityQueue T) : List (T × Int) :=
  (heapList q).filterMap (fun i => (lookup q.priorities i).map (fun k => (k, i)))

/-- The state after `std::swap(priorityQueue[a], priorityQueue[b])` followed by
`setIndexToPosAsPq(a)` and `setIndexToPosAsPq(b)`, when slot `a` held `x` and slot
`b` held `y`. -/
def exchanged (q : IndexPriorityQueue T) (a b x y : Int) : IndexPriorityQueue T :=
  { q with
    priorityQueue := (q.priorityQueue.set a.toNat y).set b.toNat x
    indexToPosition := (q.indexToPosition.set y.toNat a).set x.toNat b }

/-- The state after the common opening of `pop` and `erase`:
`std::swap(priorityQueue[pos], priorityQueue[size_])`, `setIndexToPosAsPq(pos)`,
`indexToPosition[x] = -1` and `--size_`, when slot `pos` held `x` and slot `size_`
held `last`. -/
def detached (q : IndexPriorityQueue T) (pos x last : Int) : IndexPriorityQueue T :=
  { q with
    priorityQueue := (q.priorityQueue.set pos.toNat last).set q.size_.toNat x
    indexToPosition := (q.indexToPosition.set last.toNat pos).set x.toNat (-1)
    size_ := q.size_ - 1 }

/-- Repeated `pop()`: `m` calls in a row. -/
def popN {T : Type} [LinearOrder T] :
    Nat → IndexPriorityQueue T → Except Fault (IndexPriorityQueue T)
  | 0, q => pure q
  | m + 1, q => do
    let q1 ← pop q
    popN m q1

/-! ### Executable checks of the invariants on a concrete state -/

/-- Executable form of I1. -/
def checkI1 {T : Type} (q : IndexPriorityQueue T) : Bool :=
  (List.range q.size_.toNat).all fun (k : Nat) =>
    match lookup q.priorityQueue ((k : Int) + 1) with
    | some i => decide (lookup q.indexToPosition i = some ((k : Int) + 1))
    | none => false

/-- Executable form of I2. -/
def checkI2 {T : Type} (q : IndexPriorityQueue T) : Bool :=
  (List.range q.indexToPosition.length).all fun (n : Nat) =>
    match lookup q.indexToPosition (n : Int) with
    | some pos =>
      decide (pos = -1) ||
        (decide (1 ≤ pos) && (decide (pos ≤ q.size_) &&
          decide (lookup q.priorityQueue pos = some (n : Int))))
    | none => true

/-- Executable form of I3. -/
def checkI3 {T : Type} [LinearOrder T] (q : IndexPriorityQueue T) : Bool :=
  (List.range q.size_.toNat).all fun (k : Nat) =>
    decide ((k : Int) + 1 < 2) ||
      (match keyAt q (parent ((k : Int) + 1)), keyAt q ((k : Int) + 1) with
       | some a, some b => decide (a ≤ b)
       | _, _ => false)

/-- Executable form of `Valid N`. -/
def checkValid {T : Type} [LinearOrder T] (N : Nat) (q : IndexPriorityQueue T) : Bool :=
  decide (q.priorities.length = N + 1) && (decide (q.indexToPosition.length = N + 1) &&
    (decide (0 ≤ q.size_) && (checkI1 q && (checkI2 q && (checkI3 q &&
      decide (lookup q.indexToPosition (N : Int) = some (-1)))))))

/-- A capacity-5 queue holding `(10, 0)`, `(5, 1)` and `(20, 2)`. -/
def sampleQueue : IndexPriorityQueue Int :=
  { priorities := [10, 5, 20, 0, 0, 0]
    priorityQueue := [0, 1, 0, 2, 0, 0]
    indexToPosition := [2, 1, 3, -1, -1, -1]
    size_ := 3 }

/-- A capacity-2 queue holding its two indices: the state after `push(1, 0)` and
`push(2, 1)` on `IndexPriorityQueue<int>(2)`. -/
def fullQueue : IndexPriorityQueue Int :=
  { priorities := [1, 2, 0]
    priorityQueue := [0, 0, 1]
    indexToPosition := [1, 2, -1]
    size_ := 2 }

/-- The state `erase` hands to `swim`: the opening shared with `pop`, then
`priorityQueue.pop_back()`. -/
def shrunk {T : Type} (q : IndexPriorityQueue T) (pos x last : Int) : IndexPriorityQueue T :=
  { detached q pos x last with
    priorityQueue := (detached q pos x last).priorityQueue.dropLast }

/-- The indices of `[0, N]` for which `contains` answers true, in increasing order. -/
def containedIndices {T : Type} (N : Nat) (q : IndexPriorityQueue T) : List Int :=
  ((List.range (N + 1)).map (fun (n : Nat) => (n : Int))).filter (fun i => contains q i)

/-- The two vectors no member function resizes keep their lengths from `q` to `r`. -/
def SameStore {T : Type} (q r : IndexPriorityQueue T) : Prop :=
  r.indexToPosition.length = q.indexToPosition.length ∧
    r.priorities.length = q.priorities.length

/-- The state of `IndexPriorityQueue<int>(5)` after `push(7, 5)`. -/
def capQueue : IndexPriorityQueue Int :=
  { priorities := [0, 0, 0, 0, 0, 7]
    priorityQueue := [0, 5, 0, 0, 0, 0]
    indexToPosition := [-1, -1, -1, -1, -1, 1]
    size_ := 1 }

/-- The state of `IndexPriorityQueue<int>(5)` after `push(10, 0)` and `push(5, 1)`. -/
def twoQueue : IndexPriorityQueue Int :=
  { priorities := [10, 5, 0, 0, 0, 0]
    priorityQueue := [0, 1, 0, 0, 0, 0]
    indexToPosition := [2, 1, -1, -1, -1, -1]
    size_ := 2 }

/-- A heap whose last slot holds a priority smaller than its parent's. -/
def swimInput : IndexPriorityQueue Int :=
  { priorities := [10, 5, 1, 0, 0, 0]
    priorityQueue := [0, 1, 0, 2, 0, 0]
    indexToPosition := [2, 1, 3, -1, -1, -1]
    size_ := 3 }

/-- A heap whose root holds a priority greater than a child's. -/
def sinkInput : IndexPriorityQueue Int :=
  { priorities := [10, 5, 20, 0, 0, 0]
    priorityQueue := [0, 0, 1, 2, 0, 0]
    indexToPosition := [1, 2, 3, -1, -1, -1]
    size_ := 3 }

/-- The state of `IndexPriorityQueue<int>(2)` after `push(1, 0)`. -/
def oneQueue : IndexPriorityQueue Int :=
  { priorities := [1, 0, 0]
    priorityQueue := [0, 0, 0]
    indexToPosition := [1, -1, -1]
    size_ := 1 }

/-- The loop condition of `swim(p)` holds on entry: `p > 1` and
`priorities[heap[p]] < priorities[heap[parent(p)]]`, so `swim` performs at least one
swap. -/
def SwimSwaps {T : Type} [LinearOrder T] (q : IndexPriorityQueue T) (p : Int) : Prop :=
  1 < p ∧ ∃ ka kb, keyAt q p = some ka ∧ keyAt q (parent p) = some kb ∧ ka < kb

end Spec

end IndexPQ

/-!
# Weighted directed graph (`src/Weighted Directed Graph/graph.hpp`)

A shallow embedding of `Graph<T>` and of the tree check `isTreePlusIsolated`.

* `adjList` is a list of adjacency maps; an `unordered_map<int, T>` is a list of
  entries with distinct keys, in iteration order.
* An exception `std::out_of_range` is the result `GFault.outOfRange`; a subscript or
  iterator outside a vector is `GFault.undefinedBehaviour`.
* The recursion of `isTreeDFS` runs on an explicit fuel.
-/

namespace WGraph

open IndexPQ (lookup)

/-- Ways a call can end other than by returning a value. -/
inductive GFault where
  | outOfRange
  | undefinedBehaviour
  | outOfFuel
  deriving DecidableEq, Repr

/-- A `std::unordered_map<int, T>`: a list of `(key, value)` entries with pairwise
distinct keys; the order of the list is the iteration order, which the library
leaves open. -/
abbrev EdgeMap (T : Type) := List (Int × T)

/-- The member `unordered_map::contains`. -/
def EdgeMap.containsKey {T : Type} (m : EdgeMap T) (j : Int) : Bool :=
  m.any (fun e => decide (e.1 = j))

/-- The member `unordered_map::at`: throws `std::out_of_range` for a missing key. -/
def EdgeMap.valueAt {T : Type} (m : EdgeMap T) (j : Int) : Except GFault T :=
  match m.find? (fun e => decide (e.1 = j)) with
  | some e => .ok e.2
  | none => .error .outOfRange

/-- The member `unordered_map::insert`: an entry whose key is present is left as it is. -/
def EdgeMap.insertEntry {T : Type} (m : EdgeMap T) (j : Int) (w : T) : EdgeMap T :=
  if m.containsKey j then m else (j, w) :: m

/-- The member `unordered_map::erase(key)`. -/
def EdgeMap.eraseKey {T : Type} (m : EdgeMap T) (j : Int) : EdgeMap T :=
  m.filter (fun e => decide (e.1 ≠ j))

/-- The data members of `Graph<T>`. -/
structure Graph (T : Type) where
  adjList : List (EdgeMap T)
  numVertices : Int

/-- The constructor `Graph(int N)`: `N` empty adjacency maps. -/
def Graph.init {T : Type} (N : Nat) : Graph T :=
  { adjList := List.replicate N [], numVertices := N }

/-- The member `size`. -/
def Graph.size {T : Type} (g : Graph T) : Int := g.numVertices

/-- The member `addEdge`: throws for a vertex outside `[0, numVertices)`, otherwise
`adjList[i].insert({j, weight})`. -/
def addEdge {T : Type} (g : Graph T) (i j : Int) (weight : T) : Except GFault (Graph T) :=
  if i < 0 ∨ i ≥ g.numVertices ∨ j < 0 ∨ j ≥ g.numVertices then .error .outOfRange
  else
    match lookup g.adjList i with
    | some m => .ok { g with adjList := g.adjList.set i.toNat (m.insertEntry j weight) }
    | none => .error .undefinedBehaviour

/-- The member `removeEdge`: `adjList[i].erase(j)` when both vertices are valid. -/
def removeEdge {T : Type} (g : Graph T) (i j : Int) : Except GFault (Graph T) :=
  if i ≥ 0 ∧ i < g.numVertices ∧ j ≥ 0 ∧ j < g.numVertices then
    match lookup g.adjList i with
    | some m => .ok { g with adjList := g.adjList.set i.toNat (m.eraseKey j) }
    | none => .error .undefinedBehaviour
  else .ok g

/-- The member `isEdge`: `adjList.at(i).contains(j)` when both vertices are valid. -/
def isEdge {T : Type} (g : Graph T) (i j : Int) : Except GFault Bool :=
  if i ≥ 0 ∧ i < g.numVertices ∧ j ≥ 0 ∧ j < g.numVertices then
    match lookup g.adjList i with
    | some m => .ok (m.containsKey j)
    | none => .error .outOfRange
  else .ok false

/-- The member `getEdgeWeight`: `adjList.at(i).at(j)`; each `at` throws
`std::out_of_range` (an `int` below zero converts to an index beyond every size). -/
def getEdgeWeight {T : Type} (g : Graph T) (i j : Int) : Except GFault T :=
  match lookup g.adjList i with
  | some m => m.valueAt j
  | none => .error .outOfRange

/-- The member `neighbours` dereferenced: `*(adjList.begin() + a)`. -/
def neighbours {T : Type} (g : Graph T) (a : Int) : Except GFault (EdgeMap T) :=
  match lookup g.adjList a with
  | some m => .ok m
  | none => .error .undefinedBehaviour

/-- A read `visited[i]` of the `std::vector<bool>`. -/
def vread (visited : List Bool) (i : Int) : Except GFault Bool :=
  match lookup visited i with
  | some b => .ok b
  | none => .error .undefinedBehaviour

/-- A write `visited[i] = b`. -/
def vwrite (visited : List Bool) (i : Int) (b : Bool) : Except GFault (List Bool) :=
  if 0 ≤ i ∧ i < visited.length then .ok (visited.set i.toNat b)
  else .error .undefinedBehaviour

/-- The range-`for` loop of `isTreeDFS` over the entries of one adjacency map; `dfs`
is the recursive call. The result pairs the returned `bool` with the `visited`
vector the call leaves behind. -/
def isTreeLoop {T : Type} (dfs : Int → List Bool → Except GFault (Bool × List Bool)) :
    EdgeMap T → List Bool → Except GFault (Bool × List Bool)
  | [], visited => pure (true, visited)
  | (neighbour, _) :: rest, visited => do
    let seen ← vread visited neighbour
    if seen then pure (false, visited)
    else do
      let visited1 ← vwrite visited neighbour true
      let r ← dfs neighbour visited1
      if !r.1 then pure (false, r.2)
      else isTreeLoop dfs rest r.2

/-- The function `isTreeDFS`, one level of recursion per unit of fuel. -/
def isTreeDFS {T : Type} : Nat → Graph T → Int → List Bool →
    Except GFault (Bool × List Bool)
  | 0, _, _, _ => .error .outOfFuel
  | fuel + 1, g, root, visited => do
    let nbrs ← neighbours g root
    isTreeLoop (isTreeDFS fuel g) nbrs visited

/-- The second loop of `isTreePlusIsolated`, over the vertex numbers still to check. -/
def isolatedLoop {T : Type} (g : Graph T) (visited : List Bool) :
    List Nat → Except GFault Bool
  | [] => pure true
  | i :: rest => do
    let seen ← vread visited (i : Int)
    if !seen then do
      let nbrs ← neighbours g (i : Int)
      if nbrs.length > 0 then pure false
      else isolatedLoop g visited rest
    else isolatedLoop g visited rest

/-- The function `isTreePlusIsolated`. Every recursive call of `isTreeDFS` follows the
marking of a vertex that was not visited, so `size + 1` levels are enough. -/
def isTreePlusIsolated {T : Type} (g : Graph T) (root : Int) : Except GFault Bool := do
  let visited0 := List.replicate g.size.toNat false
  let visited1 ← vwrite visited0 root true
  let r ← isTreeDFS (g.size.toNat + 1) g root visited1
  if !r.1 then pure false
  else isolatedLoop g r.2 (List.range g.size.toNat)

/-- One call that changes a graph. -/
inductive GCall (T : Type) where
  | addEdge (i j : Int) (weight : T)
  | removeEdge (i j : Int)

/-- Run one call; an `addEdge` that throws `std::out_of_range` has not touched the
graph, and the sequence goes on with the graph as it was. -/
def gstep {T : Type} (g : Graph T) : GCall T → Except GFault (Graph T)
  | .addEdge i j w =>
    match addEdge g i j w with
    | .ok g1 => .ok g1
    | .error .outOfRange => .ok g
    | .error e => .error e
  | .removeEdge i j => removeEdge g i j

/-- Run a sequence of calls from left to right. -/
def grun {T : Type} (g : Graph T) : List (GCall T) → Except GFault (Graph T)
  | [] => pure g
  | c :: cs => do
    let g1 ← gstep g c
    grun g1 cs

/-! ## Graph properties the claims speak of -/

/-- There is an edge from `u` to `v`: the adjacency map of `u` has the key `v`. -/
def Edge {T : Type} (g : Graph T) (u v : Int) : Prop :=
  ∃ m w, lookup g.adjList u = some m ∧ (v, w) ∈ m

/-- The weight `w` is stored for the edge from `u` to `v`. -/
def HasWeight {T : Type} (g : Graph T) (u v : Int) (w : T) : Prop :=
  ∃ m, lookup g.adjList u = some m ∧ (v, w) ∈ m

/-- A directed path from `u` to `v`, given by the vertices it visits after `u`. -/
inductive Walk {T : Type} (g : Graph T) : Int → Int → List Int → Prop where
  | nil (u : Int) : Walk g u u []
  | cons {u v w : Int} {l : List Int} : Edge g u v → Walk g v w l → Walk g u w (v :: l)

/-- The vertex `v` is reachable from `u` along directed edges. -/
def Reach {T : Type} (g : Graph T) (u v : Int) : Prop := ∃ l, Walk g u v l

/-- Every vertex reachable from `root` is reached by exactly one directed path. -/
def UniquePaths {T : Type} (g : Graph T) (root : Int) : Prop :=
  ∀ v l1 l2, Walk g root v l1 → Walk g root v l2 → l1 = l2

/-- The vertex has no outgoing and no incoming edge. -/
def Isolated {T : Type} (g : Graph T) (v : Int) : Prop :=
  (∀ w, ¬ Edge g v w) ∧ (∀ u, ¬ Edge g u v)

/-- The class invariant of `Graph`: one adjacency map per vertex, and (as in every
`unordered_map`) pairwise distinct keys. -/
def WellFormed {T : Type} (g : Graph T) : Prop :=
  (g.adjList.length : Int) = g.numVertices ∧
    ∀ m ∈ g.adjList, (m.map Prod.fst).Nodup

/-- Every adjacency key is a valid vertex. -/
def KeysValid {T : Type} (g : Graph T) : Prop :=
  ∀ m ∈ g.adjList, ∀ e ∈ m, 0 ≤ e.1 ∧ e.1 < g.numVertices

/-- What holds of every graph built from `Graph(N)` by `addEdge` and `removeEdge`. -/
def GraphOf {T : Type} (N : Nat) (g : Graph T) : Prop :=
  g.numVertices = N ∧ WellFormed g ∧ KeysValid g

/-- The vertex `x` is marked in the `visited` vector. -/
def Visited (vis : List Bool) (x : Int) : Prop := lookup vis x = some true

/-- The positions of the `visited` vector that are not marked. -/
def unvisited (vis : List Bool) : Finset Nat :=
  (Finset.range vis.length).filter (fun i => vis[i]? ≠ some true)

/-- The vertex `x` is one of the vertices `ks` or reachable from one of them. -/
def ReachFrom {T : Type} (g : Graph T) (ks : List Int) (x : Int) : Prop :=
  ∃ a, a ∈ ks ∧ Reach g a x

/-- No vertex is reached by two different directed paths that start in `ks`. -/
def UniqueFrom {T : Type} (g : Graph T) (ks : List Int) : Prop :=
  ∀ a1 a2 x l1 l2, a1 ∈ ks → a2 ∈ ks → Walk g a1 x l1 → Walk g a2 x l2 →
    a1 = a2 ∧ l1 = l2

/-- What a depth-first pass over the vertices `ks`, started with the marks `vis`,
leaves behind: on `true` the marks gained are exactly the vertices reachable from
`ks`, none of which was marked, each reached by one path; on `false` a reachable
vertex was marked already or is reached by two paths. -/
def DfsPost {T : Type} (g : Graph T) (ks : List Int) (vis : List Bool)
    (r : Bool × List Bool) : Prop :=
  (r.1 = true → r.2.length = vis.length ∧
      (∀ x, Visited r.2 x ↔ (Visited vis x ∨ ReachFrom g ks x)) ∧
      (∀ x, ReachFrom g ks x → ¬ Visited vis x) ∧ UniqueFrom g ks) ∧
  (r.1 = false → ((∃ x, ReachFrom g ks x ∧ Visited vis x) ∨ ¬ UniqueFrom g ks))

/-- A tree rooted at vertex 0 (edges 0→1, 0→2, 1→3) next to the isolated vertex 4. -/
def sampleTree : Graph Int :=
  { adjList := [[(1, 5), (2, 3)], [(3, 1)], [], [], []], numVertices := 5 }

end WGraph

namespace IndexPQ

/-! ## Reads and writes -/

theorem lookup_eq_some_iff {α : Type} (xs : List α) (i : Int) (v : α) :
    lookup xs i = some v ↔ 0 ≤ i ∧ xs[i.toNat]? = some v := by
  unfold lookup
  by_cases h : 0 ≤ i <;> simp [h]

theorem lookup_bounds {α : Type} {xs : List α} {i : Int} {v : α}
    (h : lookup xs i = some v) : 0 ≤ i ∧ i < xs.length := by
  rw [lookup_eq_some_iff] at h
  obtain ⟨h0, h1⟩ := h
  have := (List.getElem?_eq_some_iff.1 h1).1
  omega

theorem lookup_defined {α : Type} {xs : List α} {i : Int}
    (h0 : 0 ≤ i) (h1 : i < xs.length) : ∃ v, lookup xs i = some v := by
  have h2 : i.toNat < xs.length := by omega
  exact ⟨xs[i.toNat], by simp [lookup, h0, List.getElem?_eq_getElem h2]⟩

theorem lookup_set {α : Type} (xs : List α) (i j : Int) (v : α)
    (h0 : 0 ≤ i) (h1 : i < xs.length) :
    lookup (xs.set i.toNat v) j = if j = i then some v else lookup xs j := by
  unfold lookup
  by_cases hj : 0 ≤ j
  · by_cases hji : j = i
    · subst hji
      have h2 : j.toNat < xs.length := by omega
      simp [hj, h2]
    · have hne : i.toNat ≠ j.toNat := by omega
      simp [hj, hji, List.getElem?_set_ne hne]
  · have hji : j ≠ i := by omega
    simp [hj, hji]

theorem lookup_dropLast {α : Type} (xs : List α) (j : Int)
    (h : j + 1 < xs.length) : lookup xs.dropLast j = lookup xs j := by
  unfold lookup
  by_cases hj : 0 ≤ j
  · simp only [hj, if_true]
    have h2 : j.toNat < xs.length - 1 := by omega
    rw [List.dropLast_eq_take, List.getElem?_take_of_lt h2]
  · simp [hj]

theorem readAt_of_lookup {α : Type} {xs : List α} {i : Int} {v : α}
    (h : lookup xs i = some v) : readAt xs i = .ok v := by
  simp [readAt, h]

theorem writeAt_of_bounds {α : Type} (xs : List α) (i : Int) (v : α)
    (h0 : 0 ≤ i) (h1 : i < xs.length) : writeAt xs i v = .ok (xs.set i.toNat v) := by
  simp [writeAt, h0, h1]

theorem parent_eq_div {i : Int} (h : 0 ≤ i) : parent i = i / 2 := by
  unfold parent
  exact Int.tdiv_eq_ediv h (by norm_num)

section
variable {T : Type}

theorem exchanged_pq (q : IndexPriorityQueue T) (a b x y p : Int)
    (ha : lookup q.priorityQueue a = some x) (hb : lookup q.priorityQueue b = some y) :
    lookup (exchanged q a b x y).priorityQueue p =
      if p = b then some x else if p = a then some y else lookup q.priorityQueue p := by
  have ba := lookup_bounds ha
  have bb := lookup_bounds hb
  unfold exchanged
  simp only
  rw [lookup_set _ _ _ _ bb.1 (by simpa using bb.2), lookup_set _ _ _ _ ba.1 ba.2]

theorem exchanged_itp (q : IndexPriorityQueue T) (a b x y i : Int)
    (hx : 0 ≤ x ∧ x < q.indexToPosition.length) (hy : 0 ≤ y ∧ y < q.indexToPosition.length) :
    lookup (exchanged q a b x y).indexToPosition i =
      if i = x then some b else if i = y then some a else lookup q.indexToPosition i := by
  unfold exchanged
  simp only
  rw [lookup_set _ _ _ _ hx.1 (by simpa using hx.2), lookup_set _ _ _ _ hy.1 hy.2]

theorem exchange_steps (q : IndexPriorityQueue T) (a b x y : Int)
    (ha : lookup q.priorityQueue a = some x) (hb : lookup q.priorityQueue b = some y)
    (hx : 0 ≤ x ∧ x < q.indexToPosition.length) (hy : 0 ≤ y ∧ y < q.indexToPosition.length) :
    ∃ q1 q2, swapPQ q a b = .ok q1 ∧ setIndexToPosAsPq q1 a = .ok q2 ∧
      setIndexToPosAsPq q2 b = .ok (exchanged q a b x y) := by
  have ba := lookup_bounds ha
  have bb := lookup_bounds hb
  have hb1 : b < ((q.priorityQueue.set a.toNat y).length : Int) := by simpa using bb.2
  have e1 : swapPQ q a b =
      .ok { q with priorityQueue := (q.priorityQueue.set a.toNat y).set b.toNat x } := by
    unfold swapPQ
    rw [readAt_of_lookup ha, readAt_of_lookup hb]
    simp only [bind, Except.bind]
    rw [writeAt_of_bounds _ _ _ ba.1 ba.2]
    simp only
    rw [writeAt_of_bounds _ _ _ bb.1 hb1]
    rfl
  have la : lookup ((q.priorityQueue.set a.toNat y).set b.toNat x) a = some y := by
    rw [lookup_set _ _ _ _ bb.1 hb1, lookup_set _ _ _ _ ba.1 ba.2]
    by_cases hab : a = b
    · subst hab
      rw [ha] at hb
      simp [hb]
    · simp [hab]
  have lb : lookup ((q.priorityQueue.set a.toNat y).set b.toNat x) b = some x := by
    rw [lookup_set _ _ _ _ bb.1 hb1]
    simp
  refine ⟨_, { q with priorityQueue := (q.priorityQueue.set a.toNat y).set b.toNat x,
                       indexToPosition := q.indexToPosition.set y.toNat a }, e1, ?_, ?_⟩
  · unfold setIndexToPosAsPq
    simp only
    rw [readAt_of_lookup la]
    simp only [bind, Except.bind]
    rw [writeAt_of_bounds _ _ _ hy.1 hy.2]
    rfl
  · unfold setIndexToPosAsPq
    simp only
    rw [readAt_of_lookup lb]
    simp only [bind, Except.bind]
    rw [writeAt_of_bounds _ _ _ hx.1 (by simpa using hx.2)]
    rfl

end

section
variable {T : Type}

theorem I1_inj {q : IndexPriorityQueue T} (h1 : I1 q) {p r i : Int}
    (hp : 1 ≤ p ∧ p ≤ q.size_) (hr : 1 ≤ r ∧ r ≤ q.size_)
    (ep : lookup q.priorityQueue p = some i) (er : lookup q.priorityQueue r = some i) :
    p = r := by
  obtain ⟨i1, a1, b1⟩ := h1 p hp.1 hp.2
  obtain ⟨i2, a2, b2⟩ := h1 r hr.1 hr.2
  rw [ep] at a1
  rw [er] at a2
  cases a1
  cases a2
  rw [b1] at b2
  exact Option.some.inj b2

theorem I5_of_I1 {q : IndexPriorityQueue T} (h1 : I1 q) : I5 q := by
  intro p r i hp1 hp2 hr1 hr2 ep er
  exact I1_inj h1 ⟨hp1, hp2⟩ ⟨hr1, hr2⟩ ep er

theorem I1_index_bounds {q : IndexPriorityQueue T} (h1 : I1 q) {p i : Int}
    (hp : 1 ≤ p ∧ p ≤ q.size_) (ep : lookup q.priorityQueue p = some i) :
    0 ≤ i ∧ i < q.indexToPosition.length := by
  obtain ⟨i1, a1, b1⟩ := h1 p hp.1 hp.2
  rw [ep] at a1
  cases a1
  exact lookup_bounds b1

theorem I1_position {q : IndexPriorityQueue T} (h1 : I1 q) {p i : Int}
    (hp : 1 ≤ p ∧ p ≤ q.size_) (ep : lookup q.priorityQueue p = some i) :
    lookup q.indexToPosition i = some p := by
  obtain ⟨i1, a1, b1⟩ := h1 p hp.1 hp.2
  rw [ep] at a1
  cases a1
  exact b1

theorem exchanged_I1 {q : IndexPriorityQueue T} (h1 : I1 q) {a b x y : Int}
    (ha : 1 ≤ a ∧ a ≤ q.size_) (hb : 1 ≤ b ∧ b ≤ q.size_)
    (ea : lookup q.priorityQueue a = some x) (eb : lookup q.priorityQueue b = some y) :
    I1 (exchanged q a b x y) := by
  have bx := I1_index_bounds h1 ha ea
  have bY := I1_index_bounds h1 hb eb
  intro p hp1 hp2
  have hp2 : p ≤ q.size_ := hp2
  rw [exchanged_pq q a b x y p ea eb]
  by_cases hpb : p = b
  · refine ⟨x, by simp [hpb], ?_⟩
    rw [exchanged_itp q a b x y x bx bY]
    simp [hpb]
  · by_cases hpa : p = a
    · have hyx : y ≠ x := by
        intro e
        rw [e] at eb
        exact hpb (hpa.trans (I1_inj h1 ha hb ea eb))
      subst hpa
      refine ⟨y, by simp [hpb], ?_⟩
      rw [exchanged_itp q p b x y y bx bY]
      simp [hyx]
    · obtain ⟨i, ei, pi⟩ := h1 p hp1 hp2
      have hix : i ≠ x := by
        intro e
        rw [e] at ei
        exact hpa (I1_inj h1 ⟨hp1, hp2⟩ ha ei ea)
      have hiy : i ≠ y := by
        intro e
        rw [e] at ei
        exact hpb (I1_inj h1 ⟨hp1, hp2⟩ hb ei eb)
      refine ⟨i, by simp [hpb, hpa, ei], ?_⟩
      rw [exchanged_itp q a b x y i bx bY]
      simp [hix, hiy, pi]

theorem exchanged_I2 {q : IndexPriorityQueue T} (h1 : I1 q) (h2 : I2 q) {a b x y : Int}
    (ha : 1 ≤ a ∧ a ≤ q.size_) (hb : 1 ≤ b ∧ b ≤ q.size_)
    (ea : lookup q.priorityQueue a = some x) (eb : lookup q.priorityQueue b = some y) :
    I2 (exchanged q a b x y) := by
  have bx := I1_index_bounds h1 ha ea
  have bY := I1_index_bounds h1 hb eb
  intro i pos hi hne
  rw [exchanged_itp q a b x y i bx bY] at hi
  rw [exchanged_pq q a b x y pos ea eb]
  show 1 ≤ pos ∧ pos ≤ q.size_ ∧ _
  by_cases hix : i = x
  · simp only [hix, if_true, Option.some.injEq] at hi
    subst hi
    exact ⟨hb.1, hb.2, by simp [hix]⟩
  · by_cases hiy : i = y
    · subst hiy
      simp only [hix, if_false, if_true, Option.some.injEq] at hi
      subst hi
      refine ⟨ha.1, ha.2, ?_⟩
      by_cases hab : a = b
      · subst hab
        rw [ea] at eb
        cases eb
        exact absurd rfl hix
      · simp [hab]
    · simp only [hix, hiy, if_false] at hi
      obtain ⟨r1, r2, r3⟩ := h2 i pos hi hne
      have hpa : pos ≠ a := by
        intro e
        rw [e, ea] at r3
        exact hix (Option.some.inj r3).symm
      have hpb : pos ≠ b := by
        intro e
        rw [e, eb] at r3
        exact hiy (Option.some.inj r3).symm
      exact ⟨r1, r2, by simp [hpa, hpb, r3]⟩

theorem exchanged_present {q : IndexPriorityQueue T} (h1 : I1 q) {a b x y : Int}
    (ha : 1 ≤ a ∧ a ≤ q.size_) (hb : 1 ≤ b ∧ b ≤ q.size_)
    (ea : lookup q.priorityQueue a = some x) (eb : lookup q.priorityQueue b = some y)
    (i : Int) : present (exchanged q a b x y) i ↔ present q i := by
  have bx := I1_index_bounds h1 ha ea
  have bY := I1_index_bounds h1 hb eb
  have px := I1_position h1 ha ea
  have pY := I1_position h1 hb eb
  unfold present
  rw [exchanged_itp q a b x y i bx bY]
  by_cases hix : i = x
  · subst hix
    simp only [if_true, px]
    constructor
    · intro _
      exact ⟨a, rfl, by omega⟩
    · intro _
      exact ⟨b, rfl, by omega⟩
  · by_cases hiy : i = y
    · subst hiy
      simp only [hix, if_false, if_true, pY]
      constructor
      · intro _
        exact ⟨b, rfl, by omega⟩
      · intro _
        exact ⟨a, rfl, by omega⟩
    · simp [hix, hiy]

theorem exchanged_keyAt (q : IndexPriorityQueue T) {a b x y : Int}
    (ea : lookup q.priorityQueue a = some x) (eb : lookup q.priorityQueue b = some y)
    (p : Int) :
    keyAt (exchanged q a b x y) p =
      if p = b then keyAt q a else if p = a then keyAt q b else keyAt q p := by
  unfold keyAt
  rw [exchanged_pq q a b x y p ea eb]
  have : (exchanged q a b x y).priorities = q.priorities := rfl
  rw [this]
  by_cases hpb : p = b
  · simp [hpb, ea]
  · by_cases hpa : p = a
    · subst hpa
      simp [hpb, eb]
    · simp [hpb, hpa]

end

section
variable {T : Type}

theorem keyAt_eq_some_iff (q : IndexPriorityQueue T) (p : Int) (k : T) :
    keyAt q p = some k ↔
      ∃ i, lookup q.priorityQueue p = some i ∧ lookup q.priorities i = some k := by
  unfold keyAt
  cases h : lookup q.priorityQueue p <;> simp

theorem keyAt_defined {q : IndexPriorityQueue T} (h1 : I1 q)
    (hlen : q.indexToPosition.length ≤ q.priorities.length) {p : Int}
    (hp : 1 ≤ p ∧ p ≤ q.size_) :
    ∃ i k, lookup q.priorityQueue p = some i ∧ lookup q.priorities i = some k ∧
      keyAt q p = some k := by
  obtain ⟨i, ei, pi⟩ := h1 p hp.1 hp.2
  have bi := lookup_bounds pi
  obtain ⟨k, ek⟩ := @lookup_defined T q.priorities i bi.1 (by omega)
  exact ⟨i, k, ei, ek, (keyAt_eq_some_iff q p k).2 ⟨i, ei, ek⟩⟩

theorem exchanged_length_pq (q : IndexPriorityQueue T) (a b x y : Int) :
    (exchanged q a b x y).priorityQueue.length = q.priorityQueue.length := by
  simp [exchanged]

theorem exchanged_length_itp (q : IndexPriorityQueue T) (a b x y : Int) :
    (exchanged q a b x y).indexToPosition.length = q.indexToPosition.length := by
  simp [exchanged]

end

section
variable {T : Type} [LinearOrder T]

theorem LeAt_trans {q : IndexPriorityQueue T} {a b c : Int}
    (h : LeAt q a b) (g : LeAt q b c) : LeAt q a c := by
  obtain ⟨ka, kb, ea, eb, hab⟩ := h
  obtain ⟨kb2, kc, eb2, ec, hbc⟩ := g
  rw [eb] at eb2
  cases eb2
  exact ⟨ka, kc, ea, ec, le_trans hab hbc⟩

theorem LeAt_congr {q r : IndexPriorityQueue T} {a b c d : Int}
    (e1 : keyAt r a = keyAt q c) (e2 : keyAt r b = keyAt q d) (h : LeAt q c d) :
    LeAt r a b := by
  obtain ⟨kc, kd, ec, ed, hcd⟩ := h
  exact ⟨kc, kd, e1.trans ec, e2.trans ed, hcd⟩

/-- The loop of `swim` from a state whose only heap-order defect is at `p`. -/
theorem swimAux_spec (fuel : Nat) : ∀ (q : IndexPriorityQueue T) (p : Int),
    p.toNat < fuel → I1 q → I2 q → q.indexToPosition.length ≤ q.priorities.length →
    1 ≤ p → p ≤ q.size_ →
    (∀ r, 2 ≤ r → r ≤ q.size_ → r ≠ p → LeAt q (parent r) r) →
    (1 < p → ∀ c, 2 ≤ c → c ≤ q.size_ → parent c = p → LeAt q (parent p) c) →
    ∃ q', swimAux fuel q p = .ok q' ∧ q'.size_ = q.size_ ∧ q'.priorities = q.priorities ∧
      q'.priorityQueue.length = q.priorityQueue.length ∧
      q'.indexToPosition.length = q.indexToPosition.length ∧
      I1 q' ∧ I2 q' ∧ I3 q' ∧ (∀ i, present q' i ↔ present q i) ∧
      (∀ r, (r < 1 ∨ q.size_ < r) → lookup q'.priorityQueue r = lookup q.priorityQueue r) := by
  induction fuel with
  | zero => intro q p hf; omega
  | succ fuel ih =>
    intro q p hf h1 h2 hlen hp1 hp2 hord hgp
    unfold swimAux
    by_cases hgt : p > 1
    · have hpar : parent p = p / 2 := parent_eq_div (by omega)
      have hg : 1 ≤ parent p ∧ parent p ≤ q.size_ := by rw [hpar]; omega
      obtain ⟨a, ka, ea, eka, kka⟩ := keyAt_defined h1 hlen ⟨hp1, hp2⟩
      obtain ⟨b, kb, eb, ekb, kkb⟩ := keyAt_defined h1 hlen hg
      simp only [hgt, if_true]
      rw [readAt_of_lookup ea, readAt_of_lookup eb]
      simp only [bind, Except.bind]
      rw [readAt_of_lookup eka, readAt_of_lookup ekb]
      simp only
      by_cases hlt : ka < kb
      · simp only [hlt, if_true]
        obtain ⟨q1, q2, s1, s2, s3⟩ := exchange_steps q p (parent p) a b ea eb
          (I1_index_bounds h1 ⟨hp1, hp2⟩ ea) (I1_index_bounds h1 hg eb)
        rw [s1]
        simp only
        rw [s2]
        simp only
        rw [s3]
        simp only
        have key3 := exchanged_keyAt q ea eb
        have n1 := exchanged_I1 h1 ⟨hp1, hp2⟩ hg ea eb
        have n2 := exchanged_I2 h1 h2 ⟨hp1, hp2⟩ hg ea eb
        have hgne : parent p ≠ p := by rw [hpar]; omega
        obtain ⟨q', r0, r1, r2, r3, r4, r5, r6, r7, r8, r9⟩ :=
          ih (exchanged q p (parent p) a b) (parent p) (by rw [hpar]; omega) n1 n2
            (by rw [exchanged_length_itp]; exact hlen) hg.1 hg.2
            (by
              intro r hr2 hrs hrg
              have hrs : r ≤ q.size_ := hrs
              have hrpar : parent r = r / 2 := parent_eq_div (by omega)
              by_cases hrp : r = p
              · subst hrp
                refine ⟨ka, kb, ?_, ?_, le_of_lt hlt⟩
                · rw [key3]; simp [kka]
                · rw [key3]; simp [hgne.symm, kkb]
              · by_cases hu : parent r = parent p
                · have := hord r hr2 hrs hrp
                  obtain ⟨kb2, kr, e1, e2, hle⟩ := this
                  rw [hu, kkb] at e1
                  cases e1
                  refine ⟨ka, kr, ?_, ?_, le_trans (le_of_lt hlt) hle⟩
                  · rw [key3]; simp [hu, kka]
                  · rw [key3]; simp [hrg, hrp, e2]
                · by_cases hu2 : parent r = p
                  · have := hgp hgt r hr2 hrs hu2
                    refine LeAt_congr ?_ ?_ this
                    · rw [key3]; simp [hu2, hgne.symm]
                    · rw [key3]; simp [hrg, hrp]
                  · refine LeAt_congr ?_ ?_ (hord r hr2 hrs hrp)
                    · rw [key3]; simp [hu, hu2]
                    · rw [key3]; simp [hrg, hrp])
            (by
              intro hg1 c hc2 hcs hcg
              have hcs : c ≤ q.size_ := hcs
              have hcpar : parent c = c / 2 := parent_eq_div (by omega)
              have hgpar : parent (parent p) = parent p / 2 := parent_eq_div (by omega)
              have hgg1 : parent (parent p) ≠ parent p := by rw [hgpar]; omega
              have hgg2 : parent (parent p) ≠ p := by rw [hgpar, hpar]; omega
              have hcg2 : c ≠ parent p := by rw [← hcg, hcpar]; omega
              have base : LeAt q (parent (parent p)) (parent p) :=
                hord (parent p) (by omega) hg.2 hgne
              by_cases hcp : c = p
              · subst hcp
                refine LeAt_congr ?_ ?_ base
                · rw [key3]; simp [hgg1, hgg2]
                · rw [key3]; simp [hcg2]
              · refine LeAt_congr ?_ ?_ (LeAt_trans base (hcg ▸ hord c hc2 hcs hcp))
                · rw [key3]; simp [hgg1, hgg2]
                · rw [key3]; simp [hcg2, hcp])
        refine ⟨q', r0, r1, r2, ?_, ?_, r5, r6, r7, ?_, ?_⟩
        · rw [r3, exchanged_length_pq]
        · rw [r4, exchanged_length_itp]
        · intro i
          rw [r8 i]
          exact exchanged_present h1 ⟨hp1, hp2⟩ hg ea eb i
        · intro r hr
          have hr' : r < 1 ∨ (exchanged q p (parent p) a b).size_ < r := hr
          rw [r9 r hr', exchanged_pq q p (parent p) a b r ea eb]
          have e1 : r ≠ parent p := by omega
          have e2 : r ≠ p := by omega
          simp [e1, e2]
      · simp only [hlt, if_false]
        refine ⟨q, rfl, rfl, rfl, rfl, rfl, h1, h2, ?_, fun _ => Iff.rfl, fun _ _ => rfl⟩
        intro r hr2 hrs
        by_cases hrp : r = p
        · subst hrp
          exact ⟨kb, ka, kkb, kka, not_lt.1 hlt⟩
        · exact hord r hr2 hrs hrp
    · simp only [hgt, if_false]
      refine ⟨q, rfl, rfl, rfl, rfl, rfl, h1, h2, ?_, fun _ => Iff.rfl, fun _ _ => rfl⟩
      intro r hr2 hrs
      exact hord r hr2 hrs (by omega)

end

section
variable {T : Type} [LinearOrder T]

theorem LeAt_refl {q : IndexPriorityQueue T} {a : Int} {k : T}
    (h : keyAt q a = some k) : LeAt q a a :=
  ⟨k, k, h, h, le_refl k⟩

/-- The child `sink` compares with is a child of `p` within `[1, size]` whose
priority is least among the children of `p`. -/
theorem smallerChild_spec {q : IndexPriorityQueue T} (h1 : I1 q)
    (hlen : q.indexToPosition.length ≤ q.priorities.length) {p : Int}
    (hp1 : 1 ≤ p) (hl : leftChild p ≤ q.size_) :
    ∃ m, smallerChild q p = .ok m ∧ (m = 2 * p ∨ m = 2 * p + 1) ∧ m ≤ q.size_ ∧
      ∀ c, 2 ≤ c → c ≤ q.size_ → parent c = p → LeAt q m c := by
  unfold leftChild at hl
  unfold smallerChild
  simp only [leftChild, rightChild]
  obtain ⟨l, kl, el, ekl, kkl⟩ := keyAt_defined h1 hlen (p := 2 * p) ⟨by omega, hl⟩
  by_cases hr : 2 * p < q.size_
  · obtain ⟨r, kr, er, ekr, kkr⟩ := keyAt_defined h1 hlen (p := 2 * p + 1) ⟨by omega, by omega⟩
    simp only [hr, if_true]
    rw [readAt_of_lookup el, readAt_of_lookup er]
    simp only [bind, Except.bind]
    rw [readAt_of_lookup ekl, readAt_of_lookup ekr]
    simp only [pure, Except.pure]
    by_cases hgt : kl > kr
    · refine ⟨2 * p + 1, by simp [hgt], Or.inr rfl, by omega, ?_⟩
      intro c hc2 hcs hcp
      rw [parent_eq_div (by omega)] at hcp
      have : c = 2 * p ∨ c = 2 * p + 1 := by omega
      rcases this with e | e
      · subst e; exact ⟨kr, kl, kkr, kkl, le_of_lt hgt⟩
      · subst e; exact LeAt_refl kkr
    · refine ⟨2 * p, by simp [hgt], Or.inl rfl, by omega, ?_⟩
      intro c hc2 hcs hcp
      rw [parent_eq_div (by omega)] at hcp
      have : c = 2 * p ∨ c = 2 * p + 1 := by omega
      rcases this with e | e
      · subst e; exact LeAt_refl kkl
      · subst e; exact ⟨kl, kr, kkl, kkr, not_lt.1 hgt⟩
  · simp only [hr, if_false]
    refine ⟨2 * p, rfl, Or.inl rfl, hl, ?_⟩
    intro c hc2 hcs hcp
    rw [parent_eq_div (by omega)] at hcp
    have : c = 2 * p := by omega
    subst this
    exact LeAt_refl kkl

/-- The loop of `sink` from a state whose only heap-order defect is between `p`
and its children. -/
theorem sinkAux_spec (fuel : Nat) : ∀ (q : IndexPriorityQueue T) (p : Int),
    (q.size_ - p).toNat < fuel → I1 q → I2 q →
    q.indexToPosition.length ≤ q.priorities.length →
    1 ≤ p →
    (∀ r, 2 ≤ r → r ≤ q.size_ → parent r ≠ p → LeAt q (parent r) r) →
    (1 < p → ∀ c, 2 ≤ c → c ≤ q.size_ → parent c = p → LeAt q (parent p) c) →
    ∃ q', sinkAux fuel q p = .ok q' ∧ q'.size_ = q.size_ ∧ q'.priorities = q.priorities ∧
      q'.priorityQueue.length = q.priorityQueue.length ∧
      q'.indexToPosition.length = q.indexToPosition.length ∧
      I1 q' ∧ I2 q' ∧ I3 q' ∧ (∀ i, present q' i ↔ present q i) ∧
      (∀ r, (r < 1 ∨ q.size_ < r) → lookup q'.priorityQueue r = lookup q.priorityQueue r) := by
  induction fuel with
  | zero => intro q p hf; omega
  | succ fuel ih =>
    intro q p hf h1 h2 hlen hp1 hord hgp
    unfold sinkAux
    by_cases hl : leftChild p ≤ q.size_
    · have hp2 : p ≤ q.size_ := by unfold leftChild at hl; omega
      obtain ⟨m, em, hm, hms, hmin⟩ := smallerChild_spec h1 hlen hp1 hl
      have hm1 : 1 ≤ m ∧ m ≤ q.size_ := ⟨by omega, hms⟩
      have hmpar : parent m = p := by rw [parent_eq_div (by omega)]; omega
      have hmp : m ≠ p := by omega
      obtain ⟨a, ka, ea, eka, kka⟩ := keyAt_defined h1 hlen ⟨hp1, hp2⟩
      obtain ⟨c, kc, ec, ekc, kkc⟩ := keyAt_defined h1 hlen hm1
      simp only [hl, if_true]
      rw [em]
      simp only [bind, Except.bind]
      rw [readAt_of_lookup ea, readAt_of_lookup ec]
      simp only
      rw [readAt_of_lookup eka, readAt_of_lookup ekc]
      simp only
      by_cases hle : ka ≤ kc
      · simp only [hle, if_true]
        refine ⟨q, rfl, rfl, rfl, rfl, rfl, h1, h2, ?_, fun _ => Iff.rfl, fun _ _ => rfl⟩
        intro r hr2 hrs
        by_cases hrp : parent r = p
        · rw [hrp]
          exact LeAt_trans ⟨ka, kc, kka, kkc, hle⟩ (hmin r hr2 hrs hrp)
        · exact hord r hr2 hrs hrp
      · simp only [hle, if_false]
        obtain ⟨q1, q2, s1, s2, s3⟩ := exchange_steps q p m a c ea ec
          (I1_index_bounds h1 ⟨hp1, hp2⟩ ea) (I1_index_bounds h1 hm1 ec)
        rw [s1]
        simp only
        rw [s2]
        simp only
        rw [s3]
        simp only
        have key3 := exchanged_keyAt q ea ec
        have n1 := exchanged_I1 h1 ⟨hp1, hp2⟩ hm1 ea ec
        have n2 := exchanged_I2 h1 h2 ⟨hp1, hp2⟩ hm1 ea ec
        obtain ⟨q', r0, r1, r2, r3, r4, r5, r6, r7, r8, r9⟩ :=
          ih (exchanged q p m a c) m
            (by
              have : (exchanged q p m a c).size_ = q.size_ := rfl
              rw [this]; omega)
            n1 n2
            (by rw [exchanged_length_itp]; exact hlen) hm1.1
            (by
              intro r hr2 hrs hrm
              have hrs : r ≤ q.size_ := hrs
              have hrpar : parent r = r / 2 := parent_eq_div (by omega)
              by_cases hr_m : r = m
              · subst hr_m
                refine ⟨kc, ka, ?_, ?_, le_of_lt (not_le.1 hle)⟩
                · rw [key3]; simp [hmpar, hmp.symm, kkc]
                · rw [key3]; simp [kka]
              · by_cases hr_p : r = p
                · subst hr_p
                  have hg1 : parent r ≠ m := hrm
                  have hg2 : parent r ≠ r := by rw [hrpar]; omega
                  refine LeAt_congr ?_ ?_ (hgp (by omega) m (by omega) hms hmpar)
                  · rw [key3]; simp [hg1, hg2]
                  · rw [key3]; simp [hmp.symm]
                · by_cases hu : parent r = p
                  · refine LeAt_congr ?_ ?_ (hmin r hr2 hrs hu)
                    · rw [key3]; simp [hu, hmp.symm]
                    · rw [key3]; simp [hr_m, hr_p]
                  · refine LeAt_congr ?_ ?_ (hord r hr2 hrs hu)
                    · rw [key3]; simp [hrm, hu]
                    · rw [key3]; simp [hr_m, hr_p])
            (by
              intro _ c2 hc2 hcs hcm
              have hcs : c2 ≤ q.size_ := hcs
              have hcpar : parent c2 = c2 / 2 := parent_eq_div (by omega)
              have e1 : c2 ≠ m := by rw [hcpar] at hcm; omega
              have e2 : c2 ≠ p := by rw [hcpar] at hcm; omega
              rw [hmpar]
              refine LeAt_congr ?_ ?_ (hcm ▸ hord c2 hc2 hcs (by rw [hcm]; exact hmp))
              · rw [key3]; simp [hmp.symm]
              · rw [key3]; simp [e1, e2])
        refine ⟨q', r0, r1, r2, ?_, ?_, r5, r6, r7, ?_, ?_⟩
        · rw [r3, exchanged_length_pq]
        · rw [r4, exchanged_length_itp]
        · intro i
          rw [r8 i]
          exact exchanged_present h1 ⟨hp1, hp2⟩ hm1 ea ec i
        · intro r hr
          have hr' : r < 1 ∨ (exchanged q p m a c).size_ < r := hr
          rw [r9 r hr', exchanged_pq q p m a c r ea ec]
          have e1 : r ≠ m := by omega
          have e2 : r ≠ p := by omega
          simp [e1, e2]
    · simp only [hl, if_false]
      refine ⟨q, rfl, rfl, rfl, rfl, rfl, h1, h2, ?_, fun _ => Iff.rfl, fun _ _ => rfl⟩
      intro r hr2 hrs
      refine hord r hr2 hrs ?_
      rw [parent_eq_div (by omega)]
      unfold leftChild at hl
      omega

end

section
variable {T : Type}

theorem contains_iff_present (q : IndexPriorityQueue T) (i : Int) :
    contains q i = true ↔ present q i := by
  unfold contains present
  cases h : lookup q.indexToPosition i with
  | none => simp
  | some pos =>
    have b := lookup_bounds h
    simp [b.1, b.2]

theorem contains_eq_false_iff (q : IndexPriorityQueue T) (i : Int) :
    contains q i = false ↔ ¬ present q i := by
  rw [← contains_iff_present]
  simp

end

section
variable {T : Type} [LinearOrder T]

/-- Under heap order the root slot holds a least priority. -/
theorem root_le {q : IndexPriorityQueue T} (h1 : I1 q)
    (hlen : q.indexToPosition.length ≤ q.priorities.length) (h3 : I3 q) :
    ∀ (n : Nat) (p : Int), p.toNat = n → 1 ≤ p → p ≤ q.size_ → LeAt q 1 p := by
  intro n
  induction n using Nat.strong_induction_on with
  | _ n ih =>
    intro p hn hp1 hp2
    by_cases hp : p = 1
    · subst hp
      obtain ⟨i, k, _, _, kk⟩ := keyAt_defined h1 hlen ⟨hp1, hp2⟩
      exact LeAt_refl kk
    · have hpar : parent p = p / 2 := parent_eq_div (by omega)
      have step := h3 p (by omega) hp2
      have up := ih (parent p).toNat (by rw [hpar]; omega) (parent p) rfl
        (by rw [hpar]; omega) (by rw [hpar]; omega)
      exact LeAt_trans up step

theorem top_spec {q : IndexPriorityQueue T} (h1 : I1 q) (h2 : I2 q) (h3 : I3 q)
    (hlen : q.indexToPosition.length ≤ q.priorities.length) (hs : 1 ≤ q.size_) :
    ∃ i0 k0, lookup q.priorityQueue 1 = some i0 ∧ lookup q.priorities i0 = some k0 ∧
      top q = .ok (k0, i0) ∧ present q i0 ∧
      ∀ j, present q j → ∃ kj, lookup q.priorities j = some kj ∧ k0 ≤ kj := by
  obtain ⟨i0, k0, e0, ek0, kk0⟩ := keyAt_defined h1 hlen (p := 1) ⟨le_refl 1, hs⟩
  refine ⟨i0, k0, e0, ek0, ?_, ?_, ?_⟩
  · unfold top
    rw [readAt_of_lookup e0]
    simp only [bind, Except.bind]
    rw [readAt_of_lookup ek0]
    rfl
  · exact ⟨1, I1_position h1 ⟨le_refl 1, hs⟩ e0, by omega⟩
  · intro j hj
    obtain ⟨pos, epos, hne⟩ := hj
    obtain ⟨p1, p2, ej⟩ := h2 j pos epos hne
    obtain ⟨ka, kb, ea, eb, hab⟩ := root_le h1 hlen h3 pos.toNat pos rfl p1 p2
    rw [kk0] at ea
    cases ea
    obtain ⟨i, ei, eki⟩ := (keyAt_eq_some_iff q pos kb).1 eb
    rw [ej] at ei
    cases ei
    exact ⟨kb, eki, hab⟩

end

section
variable {T : Type}

theorem detached_pq (q : IndexPriorityQueue T) (pos x last r : Int)
    (ea : lookup q.priorityQueue pos = some x)
    (eb : lookup q.priorityQueue q.size_ = some last) :
    lookup (detached q pos x last).priorityQueue r =
      if r = q.size_ then some x else if r = pos then some last
      else lookup q.priorityQueue r := by
  have ba := lookup_bounds ea
  have bb := lookup_bounds eb
  unfold detached
  simp only
  rw [lookup_set _ _ _ _ bb.1 (by simpa using bb.2), lookup_set _ _ _ _ ba.1 ba.2]

theorem detached_itp (q : IndexPriorityQueue T) (pos x last i : Int)
    (hx : 0 ≤ x ∧ x < q.indexToPosition.length)
    (hl : 0 ≤ last ∧ last < q.indexToPosition.length) :
    lookup (detached q pos x last).indexToPosition i =
      if i = x then some (-1) else if i = last then some pos
      else lookup q.indexToPosition i := by
  unfold detached
  simp only
  rw [lookup_set _ _ _ _ hx.1 (by simpa using hx.2), lookup_set _ _ _ _ hl.1 hl.2]

theorem detach_steps (q : IndexPriorityQueue T) (pos x last : Int)
    (ea : lookup q.priorityQueue pos = some x)
    (eb : lookup q.priorityQueue q.size_ = some last)
    (hx : 0 ≤ x ∧ x < q.indexToPosition.length)
    (hl : 0 ≤ last ∧ last < q.indexToPosition.length) :
    ∃ q1 q2 itp, swapPQ q pos q.size_ = .ok q1 ∧ setIndexToPosAsPq q1 pos = .ok q2 ∧
      writeAt q2.indexToPosition x (-1) = .ok itp ∧
      { q2 with indexToPosition := itp, size_ := q2.size_ - 1 } = detached q pos x last := by
  have ba := lookup_bounds ea
  have bb := lookup_bounds eb
  have hb1 : q.size_ < ((q.priorityQueue.set pos.toNat last).length : Int) := by
    simpa using bb.2
  have e1 : swapPQ q pos q.size_ =
      .ok { q with priorityQueue := (q.priorityQueue.set pos.toNat last).set q.size_.toNat x } := by
    unfold swapPQ
    rw [readAt_of_lookup ea, readAt_of_lookup eb]
    simp only [bind, Except.bind]
    rw [writeAt_of_bounds _ _ _ ba.1 ba.2]
    simp only
    rw [writeAt_of_bounds _ _ _ bb.1 hb1]
    rfl
  have la : lookup ((q.priorityQueue.set pos.toNat last).set q.size_.toNat x) pos
      = some last := by
    rw [lookup_set _ _ _ _ bb.1 hb1, lookup_set _ _ _ _ ba.1 ba.2]
    by_cases hab : pos = q.size_
    · rw [hab] at ea
      rw [ea] at eb
      simp [hab, eb]
    · simp [hab]
  refine ⟨_, { q with priorityQueue := (q.priorityQueue.set pos.toNat last).set q.size_.toNat x,
                       indexToPosition := q.indexToPosition.set last.toNat pos },
    (q.indexToPosition.set last.toNat pos).set x.toNat (-1), e1, ?_, ?_, rfl⟩
  · unfold setIndexToPosAsPq
    simp only
    rw [readAt_of_lookup la]
    simp only [bind, Except.bind]
    rw [writeAt_of_bounds _ _ _ hl.1 hl.2]
    rfl
  · simp only
    rw [writeAt_of_bounds _ _ _ hx.1 (by simpa using hx.2)]

theorem detached_I1 {q : IndexPriorityQueue T} (h1 : I1 q) {pos x last : Int}
    (hp : 1 ≤ pos ∧ pos ≤ q.size_)
    (ea : lookup q.priorityQueue pos = some x)
    (eb : lookup q.priorityQueue q.size_ = some last) :
    I1 (detached q pos x last) := by
  have hs : 1 ≤ q.size_ ∧ q.size_ ≤ q.size_ := ⟨by omega, le_refl _⟩
  have bx := I1_index_bounds h1 hp ea
  have bl := I1_index_bounds h1 hs eb
  intro p hp1 hp2
  have hp2 : p ≤ q.size_ - 1 := hp2
  have hps : p ≠ q.size_ := by omega
  rw [detached_pq q pos x last p ea eb]
  by_cases hpp : p = pos
  · subst hpp
    have hlx : last ≠ x := by
      intro e
      rw [e] at eb
      exact hps (I1_inj h1 hp hs ea eb)
    refine ⟨last, by simp [hps], ?_⟩
    rw [detached_itp q p x last last bx bl]
    simp [hlx]
  · obtain ⟨i, ei, pi⟩ := h1 p hp1 (by omega)
    have hix : i ≠ x := by
      intro e
      rw [e] at ei
      exact hpp (I1_inj h1 ⟨hp1, by omega⟩ hp ei ea)
    have hil : i ≠ last := by
      intro e
      rw [e] at ei
      exact hps (I1_inj h1 ⟨hp1, by omega⟩ hs ei eb)
    refine ⟨i, by simp [hps, hpp, ei], ?_⟩
    rw [detached_itp q pos x last i bx bl]
    simp [hix, hil, pi]

theorem detached_I2 {q : IndexPriorityQueue T} (h1 : I1 q) (h2 : I2 q) {pos x last : Int}
    (hp : 1 ≤ pos ∧ pos ≤ q.size_)
    (ea : lookup q.priorityQueue pos = some x)
    (eb : lookup q.priorityQueue q.size_ = some last) :
    I2 (detached q pos x last) := by
  have hs : 1 ≤ q.size_ ∧ q.size_ ≤ q.size_ := ⟨by omega, le_refl _⟩
  have bx := I1_index_bounds h1 hp ea
  have bl := I1_index_bounds h1 hs eb
  intro i p hi hne
  rw [detached_itp q pos x last i bx bl] at hi
  rw [detached_pq q pos x last p ea eb]
  show 1 ≤ p ∧ p ≤ q.size_ - 1 ∧ _
  by_cases hix : i = x
  · simp only [hix, if_true, Option.some.injEq] at hi
    exact absurd hi.symm hne
  · by_cases hil : i = last
    · subst hil
      simp only [hix, if_false, if_true, Option.some.injEq] at hi
      subst hi
      have hps : pos ≠ q.size_ := by
        intro e
        rw [e, eb] at ea
        exact hix (Option.some.inj ea)
      exact ⟨hp.1, by omega, by simp [hps]⟩
    · simp only [hix, hil, if_false] at hi
      obtain ⟨r1, r2, r3⟩ := h2 i p hi hne
      have hpp : p ≠ pos := by
        intro e
        rw [e, ea] at r3
        exact hix (Option.some.inj r3).symm
      have hps : p ≠ q.size_ := by
        intro e
        rw [e, eb] at r3
        exact hil (Option.some.inj r3).symm
      exact ⟨r1, by omega, by simp [hpp, hps, r3]⟩

theorem detached_present {q : IndexPriorityQueue T} (h1 : I1 q) {pos x last : Int}
    (hp : 1 ≤ pos ∧ pos ≤ q.size_)
    (ea : lookup q.priorityQueue pos = some x)
    (eb : lookup q.priorityQueue q.size_ = some last) (i : Int) :
    present (detached q pos x last) i ↔ (present q i ∧ i ≠ x) := by
  have hs : 1 ≤ q.size_ ∧ q.size_ ≤ q.size_ := ⟨by omega, le_refl _⟩
  have bx := I1_index_bounds h1 hp ea
  have bl := I1_index_bounds h1 hs eb
  have pl := I1_position h1 hs eb
  unfold present
  rw [detached_itp q pos x last i bx bl]
  by_cases hix : i = x
  · simp [hix]
  · by_cases hil : i = last
    · subst hil
      simp only [hix, if_false, if_true, pl]
      constructor
      · intro _
        exact ⟨⟨q.size_, rfl, by omega⟩, hix⟩
      · intro _
        exact ⟨pos, rfl, by omega⟩
    · simp [hix, hil]

theorem detached_keyAt (q : IndexPriorityQueue T) {pos x last : Int}
    (ea : lookup q.priorityQueue pos = some x)
    (eb : lookup q.priorityQueue q.size_ = some last) (r : Int)
    (hr : r ≠ q.size_) :
    keyAt (detached q pos x last) r = if r = pos then keyAt q q.size_ else keyAt q r := by
  unfold keyAt
  rw [detached_pq q pos x last r ea eb]
  have : (detached q pos x last).priorities = q.priorities := rfl
  rw [this]
  by_cases hrp : r = pos
  · subst hrp
    simp [hr, eb]
  · simp [hr, hrp]

end

section
variable {T : Type}

theorem I1_pq_length {q : IndexPriorityQueue T} (h1 : I1 q) (hs : 1 ≤ q.size_) :
    q.size_ < q.priorityQueue.length := by
  obtain ⟨i, ei, _⟩ := h1 q.size_ hs (le_refl _)
  exact (lookup_bounds ei).2

theorem popBack_ok (q : IndexPriorityQueue T) (h : 0 < q.priorityQueue.length) :
    popBack q = .ok { q with priorityQueue := q.priorityQueue.dropLast } := by
  unfold popBack
  have : q.priorityQueue.length ≠ 0 := by omega
  simp [this]

theorem agree_I1 {q r : IndexPriorityQueue T} (hi : r.indexToPosition = q.indexToPosition)
    (hs : r.size_ = q.size_)
    (hpq : ∀ p, 1 ≤ p → p ≤ q.size_ → lookup r.priorityQueue p = lookup q.priorityQueue p)
    (h1 : I1 q) : I1 r := by
  intro p hp1 hp2
  rw [hs] at hp2
  rw [hpq p hp1 hp2, hi]
  exact h1 p hp1 hp2

theorem agree_I2 {q r : IndexPriorityQueue T} (hi : r.indexToPosition = q.indexToPosition)
    (hs : r.size_ = q.size_)
    (hpq : ∀ p, 1 ≤ p → p ≤ q.size_ → lookup r.priorityQueue p = lookup q.priorityQueue p)
    (h2 : I2 q) : I2 r := by
  intro i pos hi2 hne
  rw [hi] at hi2
  obtain ⟨a, b, c⟩ := h2 i pos hi2 hne
  rw [hs, hpq pos a b]
  exact ⟨a, b, c⟩

theorem agree_keyAt {q r : IndexPriorityQueue T} (hk : r.priorities = q.priorities)
    {p : Int} (hpq : lookup r.priorityQueue p = lookup q.priorityQueue p) :
    keyAt r p = keyAt q p := by
  unfold keyAt
  rw [hpq, hk]

end

section
variable {T : Type} [LinearOrder T]

theorem agree_I3 {q r : IndexPriorityQueue T} (hk : r.priorities = q.priorities)
    (hs : r.size_ = q.size_)
    (hpq : ∀ p, 1 ≤ p → p ≤ q.size_ → lookup r.priorityQueue p = lookup q.priorityQueue p)
    (h3 : I3 q) : I3 r := by
  intro p hp1 hp2
  rw [hs] at hp2
  have hpar : parent p = p / 2 := parent_eq_div (by omega)
  refine LeAt_congr (agree_keyAt hk (hpq _ ?_ ?_)) (agree_keyAt hk (hpq _ ?_ ?_)) (h3 p hp1 hp2)
  · rw [hpar]; omega
  · rw [hpar]; omega
  · omega
  · exact hp2

/-- What `pop` does to a non-empty state that satisfies I1..I3. -/
theorem pop_spec {q : IndexPriorityQueue T} (h1 : I1 q) (h2 : I2 q) (h3 : I3 q)
    (hlen : q.indexToPosition.length ≤ q.priorities.length) (hs : 1 ≤ q.size_) :
    ∃ i0 q', lookup q.priorityQueue 1 = some i0 ∧ pop q = .ok q' ∧
      q'.size_ = q.size_ - 1 ∧ q'.priorities = q.priorities ∧
      q'.priorityQueue.length + 1 = q.priorityQueue.length ∧
      q'.indexToPosition.length = q.indexToPosition.length ∧
      I1 q' ∧ I2 q' ∧ I3 q' ∧ ∀ i, present q' i ↔ (present q i ∧ i ≠ i0) := by
  have hone : 1 ≤ (1 : Int) ∧ 1 ≤ q.size_ := ⟨le_refl 1, hs⟩
  have hsz : 1 ≤ q.size_ ∧ q.size_ ≤ q.size_ := ⟨hs, le_refl _⟩
  obtain ⟨i0, e0, p0⟩ := h1 1 hone.1 hone.2
  obtain ⟨last, el, pl⟩ := h1 q.size_ hsz.1 hsz.2
  obtain ⟨q1, q2, itp, s1, s2, s3, s4⟩ := detach_steps q 1 i0 last e0 el
    (lookup_bounds p0) (lookup_bounds pl)
  have d1 := detached_I1 h1 hone e0 el
  have d2 := detached_I2 h1 h2 hone e0 el
  have dsz : (detached q 1 i0 last).size_ = q.size_ - 1 := rfl
  have dk := detached_keyAt q e0 el
  obtain ⟨q4, r0, r1, r2, r3, r4, r5, r6, r7, r8, _⟩ :=
    sinkAux_spec ((detached q 1 i0 last).size_.toNat + 2) (detached q 1 i0 last) 1
      (by omega) d1 d2 (by simpa [detached] using hlen) (le_refl 1)
      (by
        intro r hr2 hrs hr1
        rw [dsz] at hrs
        have hpar : parent r = r / 2 := parent_eq_div (by omega)
        refine LeAt_congr ?_ ?_ (h3 r hr2 (by omega))
        · rw [dk _ (by rw [hpar]; omega)]
          simp [hr1]
        · rw [dk _ (by omega)]
          have : r ≠ 1 := by omega
          simp [this])
      (by intro h; omega)
  have hpl := I1_pq_length h1 hs
  have len4 : q4.priorityQueue.length = q.priorityQueue.length := by
    rw [r3]; simp [detached]
  refine ⟨i0, { q4 with priorityQueue := q4.priorityQueue.dropLast }, e0, ?_, ?_, ?_, ?_, ?_,
    ?_, ?_, ?_, ?_⟩
  · unfold pop
    have hne : q.size_ ≠ 0 := by omega
    simp only [hne, if_false]
    rw [readAt_of_lookup e0]
    simp only [bind, Except.bind]
    rw [s1]
    simp only
    rw [s2]
    simp only
    rw [s3]
    simp only
    rw [s4]
    unfold sink
    rw [r0]
    simp only
    exact popBack_ok q4 (by omega)
  · show q4.size_ = q.size_ - 1
    rw [r1, dsz]
  · show q4.priorities = q.priorities
    rw [r2]
    rfl
  · show q4.priorityQueue.dropLast.length + 1 = q.priorityQueue.length
    rw [List.length_dropLast, len4]
    omega
  · show q4.indexToPosition.length = _
    rw [r4]
    simp [detached]
  · refine @agree_I1 T q4 _ rfl rfl ?_ r5
    intro p hp1 hp2
    exact lookup_dropLast _ _ (by rw [len4]; rw [r1, dsz] at hp2; omega)
  · refine @agree_I2 T q4 _ rfl rfl ?_ r6
    intro p hp1 hp2
    exact lookup_dropLast _ _ (by rw [len4]; rw [r1, dsz] at hp2; omega)
  · refine @agree_I3 T _ q4 _ rfl rfl ?_ r7
    intro p hp1 hp2
    exact lookup_dropLast _ _ (by rw [len4]; rw [r1, dsz] at hp2; omega)
  · intro i
    have : present { q4 with priorityQueue := q4.priorityQueue.dropLast } i ↔ present q4 i :=
      Iff.rfl
    rw [this, r8 i]
    exact detached_present h1 hone e0 el i

end

section
variable {T : Type} [LinearOrder T]

/-- What `push` does for an absent index on a state that satisfies I1..I3 and has
room for one more heap slot. -/
theorem push_spec {q : IndexPriorityQueue T} (h1 : I1 q) (h2 : I2 q) (h3 : I3 q)
    (hlen : q.indexToPosition.length ≤ q.priorities.length) (hs : 0 ≤ q.size_)
    (hroom : q.size_ + 1 < q.priorityQueue.length) (k : T) {i : Int}
    (hi : 0 ≤ i ∧ i < q.indexToPosition.length) (habs : ¬ present q i) :
    ∃ q', push q k i = .ok q' ∧ q'.size_ = q.size_ + 1 ∧
      q'.priorities = q.priorities.set i.toNat k ∧
      q'.priorityQueue.length = q.priorityQueue.length ∧
      q'.indexToPosition.length = q.indexToPosition.length ∧
      I1 q' ∧ I2 q' ∧ I3 q' ∧ ∀ j, present q' j ↔ (present q j ∨ j = i) := by
  have hc : contains q i = false := (contains_eq_false_iff q i).2 habs
  have hik : i < q.priorities.length := by omega
  have hne : ∀ {p j : Int}, 1 ≤ p → p ≤ q.size_ → lookup q.priorityQueue p = some j → j ≠ i := by
    intro p j hp1 hp2 ej e
    subst e
    exact habs ⟨p, I1_position h1 ⟨hp1, hp2⟩ ej, by omega⟩
  let q0 : IndexPriorityQueue T :=
    { priorities := q.priorities.set i.toNat k
      priorityQueue := q.priorityQueue.set (q.size_ + 1).toNat i
      indexToPosition := q.indexToPosition.set i.toNat (q.size_ + 1)
      size_ := q.size_ + 1 }
  have vpq : ∀ r, lookup q0.priorityQueue r =
      if r = q.size_ + 1 then some i else lookup q.priorityQueue r :=
    fun r => lookup_set _ _ _ _ (by omega) hroom
  have vitp : ∀ j, lookup q0.indexToPosition j =
      if j = i then some (q.size_ + 1) else lookup q.indexToPosition j :=
    fun j => lookup_set _ _ _ _ hi.1 hi.2
  have vpri : ∀ j, lookup q0.priorities j =
      if j = i then some k else lookup q.priorities j :=
    fun j => lookup_set _ _ _ _ hi.1 hik
  have vkey : ∀ r, 1 ≤ r → r ≤ q.size_ → keyAt q0 r = keyAt q r := by
    intro r hr1 hr2
    obtain ⟨j, ej, _⟩ := h1 r hr1 hr2
    have hji := hne hr1 hr2 ej
    have hr : r ≠ q.size_ + 1 := by omega
    unfold keyAt
    rw [vpq r]
    simp only [hr, if_false, ej, Option.bind]
    rw [vpri j]
    simp [hji]
  have n1 : I1 q0 := by
    intro p hp1 hp2
    have hp2 : p ≤ q.size_ + 1 := hp2
    rw [vpq p]
    by_cases hp : p = q.size_ + 1
    · refine ⟨i, by simp [hp], ?_⟩
      rw [vitp i]
      simp [hp]
    · obtain ⟨j, ej, pj⟩ := h1 p hp1 (by omega)
      have hji := hne hp1 (by omega) ej
      refine ⟨j, by simp [hp, ej], ?_⟩
      rw [vitp j]
      simp [hji, pj]
  have n2 : I2 q0 := by
    intro j pos hj hpos
    rw [vitp j] at hj
    rw [vpq pos]
    show 1 ≤ pos ∧ pos ≤ q.size_ + 1 ∧ _
    by_cases hji : j = i
    · simp only [hji, if_true, Option.some.injEq] at hj
      subst hj
      exact ⟨by omega, le_refl _, by simp [hji]⟩
    · simp only [hji, if_false] at hj
      obtain ⟨a, b, c⟩ := h2 j pos hj hpos
      have : pos ≠ q.size_ + 1 := by omega
      exact ⟨a, by omega, by simp [this, c]⟩
  obtain ⟨q', r0, r1, r2, r3, r4, r5, r6, r7, r8, _⟩ :=
    swimAux_spec ((q.size_ + 1).toNat + 1) q0 (q.size_ + 1) (by omega) n1 n2
      (by
        show (q.indexToPosition.set i.toNat (q.size_ + 1)).length ≤
          (q.priorities.set i.toNat k).length
        simpa using hlen)
      (by omega) (le_refl _)
      (by
        intro r hr2 hrs hr
        have hrs : r ≤ q.size_ + 1 := hrs
        have hpar : parent r = r / 2 := parent_eq_div (by omega)
        refine LeAt_congr (vkey _ ?_ ?_) (vkey _ ?_ ?_) (h3 r hr2 (by omega))
        · rw [hpar]; omega
        · rw [hpar]; omega
        · omega
        · omega)
      (by
        intro _ c hc2 hcs hcp
        have hcs : c ≤ q.size_ + 1 := hcs
        rw [parent_eq_div (by omega)] at hcp
        omega)
  refine ⟨q', ?_, r1, r2, ?_, ?_, r5, r6, r7, ?_⟩
  · unfold push
    simp only [hc, Bool.false_eq_true, if_false]
    rw [writeAt_of_bounds _ _ _ (by omega) hroom]
    simp only [bind, Except.bind]
    rw [writeAt_of_bounds _ _ _ hi.1 hi.2]
    simp only
    rw [writeAt_of_bounds _ _ _ hi.1 hik]
    exact r0
  · rw [r3]
    show (q.priorityQueue.set (q.size_ + 1).toNat i).length = _
    simp
  · rw [r4]
    show (q.indexToPosition.set i.toNat (q.size_ + 1)).length = _
    simp
  · intro j
    rw [r8 j]
    unfold present
    rw [vitp j]
    by_cases hji : j = i
    · simp only [hji, if_true]
      constructor
      · intro _
        exact Or.inr trivial
      · intro _
        exact ⟨q.size_ + 1, rfl, by omega⟩
    · simp [hji]

end

section
variable {T : Type} [LinearOrder T]

/-- What `changeKey` does for a present index on a state that satisfies I1..I3. -/
theorem changeKey_spec {q : IndexPriorityQueue T} (h1 : I1 q) (h2 : I2 q) (h3 : I3 q)
    (hlen : q.indexToPosition.length ≤ q.priorities.length) (k : T) {i : Int}
    (hpres : present q i) :
    ∃ q', changeKey q k i = .ok q' ∧ q'.size_ = q.size_ ∧
      q'.priorities = q.priorities.set i.toNat k ∧
      q'.priorityQueue.length = q.priorityQueue.length ∧
      q'.indexToPosition.length = q.indexToPosition.length ∧
      I1 q' ∧ I2 q' ∧ I3 q' ∧ ∀ j, present q' j ↔ present q j := by
  have hc : contains q i = true := (contains_iff_present q i).2 hpres
  obtain ⟨pos, epos, hposne⟩ := hpres
  obtain ⟨hp1, hp2, ei⟩ := h2 i pos epos hposne
  have hi := lookup_bounds epos
  have hik : i < q.priorities.length := by omega
  obtain ⟨old, eold⟩ := @lookup_defined T q.priorities i hi.1 hik
  have kold : keyAt q pos = some old := (keyAt_eq_some_iff q pos old).2 ⟨i, ei, eold⟩
  let q1 : IndexPriorityQueue T := { q with priorities := q.priorities.set i.toNat k }
  have vpri : ∀ j, lookup q1.priorities j =
      if j = i then some k else lookup q.priorities j :=
    fun j => lookup_set _ _ _ _ hi.1 hik
  have vkey : ∀ r, 1 ≤ r → r ≤ q.size_ → r ≠ pos → keyAt q1 r = keyAt q r := by
    intro r hr1 hr2 hr
    obtain ⟨j, ej, pj⟩ := h1 r hr1 hr2
    have hji : j ≠ i := by
      intro e
      rw [e, epos] at pj
      exact hr (Option.some.inj pj).symm
    unfold keyAt
    show (lookup q.priorityQueue r).bind (lookup q1.priorities) = _
    rw [ej]
    simp only [Option.bind]
    rw [vpri j]
    simp [hji]
  have vkeypos : keyAt q1 pos = some k := by
    unfold keyAt
    show (lookup q.priorityQueue pos).bind (lookup q1.priorities) = _
    rw [ei]
    simp only [Option.bind]
    rw [vpri i]
    simp
  have n1 : I1 q1 := h1
  have n2 : I2 q1 := h2
  have nlen : q1.indexToPosition.length ≤ q1.priorities.length := by
    show q.indexToPosition.length ≤ (q.priorities.set i.toNat k).length
    simpa using hlen
  have hgp : 1 < pos → ∀ c, 2 ≤ c → c ≤ q1.size_ → parent c = pos →
      LeAt q1 (parent pos) c := by
    intro hgt c hc2 hcs hcp
    have hcs : c ≤ q.size_ := hcs
    have hpar : parent pos = pos / 2 := parent_eq_div (by omega)
    have hcpar : parent c = c / 2 := parent_eq_div (by omega)
    refine LeAt_congr (vkey _ ?_ ?_ ?_) (vkey _ ?_ ?_ ?_)
      (LeAt_trans (h3 pos (by omega) hp2) (hcp ▸ h3 c hc2 hcs))
    · rw [hpar]; omega
    · rw [hpar]; omega
    · rw [hpar]; omega
    · omega
    · exact hcs
    · rw [hcpar] at hcp; omega
  have hstart : changeKey q k i =
      if k < old then swim q1 pos else sink q1 pos := by
    unfold changeKey
    simp only [hc, if_true]
    rw [readAt_of_lookup eold]
    simp only [bind, Except.bind]
    rw [writeAt_of_bounds _ _ _ hi.1 hik]
    simp only
    rw [readAt_of_lookup epos]
  rw [hstart]
  by_cases hlt : k < old
  · simp only [hlt, if_true]
    obtain ⟨q', r0, r1, r2, r3, r4, r5, r6, r7, r8, _⟩ :=
      swimAux_spec (pos.toNat + 1) q1 pos (by omega) n1 n2 nlen hp1 hp2
        (by
          intro r hr2 hrs hr
          have hrs : r ≤ q.size_ := hrs
          have hpar : parent r = r / 2 := parent_eq_div (by omega)
          by_cases hu : parent r = pos
          · obtain ⟨ka, kr, ea, er, hle⟩ := h3 r hr2 hrs
            rw [hu, kold] at ea
            cases ea
            refine ⟨k, kr, by rw [hu]; exact vkeypos, ?_, le_trans (le_of_lt hlt) hle⟩
            rw [vkey r (by omega) hrs hr]
            exact er
          · refine LeAt_congr (vkey _ ?_ ?_ hu) (vkey _ ?_ hrs hr) (h3 r hr2 hrs)
            · rw [hpar]; omega
            · rw [hpar]; omega
            · omega)
        hgp
    exact ⟨q', r0, r1, r2, r3, r4, r5, r6, r7, r8⟩
  · simp only [hlt, if_false]
    obtain ⟨q', r0, r1, r2, r3, r4, r5, r6, r7, r8, _⟩ :=
      sinkAux_spec (q1.size_.toNat + 2) q1 pos
        (by
          show (q.size_ - pos).toNat < q.size_.toNat + 2
          omega)
        n1 n2 nlen hp1
        (by
          intro r hr2 hrs hu
          have hrs : r ≤ q.size_ := hrs
          have hpar : parent r = r / 2 := parent_eq_div (by omega)
          by_cases hr : r = pos
          · obtain ⟨kg, kr, eg, er, hle⟩ := h3 r hr2 hrs
            rw [hr, kold] at er
            cases er
            refine ⟨kg, k, ?_, by rw [hr]; exact vkeypos, le_trans hle (not_lt.1 hlt)⟩
            rw [vkey (parent r) (by rw [hpar]; omega) (by rw [hpar]; omega) hu]
            exact eg
          · refine LeAt_congr (vkey _ ?_ ?_ hu) (vkey _ ?_ hrs hr) (h3 r hr2 hrs)
            · rw [hpar]; omega
            · rw [hpar]; omega
            · omega)
        hgp
    exact ⟨q', r0, r1, r2, r3, r4, r5, r6, r7, r8⟩

end

section
variable {T : Type}

theorem present_range {N : Nat} {q : IndexPriorityQueue T} (h4 : I4 N q) {j : Int}
    (hj : present q j) : 0 ≤ j ∧ j < N := by
  have := (h4 j).1 ((contains_iff_present q j).2 hj)
  exact ⟨this.1, this.2.1⟩

/-- A queue of capacity `N` that lacks an index of `[0, N)` holds fewer than `N`. -/
theorem size_lt_capacity {N : Nat} {q : IndexPriorityQueue T} (h1 : I1 q) (h4 : I4 N q)
    {i : Int} (hi : 0 ≤ i ∧ i < N) (habs : ¬ present q i) : q.size_ < N := by
  have key : (Finset.Icc 1 q.size_).card ≤ ((Finset.Ico (0 : Int) N).erase i).card := by
    refine Finset.card_le_card_of_injOn (fun p => (lookup q.priorityQueue p).getD 0) ?_ ?_
    · intro p hp
      rw [Finset.mem_Icc] at hp
      obtain ⟨j, ej, pj⟩ := h1 p hp.1 hp.2
      have hpres : present q j := ⟨p, pj, by omega⟩
      have hr := present_range h4 hpres
      simp only [ej, Option.getD_some]
      rw [Finset.mem_erase, Finset.mem_Ico]
      refine ⟨?_, hr⟩
      intro e
      rw [e] at hpres
      exact habs hpres
    · intro p hp r hr e
      rw [Finset.mem_coe, Finset.mem_Icc] at hp hr
      obtain ⟨j, ej, _⟩ := h1 p hp.1 hp.2
      obtain ⟨j2, ej2, _⟩ := h1 r hr.1 hr.2
      simp only [ej, ej2, Option.getD_some] at e
      rw [← e] at ej2
      exact I1_inj h1 hp hr ej ej2
  have hmem : i ∈ Finset.Ico (0 : Int) N := by
    rw [Finset.mem_Ico]
    exact hi
  rw [Finset.card_erase_of_mem hmem, Int.card_Icc, Int.card_Ico] at key
  omega

end

section
variable {T : Type}

theorem I4_of_present_lt {N : Nat} {q : IndexPriorityQueue T}
    (h : ∀ j, present q j → j < N) : I4 N q := by
  intro j
  rw [contains_iff_present]
  constructor
  · intro hj
    obtain ⟨pos, e, _⟩ := id hj
    exact ⟨(lookup_bounds e).1, h j hj, hj⟩
  · intro hj
    exact hj.2.2

end

section
variable {T : Type} [LinearOrder T]

theorem Valid.hlen {N : Nat} {q : IndexPriorityQueue T} (hv : Valid N q) :
    q.indexToPosition.length ≤ q.priorities.length := by
  obtain ⟨⟨a, b, _⟩, _⟩ := hv
  omega

theorem pop_valid {N : Nat} {q : IndexPriorityQueue T} (hv : Valid N q) (hs : 1 ≤ q.size_) :
    ∃ i0 q', lookup q.priorityQueue 1 = some i0 ∧ pop q = .ok q' ∧ Valid N q' ∧
      q'.size_ = q.size_ - 1 ∧ q'.priorities = q.priorities ∧
      ∀ i, present q' i ↔ (present q i ∧ i ≠ i0) := by
  have hlen := hv.hlen
  obtain ⟨⟨a, b, c⟩, h1, h2, h3, h4, _⟩ := hv
  obtain ⟨i0, q', e0, ep, r1, r2, r3, r4, r5, r6, r7, r8⟩ := pop_spec h1 h2 h3 hlen hs
  refine ⟨i0, q', e0, ep, ⟨⟨?_, ?_, ?_⟩, r5, r6, r7, ?_, I5_of_I1 r5⟩, r1, r2, r8⟩
  · rw [r2]; exact a
  · rw [r4]; exact b
  · omega
  · refine I4_of_present_lt ?_
    intro j hj
    exact (present_range h4 ((r8 j).1 hj).1).2

theorem push_valid {N : Nat} {q : IndexPriorityQueue T} (hv : Valid N q)
    (hroom : q.size_ + 1 < q.priorityQueue.length) (k : T) {i : Int}
    (hi : 0 ≤ i ∧ i < N) (habs : ¬ present q i) :
    ∃ q', push q k i = .ok q' ∧ Valid N q' ∧ q'.size_ = q.size_ + 1 ∧
      q'.priorities = q.priorities.set i.toNat k ∧
      q'.priorityQueue.length = q.priorityQueue.length ∧
      ∀ j, present q' j ↔ (present q j ∨ j = i) := by
  have hlen := hv.hlen
  obtain ⟨⟨a, b, c⟩, h1, h2, h3, h4, _⟩ := hv
  obtain ⟨q', ep, r1, r2, r3, r4, r5, r6, r7, r8⟩ :=
    push_spec h1 h2 h3 hlen c hroom k (i := i) ⟨hi.1, by omega⟩ habs
  refine ⟨q', ep, ⟨⟨?_, ?_, ?_⟩, r5, r6, r7, ?_, I5_of_I1 r5⟩, r1, r2, r3, r8⟩
  · rw [r2]; simpa using a
  · rw [r4]; exact b
  · omega
  · refine I4_of_present_lt ?_
    intro j hj
    rcases (r8 j).1 hj with h | h
    · exact (present_range h4 h).2
    · rw [h]; exact hi.2

theorem changeKey_valid {N : Nat} {q : IndexPriorityQueue T} (hv : Valid N q) (k : T)
    {i : Int} (hpres : present q i) :
    ∃ q', changeKey q k i = .ok q' ∧ Valid N q' ∧ q'.size_ = q.size_ ∧
      q'.priorities = q.priorities.set i.toNat k ∧
      q'.priorityQueue.length = q.priorityQueue.length ∧
      ∀ j, present q' j ↔ present q j := by
  have hlen := hv.hlen
  obtain ⟨⟨a, b, c⟩, h1, h2, h3, h4, _⟩ := hv
  obtain ⟨q', ep, r1, r2, r3, r4, r5, r6, r7, r8⟩ :=
    changeKey_spec h1 h2 h3 hlen k hpres
  refine ⟨q', ep, ⟨⟨?_, ?_, ?_⟩, r5, r6, r7, ?_, I5_of_I1 r5⟩, r1, r2, r3, r8⟩
  · rw [r2]; simpa using a
  · rw [r4]; exact b
  · omega
  · refine I4_of_present_lt ?_
    intro j hj
    exact (present_range h4 ((r8 j).1 hj)).2

theorem popN_valid {N : Nat} : ∀ (m : Nat) (q : IndexPriorityQueue T), Valid N q →
    ∃ q', popN m q = .ok q' ∧ Valid N q' ∧ q'.priorities = q.priorities := by
  intro m
  induction m with
  | zero =>
    intro q hv
    exact ⟨q, rfl, hv, rfl⟩
  | succ m ih =>
    intro q hv
    by_cases hs : q.size_ = 0
    · obtain ⟨q', e, v, pr⟩ := ih q hv
      refine ⟨q', ?_, v, pr⟩
      unfold popN
      have : pop q = .ok q := by
        unfold pop
        simp [hs, pure, Except.pure]
      rw [this]
      exact e
    · have hs1 : 1 ≤ q.size_ := by
        have := hv.1.2.2
        omega
      obtain ⟨i0, q1, _, ep, v1, _, pr1, _⟩ := pop_valid hv hs1
      obtain ⟨q', e, v, pr⟩ := ih q1 v1
      refine ⟨q', ?_, v, pr.trans pr1⟩
      unfold popN
      rw [ep]
      exact e

end

section
variable {T : Type}

theorem I1_of_check {q : IndexPriorityQueue T} (h : checkI1 q = true) : I1 q := by
  intro p hp1 hp2
  unfold checkI1 at h
  rw [List.all_eq_true] at h
  have hk := h (p - 1).toNat (List.mem_range.2 (by omega))
  have hcast : (((p - 1).toNat : Nat) : Int) + 1 = p := by omega
  rw [hcast] at hk
  cases e : lookup q.priorityQueue p with
  | none => rw [e] at hk; exact absurd hk (by simp)
  | some i =>
    rw [e] at hk
    exact ⟨i, rfl, of_decide_eq_true hk⟩

theorem I2_of_check {q : IndexPriorityQueue T} (h : checkI2 q = true) : I2 q := by
  intro i pos hi hne
  unfold checkI2 at h
  rw [List.all_eq_true] at h
  have b := lookup_bounds hi
  have hk := h i.toNat (List.mem_range.2 (by omega))
  have hcast : ((i.toNat : Nat) : Int) = i := by omega
  rw [hcast, hi] at hk
  simp only [Bool.or_eq_true, Bool.and_eq_true, decide_eq_true_eq] at hk
  rcases hk with hk | hk
  · exact absurd hk hne
  · exact ⟨hk.1, hk.2.1, hk.2.2⟩

end

section
variable {T : Type} [LinearOrder T]

theorem I3_of_check {q : IndexPriorityQueue T} (h : checkI3 q = true) : I3 q := by
  intro p hp1 hp2
  unfold checkI3 at h
  rw [List.all_eq_true] at h
  have hk := h (p - 1).toNat (List.mem_range.2 (by omega))
  have hcast : (((p - 1).toNat : Nat) : Int) + 1 = p := by omega
  rw [hcast] at hk
  have hp : ¬ p < 2 := by omega
  simp only [hp, decide_False, Bool.false_or] at hk
  cases ea : keyAt q (parent p) with
  | none => rw [ea] at hk; exact absurd hk (by simp)
  | some a =>
    cases eb : keyAt q p with
    | none => rw [ea, eb] at hk; exact absurd hk (by simp)
    | some b =>
      rw [ea, eb] at hk
      exact ⟨a, b, ea, eb, of_decide_eq_true hk⟩

theorem Valid_of_check {N : Nat} {q : IndexPriorityQueue T} (h : checkValid N q = true) :
    Valid N q := by
  unfold checkValid at h
  simp only [Bool.and_eq_true, decide_eq_true_eq] at h
  obtain ⟨a, b, c, c1, c2, c3, c4⟩ := h
  have h1 := I1_of_check c1
  refine ⟨⟨a, b, c⟩, h1, I2_of_check c2, I3_of_check c3, ?_, I5_of_I1 h1⟩
  refine I4_of_present_lt ?_
  intro j hj
  obtain ⟨pos, e, hne⟩ := hj
  have bj := lookup_bounds e
  by_contra hlt
  have : j = N := by omega
  rw [this, c4] at e
  exact hne (Option.some.inj e).symm

end

section
variable {T : Type} [LinearOrder T]

/-- C4: on a state of a capacity-`N` queue that satisfies I1, I2 and I3 and holds at
least one element, `top()` returns `(priorities[i0], i0)` for `i0 = heap[1]`, the
index `i0` is contained, its priority is at most the priority of every contained
index, and the call leaves the state as it was. -/
theorem top_returns_minimum (N : Nat) (q : IndexPriorityQueue T) (hq : IsQueue N q)
    (h1 : I1 q) (h2 : I2 q) (h3 : I3 q) (hs : 1 ≤ size q) :
    ∃ i0 k0, lookup q.priorityQueue 1 = some i0 ∧ lookup q.priorities i0 = some k0 ∧
      top q = .ok (k0, i0) ∧ contains q i0 = true ∧
      (∀ j, contains q j = true → ∃ kj, lookup q.priorities j = some kj ∧ k0 ≤ kj) ∧
      step q Call.top = .ok q := by
  have hlen : q.indexToPosition.length ≤ q.priorities.length := by
    obtain ⟨a, b, _⟩ := hq
    omega
  obtain ⟨i0, k0, e0, ek0, et, hp, hmin⟩ := top_spec h1 h2 h3 hlen hs
  refine ⟨i0, k0, e0, ek0, et, (contains_iff_present q i0).2 hp, ?_, ?_⟩
  · intro j hj
    exact hmin j ((contains_iff_present q j).1 hj)
  · unfold step
    simp only [et, bind, Except.bind]
    rfl

/-- The theorem of C4 at a concrete input. -/
theorem top_returns_minimum_witness :
    IsQueue 5 sampleQueue ∧ I1 sampleQueue ∧ I2 sampleQueue ∧ I3 sampleQueue ∧
    1 ≤ size sampleQueue ∧
    ∃ i0 k0, lookup sampleQueue.priorityQueue 1 = some i0 ∧
      lookup sampleQueue.priorities i0 = some k0 ∧
      top sampleQueue = .ok (k0, i0) ∧ contains sampleQueue i0 = true ∧
      (∀ j, contains sampleQueue j = true →
        ∃ kj, lookup sampleQueue.priorities j = some kj ∧ k0 ≤ kj) ∧
      step sampleQueue Call.top = .ok sampleQueue :=
  have hv : Valid 5 sampleQueue := Valid_of_check (by decide)
  ⟨hv.1, hv.2.1, hv.2.2.1, hv.2.2.2.1, by decide,
    top_returns_minimum 5 sampleQueue hv.1 hv.2.1 hv.2.2.1 hv.2.2.2.1 (by decide)⟩

/-- C6: on a state of a capacity-`N` queue that satisfies I1..I5 and holds at least
one element, `pop()` removes exactly the index `i0 = heap[1]` that `top()` returns:
afterwards `i0` is not contained, `size()` is one less, every other contained index
is still contained with the same priority, no absent index is contained, and
I1, I2, I3, I4 and I5 hold again. -/
theorem pop_removes_top (N : Nat) (q : IndexPriorityQueue T) (hv : Valid N q)
    (hs : 1 ≤ size q) :
    ∃ i0 k0 q', lookup q.priorityQueue 1 = some i0 ∧ top q = .ok (k0, i0) ∧
      pop q = .ok q' ∧ contains q' i0 = false ∧ size q' = size q - 1 ∧
      (∀ j, j ≠ i0 → contains q j = true →
        contains q' j = true ∧ lookup q'.priorities j = lookup q.priorities j) ∧
      (∀ j, contains q j = false → contains q' j = false) ∧
      I1 q' ∧ I2 q' ∧ I3 q' ∧ I4 N q' ∧ I5 q' := by
  obtain ⟨i0, k0, e0, _, et, _, _⟩ := top_spec hv.2.1 hv.2.2.1 hv.2.2.2.1 hv.hlen hs
  obtain ⟨i1, q', e1, ep, v, hsz, hpr, hpres⟩ := pop_valid hv hs
  rw [e0] at e1
  cases e1
  refine ⟨i0, k0, q', e0, et, ep, ?_, hsz, ?_, ?_, v.2.1, v.2.2.1, v.2.2.2.1,
    v.2.2.2.2.1, v.2.2.2.2.2⟩
  · rw [contains_eq_false_iff, hpres]
    intro h
    exact h.2 rfl
  · intro j hj hc
    rw [contains_iff_present] at hc
    refine ⟨(contains_iff_present q' j).2 ((hpres j).2 ⟨hc, hj⟩), ?_⟩
    rw [hpr]
  · intro j hc
    rw [contains_eq_false_iff] at hc
    rw [contains_eq_false_iff, hpres]
    intro h
    exact hc h.1

/-- The theorem of C6 at a concrete input. -/
theorem pop_removes_top_witness :
    Valid 5 sampleQueue ∧ 1 ≤ size sampleQueue ∧
    ∃ i0 k0 q', lookup sampleQueue.priorityQueue 1 = some i0 ∧
      top sampleQueue = .ok (k0, i0) ∧
      pop sampleQueue = .ok q' ∧ contains q' i0 = false ∧ size q' = size sampleQueue - 1 ∧
      (∀ j, j ≠ i0 → contains sampleQueue j = true →
        contains q' j = true ∧ lookup q'.priorities j = lookup sampleQueue.priorities j) ∧
      (∀ j, contains sampleQueue j = false → contains q' j = false) ∧
      I1 q' ∧ I2 q' ∧ I3 q' ∧ I4 5 q' ∧ I5 q' :=
  ⟨Valid_of_check (by decide), by decide,
    pop_removes_top 5 sampleQueue (Valid_of_check (by decide)) (by decide)⟩

/-- C8: on a state of a capacity-`N` queue whose three arrays have length `N + 1` and
that satisfies I1..I5, for an index `i` of `[0, N)` that is not contained and any
priority `p`: `size() < N` before the call, and after `push(p, i)` the index `i` is
contained with `priorities[i] == p`, `size()` is one more, every index that was
contained is still contained with the same priority, and I1, I2, I3, I4 and I5 hold
again. -/
theorem push_adds_index (N : Nat) (q : IndexPriorityQueue T) (hv : Valid N q)
    (hfresh : q.priorityQueue.length = N + 1) (i : Int) (hi : 0 ≤ i ∧ i < N)
    (habs : contains q i = false) (p : T) :
    size q < N ∧
    ∃ q', push q p i = .ok q' ∧ contains q' i = true ∧ lookup q'.priorities i = some p ∧
      size q' = size q + 1 ∧
      (∀ j, contains q j = true →
        contains q' j = true ∧ lookup q'.priorities j = lookup q.priorities j) ∧
      I1 q' ∧ I2 q' ∧ I3 q' ∧ I4 N q' ∧ I5 q' := by
  rw [contains_eq_false_iff] at habs
  have hlt : q.size_ < N := size_lt_capacity hv.2.1 hv.2.2.2.2.1 hi habs
  have hplen : q.priorities.length = N + 1 := hv.1.1
  refine ⟨hlt, ?_⟩
  obtain ⟨q', ep, v, hsz, hpr, _, hpres⟩ :=
    push_valid hv (by rw [hfresh]; omega) p hi habs
  have vpri : ∀ j, lookup q'.priorities j =
      if j = i then some p else lookup q.priorities j := by
    intro j
    rw [hpr]
    exact lookup_set _ _ _ _ hi.1 (by omega)
  refine ⟨q', ep, ?_, ?_, hsz, ?_, v.2.1, v.2.2.1, v.2.2.2.1, v.2.2.2.2.1, v.2.2.2.2.2⟩
  · exact (contains_iff_present q' i).2 ((hpres i).2 (Or.inr rfl))
  · rw [vpri i]
    simp
  · intro j hc
    rw [contains_iff_present] at hc
    refine ⟨(contains_iff_present q' j).2 ((hpres j).2 (Or.inl hc)), ?_⟩
    have hji : j ≠ i := by
      intro e
      rw [e] at hc
      exact habs hc
    rw [vpri j]
    simp [hji]

/-- The theorem of C8 at a concrete input. -/
theorem push_adds_index_witness :
    Valid 5 sampleQueue ∧ sampleQueue.priorityQueue.length = 5 + 1 ∧
    ((0 : Int) ≤ 4 ∧ (4 : Int) < (5 : Nat)) ∧ contains sampleQueue 4 = false ∧
    (size sampleQueue < (5 : Nat) ∧
    ∃ q', push sampleQueue 7 4 = .ok q' ∧ contains q' 4 = true ∧
      lookup q'.priorities 4 = some 7 ∧
      size q' = size sampleQueue + 1 ∧
      (∀ j, contains sampleQueue j = true →
        contains q' j = true ∧ lookup q'.priorities j = lookup sampleQueue.priorities j) ∧
      I1 q' ∧ I2 q' ∧ I3 q' ∧ I4 5 q' ∧ I5 q') :=
  ⟨Valid_of_check (by decide), by decide, by decide, by decide,
    push_adds_index 5 sampleQueue (Valid_of_check (by decide)) (by decide) 4 (by decide)
      (by decide) 7⟩

/-- C9: on a state of a capacity-`N` queue that satisfies I1..I5, for a contained
index `i` and any priority `k`: after `changeKey(k, i)` the priority of `i` is `k`,
the priorities of all other indices are as before, the same indices are contained,
`size()` is as before, I1, I2 and I3 hold again, and after any number of `pop()`
calls `top()` returns `(k, i)` whenever `i` is the index at heap position 1. -/
theorem changeKey_sets_priority (N : Nat) (q : IndexPriorityQueue T) (hv : Valid N q)
    (i : Int) (hpres : contains q i = true) (k : T) :
    ∃ q', changeKey q k i = .ok q' ∧ lookup q'.priorities i = some k ∧
      (∀ j, j ≠ i → lookup q'.priorities j = lookup q.priorities j) ∧
      (∀ j, contains q' j = contains q j) ∧ size q' = size q ∧
      I1 q' ∧ I2 q' ∧ I3 q' ∧
      (∀ m, ∃ q'', popN m q' = .ok q'' ∧
        (lookup q''.priorityQueue 1 = some i → top q'' = .ok (k, i))) := by
  rw [contains_iff_present] at hpres
  have hi : 0 ≤ i ∧ i < q.priorities.length := by
    obtain ⟨pos, e, _⟩ := id hpres
    have b := lookup_bounds e
    have := hv.hlen
    exact ⟨b.1, by omega⟩
  obtain ⟨q', ep, v, hsz, hpr, _, hp⟩ := changeKey_valid hv k hpres
  have vpri : ∀ j, lookup q'.priorities j =
      if j = i then some k else lookup q.priorities j := by
    intro j
    rw [hpr]
    exact lookup_set _ _ _ _ hi.1 hi.2
  refine ⟨q', ep, ?_, ?_, ?_, hsz, v.2.1, v.2.2.1, v.2.2.2.1, ?_⟩
  · rw [vpri i]
    simp
  · intro j hj
    rw [vpri j]
    simp [hj]
  · intro j
    rw [Bool.eq_iff_iff, contains_iff_present, contains_iff_present]
    exact hp j
  · intro m
    obtain ⟨q'', e, _, hpr2⟩ := popN_valid m q' v
    refine ⟨q'', e, ?_⟩
    intro h1
    unfold top
    rw [readAt_of_lookup h1]
    simp only [bind, Except.bind]
    have : lookup q''.priorities i = some k := by
      rw [hpr2, vpri i]
      simp
    rw [readAt_of_lookup this]
    rfl

/-- The theorem of C9 at a concrete input. -/
theorem changeKey_sets_priority_witness :
    Valid 5 sampleQueue ∧ contains sampleQueue 2 = true ∧
    ∃ q', changeKey sampleQueue 1 2 = .ok q' ∧ lookup q'.priorities 2 = some 1 ∧
      (∀ j, j ≠ 2 → lookup q'.priorities j = lookup sampleQueue.priorities j) ∧
      (∀ j, contains q' j = contains sampleQueue j) ∧ size q' = size sampleQueue ∧
      I1 q' ∧ I2 q' ∧ I3 q' ∧
      (∀ m, ∃ q'', popN m q' = .ok q'' ∧
        (lookup q''.priorityQueue 1 = some 2 → top q'' = .ok (1, 2))) :=
  ⟨Valid_of_check (by decide), by decide,
    changeKey_sets_priority 5 sampleQueue (Valid_of_check (by decide)) 2 (by decide) 1⟩

end

section
variable {T : Type}

theorem heapList_mem (q : IndexPriorityQueue T) (j : Int) :
    j ∈ heapList q ↔ ∃ p, 1 ≤ p ∧ p ≤ q.size_ ∧ lookup q.priorityQueue p = some j := by
  unfold heapList
  rw [List.mem_filterMap]
  constructor
  · rintro ⟨k, hk, e⟩
    rw [List.mem_range] at hk
    exact ⟨(k : Int) + 1, by omega, by omega, e⟩
  · rintro ⟨p, hp1, hp2, e⟩
    refine ⟨(p - 1).toNat, List.mem_range.2 (by omega), ?_⟩
    have hcast : (((p - 1).toNat : Nat) : Int) + 1 = p := by omega
    rw [hcast]
    exact e

theorem heapList_mem_iff_present {q : IndexPriorityQueue T} (h1 : I1 q) (h2 : I2 q)
    (j : Int) : j ∈ heapList q ↔ present q j := by
  rw [heapList_mem]
  constructor
  · rintro ⟨p, hp1, hp2, e⟩
    exact ⟨p, I1_position h1 ⟨hp1, hp2⟩ e, by omega⟩
  · rintro ⟨pos, e, hne⟩
    obtain ⟨a, b, c⟩ := h2 j pos e hne
    exact ⟨pos, a, b, c⟩

theorem heapList_nodup {q : IndexPriorityQueue T} (h1 : I1 q) : (heapList q).Nodup := by
  unfold heapList
  have hp : List.Pairwise (fun a b : Nat => a < q.size_.toNat ∧ b < q.size_.toNat ∧ a < b)
      (List.range q.size_.toNat) := by
    refine List.Pairwise.imp_of_mem ?_ (List.pairwise_lt_range _)
    intro a b ha hb hab
    exact ⟨List.mem_range.1 ha, List.mem_range.1 hb, hab⟩
  refine List.Pairwise.filterMap _ ?_ hp
  intro a b hab x hx y hy hxy
  subst hxy
  have := I1_inj h1 (p := (a : Int) + 1) (r := (b : Int) + 1) ⟨by omega, by omega⟩
    ⟨by omega, by omega⟩ hx hy
  omega

theorem entries_mem {q : IndexPriorityQueue T} (h1 : I1 q) (h2 : I2 q) (k : T) (j : Int) :
    (k, j) ∈ entries q ↔ present q j ∧ lookup q.priorities j = some k := by
  unfold entries
  rw [List.mem_filterMap]
  constructor
  · rintro ⟨i, hi, e⟩
    cases hk : lookup q.priorities i with
    | none => rw [hk] at e; exact absurd e (by simp)
    | some k2 =>
      rw [hk] at e
      simp only [Option.map_some', Option.some.injEq, Prod.mk.injEq] at e
      obtain ⟨e1, e2⟩ := e
      subst e1
      subst e2
      exact ⟨(heapList_mem_iff_present h1 h2 i).1 hi, hk⟩
  · rintro ⟨hp, hk⟩
    exact ⟨j, (heapList_mem_iff_present h1 h2 j).2 hp, by simp [hk]⟩

theorem entries_nodup {q : IndexPriorityQueue T} (h1 : I1 q) : (entries q).Nodup := by
  unfold entries
  refine List.Nodup.filterMap ?_ (heapList_nodup h1)
  intro a b x hx hy
  cases ha : lookup q.priorities a with
  | none => rw [ha] at hx; exact absurd hx (by simp)
  | some ka =>
    cases hb : lookup q.priorities b with
    | none => rw [hb] at hy; exact absurd hy (by simp)
    | some kb =>
      rw [ha] at hx
      rw [hb] at hy
      simp only [Option.map_some', Option.mem_def, Option.some.injEq] at hx hy
      rw [← hx] at hy
      exact (Prod.mk.inj hy).2.symm

theorem entries_of_size_zero {q : IndexPriorityQueue T} (h : q.size_ = 0) :
    entries q = [] := by
  unfold entries heapList
  simp [h]

end

section
variable {T : Type} [LinearOrder T]

theorem construct_valid [Inhabited T] (N : Nat) :
    Valid N (construct N : IndexPriorityQueue T) := by
  have hitp : ∀ (i pos : Int),
      lookup (construct N : IndexPriorityQueue T).indexToPosition i = some pos → pos = -1 := by
    intro i pos h
    rw [lookup_eq_some_iff] at h
    have := h.2
    simp only [construct, List.getElem?_replicate] at this
    split at this
    · exact (Option.some.inj this).symm
    · exact absurd this (by simp)
  have h1 : I1 (construct N : IndexPriorityQueue T) := by
    intro p hp1 hp2
    have : p ≤ 0 := hp2
    omega
  refine ⟨⟨by simp [construct], by simp [construct], le_refl _⟩, h1, ?_, ?_, ?_, I5_of_I1 h1⟩
  · intro i pos h hne
    exact absurd (hitp i pos h) hne
  · intro p hp1 hp2
    have : p ≤ 0 := hp2
    omega
  · refine I4_of_present_lt ?_
    rintro j ⟨pos, h, hne⟩
    exact absurd (hitp j pos h) hne

/-- Pushing a list of pairs with distinct absent indices of `[0, N)` into a freshly
sized valid state succeeds and adds exactly those pairs. -/
theorem pushAll_spec {N : Nat} : ∀ (pairs : List (T × Int)) (q : IndexPriorityQueue T),
    Valid N q → q.priorityQueue.length = N + 1 →
    (pairs.map Prod.snd).Nodup → (∀ x ∈ pairs, 0 ≤ x.2 ∧ x.2 < N ∧ ¬ present q x.2) →
    ∃ q', pushAll q pairs = .ok q' ∧ Valid N q' ∧ q'.priorityQueue.length = N + 1 ∧
      (entries q').Perm (pairs ++ entries q) := by
  intro pairs
  induction pairs with
  | nil =>
    intro q hv hl _ _
    exact ⟨q, rfl, hv, hl, List.Perm.refl _⟩
  | cons x rest ih =>
    intro q hv hl hnd hx
    obtain ⟨k, i⟩ := x
    have hxi := hx (k, i) (List.mem_cons_self _ _)
    have hi : 0 ≤ i ∧ i < N := ⟨hxi.1, hxi.2.1⟩
    have habs : ¬ present q i := hxi.2.2
    have hsz := size_lt_capacity hv.2.1 hv.2.2.2.2.1 hi habs
    obtain ⟨q1, ep, v1, _, hpr, hl1, hpres⟩ :=
      push_valid hv (by rw [hl]; omega) k hi habs
    have hiK : i < q.priorities.length := by
      have := hv.1.1
      omega
    have vpri : ∀ j, lookup q1.priorities j =
        if j = i then some k else lookup q.priorities j := by
      intro j
      rw [hpr]
      exact lookup_set _ _ _ _ hi.1 hiK
    rw [List.map_cons, List.nodup_cons] at hnd
    obtain ⟨q', e, v, l', hperm⟩ := ih q1 v1 (hl1.trans hl) hnd.2 (by
      intro y hy
      have hy0 := hx y (List.mem_cons_of_mem _ hy)
      refine ⟨hy0.1, hy0.2.1, ?_⟩
      intro hp
      rcases (hpres y.2).1 hp with h | h
      · exact hy0.2.2 h
      · apply hnd.1
        exact List.mem_map.2 ⟨y, hy, h⟩)
    have step : (entries q1).Perm ((k, i) :: entries q) := by
      have hnot : (k, i) ∉ entries q := by
        intro h
        exact habs ((entries_mem hv.2.1 hv.2.2.1 k i).1 h).1
      rw [List.perm_ext_iff_of_nodup (entries_nodup v1.2.1)
        (List.nodup_cons.2 ⟨hnot, entries_nodup hv.2.1⟩)]
      rintro ⟨k2, j⟩
      rw [entries_mem v1.2.1 v1.2.2.1, List.mem_cons, entries_mem hv.2.1 hv.2.2.1, hpres j,
        vpri j]
      by_cases hji : j = i
      · subst hji
        simp only [if_true, Option.some.injEq, Prod.mk.injEq, and_true]
        constructor
        · rintro ⟨_, h⟩
          exact Or.inl h.symm
        · rintro (h | h)
          · exact ⟨Or.inr trivial, h.symm⟩
          · exact absurd h.1 habs
      · simp [hji]
    refine ⟨q', ?_, v, l', ?_⟩
    · unfold pushAll
      rw [ep]
      exact e
    · refine hperm.trans ?_
      refine (List.Perm.append_left rest step).trans ?_
      exact List.perm_middle

/-- Draining a valid state returns its entries, least priority first. -/
theorem drainAux_spec {N : Nat} : ∀ (n : Nat) (q : IndexPriorityQueue T),
    Valid N q → q.size_ = n →
    ∃ out, drainAux (n + 1) q = .ok out ∧ out.Perm (entries q) ∧
      (out.map Prod.fst).Sorted (fun a b => a ≤ b) := by
  intro n
  induction n with
  | zero =>
    intro q hv hs
    refine ⟨[], ?_, ?_, ?_⟩
    · unfold drainAux
      simp [empty, hs, pure, Except.pure]
    · have hs0 : q.size_ = 0 := by simpa using hs
      rw [entries_of_size_zero hs0]
    · simp
  | succ n ih =>
    intro q hv hs
    have hs1 : 1 ≤ q.size_ := by omega
    obtain ⟨i0, k0, e0, ek0, et, hp0, hmin⟩ :=
      top_spec hv.2.1 hv.2.2.1 hv.2.2.2.1 hv.hlen hs1
    obtain ⟨i1, q1, e1, ep, v1, hsz, hpr, hpres⟩ := pop_valid hv hs1
    rw [e0] at e1
    cases e1
    obtain ⟨out, ed, hperm, hsorted⟩ := ih q1 v1 (by omega)
    have step : (entries q).Perm ((k0, i0) :: entries q1) := by
      have hnot : (k0, i0) ∉ entries q1 := by
        intro h
        exact (((hpres i0).1 ((entries_mem v1.2.1 v1.2.2.1 k0 i0).1 h).1).2) rfl
      rw [List.perm_ext_iff_of_nodup (entries_nodup hv.2.1)
        (List.nodup_cons.2 ⟨hnot, entries_nodup v1.2.1⟩)]
      rintro ⟨k2, j⟩
      rw [entries_mem hv.2.1 hv.2.2.1, List.mem_cons, entries_mem v1.2.1 v1.2.2.1, hpres j,
        hpr]
      by_cases hji : j = i0
      · subst hji
        simp only [ek0, Option.some.injEq, Prod.mk.injEq, and_true, ne_eq, not_true_eq_false,
          and_false, false_and, or_false]
        constructor
        · rintro ⟨_, h⟩
          exact h.symm
        · intro h
          exact ⟨hp0, h.symm⟩
      · simp [hji]
    refine ⟨(k0, i0) :: out, ?_, ?_, ?_⟩
    · have hne : empty q = false := by
        unfold empty
        have : q.size_ ≠ 0 := by omega
        simp [this]
      rw [drainAux]
      simp only [hne, Bool.false_eq_true, if_false, et, ep, bind, Except.bind]
      rw [ed]
      rfl
    · exact (List.Perm.cons _ hperm).trans step.symm
    · rw [List.map_cons, List.sorted_cons]
      refine ⟨?_, hsorted⟩
      intro b hb
      rw [List.mem_map] at hb
      obtain ⟨⟨k2, j⟩, hmem, hk⟩ := hb
      simp only at hk
      subst hk
      have hin := (entries_mem v1.2.1 v1.2.2.1 k2 j).1 (hperm.mem_iff.1 hmem)
      obtain ⟨kj, ekj, hle⟩ := hmin j ((hpres j).1 hin.1).1
      rw [hpr] at hin
      rw [hin.2] at ekj
      cases ekj
      exact hle

/-- C5: pushing pairs with pairwise distinct indices of `[0, N)` into a freshly
constructed queue of capacity `N` and then recording `top()` and calling `pop()`
until `empty()` yields the pushed pairs, as a multiset, with the recorded
priorities in non-decreasing order. -/
theorem push_all_then_drain_sorts [Inhabited T] (N : Nat) (pairs : List (T × Int))
    (hdistinct : (pairs.map Prod.snd).Nodup)
    (hrange : ∀ x ∈ pairs, 0 ≤ x.2 ∧ x.2 < (N : Int)) :
    ∃ q out, pushAll (construct N) pairs = .ok q ∧ drain q = .ok out ∧
      out.Perm pairs ∧ (out.map Prod.fst).Sorted (fun a b => a ≤ b) := by
  have hv0 : Valid N (construct N : IndexPriorityQueue T) := construct_valid N
  obtain ⟨q, e, v, _, hperm⟩ := pushAll_spec pairs (construct N) hv0
    (by simp [construct]) hdistinct (by
      intro x hx
      have := hrange x hx
      refine ⟨this.1, this.2, ?_⟩
      intro hp
      have hmem := (heapList_mem_iff_present hv0.2.1 hv0.2.2.1 x.2).2 hp
      simp [heapList, construct] at hmem)
  have hs0 : 0 ≤ q.size_ := v.1.2.2
  obtain ⟨out, ed, hp2, hsorted⟩ := drainAux_spec q.size_.toNat q v (by omega)
  refine ⟨q, out, e, ed, ?_, hsorted⟩
  refine hp2.trans (hperm.trans ?_)
  have : entries (construct N : IndexPriorityQueue T) = [] := entries_of_size_zero rfl
  rw [this, List.append_nil]

/-- The theorem of C5 at a concrete input. -/
theorem push_all_then_drain_sorts_witness :
    ([((3 : Int), (2 : Int)), (1, 0), (2, 1)].map Prod.snd).Nodup ∧
    (∀ x ∈ [((3 : Int), (2 : Int)), (1, 0), (2, 1)], 0 ≤ x.2 ∧ x.2 < ((3 : Nat) : Int)) ∧
    ∃ q out, pushAll (construct 3) [((3 : Int), (2 : Int)), (1, 0), (2, 1)] = .ok q ∧
      drain q = .ok out ∧
      out.Perm [((3 : Int), (2 : Int)), (1, 0), (2, 1)] ∧
      (out.map Prod.fst).Sorted (fun a b => a ≤ b) :=
  ⟨by decide, by decide,
    push_all_then_drain_sorts 3 [((3 : Int), (2 : Int)), (1, 0), (2, 1)] (by decide) (by decide)⟩

end

/-- C1: on `IndexPriorityQueue<int>(2)` the calls `push(3,0); push(1,1); pop()` run,
leaving the heap vector with two slots, and the following `push(2,1)` writes
`priorityQueue[2]` outside the vector: the sequence has no defined resulting state
for heap order to hold in. -/
theorem heap_order_run_faults :
    run (construct 2 : IndexPriorityQueue Int) [.push 3 0, .push 1 1, .pop] =
      .ok { priorities := [3, 1, 0], priorityQueue := [0, 0], indexToPosition := [1, -1, -1],
            size_ := 1 } ∧
    run (construct 2 : IndexPriorityQueue Int) [.push 3 0, .push 1 1, .pop, .push 2 1] =
      .error .outOfBounds :=
  ⟨rfl, rfl⟩

/-- C2: on `IndexPriorityQueue<int>(3)` filled with three pushes, `erase(2)` shrinks
the heap vector to three slots and then `swim(3)` reads `priorityQueue[3]` outside
it: the sequence has no defined resulting state for the bijection to hold in. -/
theorem bijection_run_faults :
    run (construct 3 : IndexPriorityQueue Int) [.push 1 0, .push 2 1, .push 3 2] =
      .ok { priorities := [1, 2, 3, 0], priorityQueue := [0, 0, 1, 2],
            indexToPosition := [1, 2, 3, -1], size_ := 3 } ∧
    run (construct 3 : IndexPriorityQueue Int) [.push 1 0, .push 2 1, .push 3 2, .erase 2] =
      .error .outOfBounds :=
  ⟨rfl, rfl⟩

/-- C3: the two call sequences of the claim leave the bounds of the heap vector.
Capacity 1: after `push(5,0); pop()` the vector has one slot and `push(7,0)` writes
slot 1. Capacity 2: in `erase(1)` after `push(1,0); push(2,1)` the vector is shrunk
to two slots before `swim(2)` reads slot 2. -/
theorem bounds_violated :
    run (construct 1 : IndexPriorityQueue Int) [.push 5 0, .pop] =
      .ok { priorities := [5, 0], priorityQueue := [0], indexToPosition := [-1, -1],
            size_ := 0 } ∧
    run (construct 1 : IndexPriorityQueue Int) [.push 5 0, .pop, .push 7 0] =
      .error .outOfBounds ∧
    run (construct 2 : IndexPriorityQueue Int) [.push 1 0, .push 2 1] = .ok fullQueue ∧
    run (construct 2 : IndexPriorityQueue Int) [.push 1 0, .push 2 1, .erase 1] =
      .error .outOfBounds :=
  ⟨rfl, rfl, rfl, rfl⟩

/-- C7: `fullQueue` is a state of a capacity-2 queue that satisfies I1..I5 and holds
2 indices; index 1 is contained, and `erase(1)` reads outside the heap vector. -/
theorem erase_full_queue_faults :
    Valid 2 fullQueue ∧ fullQueue.priorityQueue.length = 2 + 1 ∧
    contains fullQueue 1 = true ∧ erase fullQueue 1 = .error .outOfBounds :=
  ⟨Valid_of_check (by decide), rfl, rfl, rfl⟩

/-- C10: on a fresh `IndexPriorityQueue<int>(2)`, `push(7, 2)` is accepted (the size
becomes 1 and index 2 is contained), and `push(7, -1)` and `push(7, 3)` write outside
the position map. -/
theorem push_out_of_range_not_rejected :
    push (construct 2 : IndexPriorityQueue Int) 7 2 =
      .ok { priorities := [0, 0, 7], priorityQueue := [0, 2, 0], indexToPosition := [-1, -1, 1],
            size_ := 1 } ∧
    (do
      let q ← push (construct 2 : IndexPriorityQueue Int) 7 2
      pure (size q, contains q 2)) = .ok (1, true) ∧
    push (construct 2 : IndexPriorityQueue Int) 7 (-1) = .error .outOfBounds ∧
    push (construct 2 : IndexPriorityQueue Int) 7 3 = .error .outOfBounds :=
  ⟨rfl, rfl, rfl, rfl⟩

section
variable {T : Type} [LinearOrder T]

theorem swimAux_noop (fuel : Nat) (q : IndexPriorityQueue T) (p : Int)
    (h : p ≤ 1 ∨ LeAt q (parent p) p) : swimAux (fuel + 1) q p = .ok q := by
  unfold swimAux
  by_cases hgt : p > 1
  · rcases h with h | h
    · omega
    · obtain ⟨kb, ka, ekb, eka, hle⟩ := h
      obtain ⟨b, eb, ekb2⟩ := (keyAt_eq_some_iff q _ kb).1 ekb
      obtain ⟨a, ea, eka2⟩ := (keyAt_eq_some_iff q _ ka).1 eka
      simp only [hgt, if_true]
      rw [readAt_of_lookup ea, readAt_of_lookup eb]
      simp only [bind, Except.bind]
      rw [readAt_of_lookup eka2, readAt_of_lookup ekb2]
      simp only
      have : ¬ ka < kb := not_lt.2 hle
      simp only [this, if_false]
      rfl
  · simp only [hgt, if_false]
    rfl

theorem sinkAux_noop (fuel : Nat) (q : IndexPriorityQueue T) (p : Int)
    (h : ¬ leftChild p ≤ q.size_) : sinkAux (fuel + 1) q p = .ok q := by
  unfold sinkAux
  simp only [h, if_false]
  rfl

/-- The sift-down loop keeps a state that already satisfies I1..I3 within I1..I3. -/
theorem sink_of_I3 {q : IndexPriorityQueue T} (h1 : I1 q) (h2 : I2 q) (h3 : I3 q)
    (hlen : q.indexToPosition.length ≤ q.priorities.length) {p : Int} (hp : 1 ≤ p) :
    ∃ q', sink q p = .ok q' ∧ q'.size_ = q.size_ ∧ q'.priorities = q.priorities ∧
      q'.priorityQueue.length = q.priorityQueue.length ∧
      q'.indexToPosition.length = q.indexToPosition.length ∧
      I1 q' ∧ I2 q' ∧ I3 q' ∧ (∀ i, present q' i ↔ present q i) := by
  obtain ⟨q', r0, r1, r2, r3, r4, r5, r6, r7, r8, _⟩ :=
    sinkAux_spec (q.size_.toNat + 2) q p (by omega) h1 h2 hlen hp
      (fun r hr2 hrs _ => h3 r hr2 hrs)
      (by
        intro hgt c hc2 hcs hcp
        have hcpar : parent c = c / 2 := parent_eq_div (by omega)
        have hps : p ≤ q.size_ := by rw [hcpar] at hcp; omega
        exact LeAt_trans (h3 p (by omega) hps) (hcp ▸ h3 c hc2 hcs))
  exact ⟨q', r0, r1, r2, r3, r4, r5, r6, r7, r8⟩

end

section
variable {T : Type}

theorem shrunk_pq (q : IndexPriorityQueue T) (pos x last r : Int)
    (hr : r + 1 < q.priorityQueue.length) :
    lookup (shrunk q pos x last).priorityQueue r =
      lookup (detached q pos x last).priorityQueue r := by
  unfold shrunk
  simp only
  refine lookup_dropLast _ _ ?_
  simpa [detached] using hr

theorem erase_start {q : IndexPriorityQueue T} (h1 : I1 q) {i pos last : Int}
    (epos : lookup q.indexToPosition i = some pos) (hp : 1 ≤ pos ∧ pos ≤ q.size_)
    (ea : lookup q.priorityQueue pos = some i)
    (eb : lookup q.priorityQueue q.size_ = some last) [LinearOrder T] :
    erase q i = (do
      let q4 ← swim (shrunk q pos i last) pos
      sink q4 pos) := by
  have hs : 1 ≤ q.size_ ∧ q.size_ ≤ q.size_ := ⟨by omega, le_refl _⟩
  have hc : contains q i = true := (contains_iff_present q i).2 ⟨pos, epos, by omega⟩
  obtain ⟨q1, q2, itp, s1, s2, s3, s4⟩ := detach_steps q pos i last ea eb
    (I1_index_bounds h1 hp ea) (I1_index_bounds h1 hs eb)
  have hpl := I1_pq_length h1 hs.1
  unfold erase
  simp only [hc, Bool.not_true, Bool.false_eq_true, if_false]
  rw [readAt_of_lookup epos]
  simp only [bind, Except.bind]
  rw [s1]
  simp only
  rw [s2]
  simp only
  rw [s3]
  simp only
  rw [s4, popBack_ok _ (by simp [detached]; omega)]
  rfl

theorem shrunk_I1 {q : IndexPriorityQueue T} (h1 : I1 q) {pos x last : Int}
    (hp : 1 ≤ pos ∧ pos ≤ q.size_)
    (ea : lookup q.priorityQueue pos = some x)
    (eb : lookup q.priorityQueue q.size_ = some last) : I1 (shrunk q pos x last) := by
  have hpl := I1_pq_length h1 (by omega)
  refine @agree_I1 T (detached q pos x last) _ rfl rfl ?_ (detached_I1 h1 hp ea eb)
  intro p hp1 hp2
  have hp2 : p ≤ q.size_ - 1 := hp2
  exact shrunk_pq q pos x last p (by omega)

theorem shrunk_I2 {q : IndexPriorityQueue T} (h1 : I1 q) (h2 : I2 q) {pos x last : Int}
    (hp : 1 ≤ pos ∧ pos ≤ q.size_)
    (ea : lookup q.priorityQueue pos = some x)
    (eb : lookup q.priorityQueue q.size_ = some last) : I2 (shrunk q pos x last) := by
  have hpl := I1_pq_length h1 (by omega)
  refine @agree_I2 T (detached q pos x last) _ rfl rfl ?_ (detached_I2 h1 h2 hp ea eb)
  intro p hp1 hp2
  have hp2 : p ≤ q.size_ - 1 := hp2
  exact shrunk_pq q pos x last p (by omega)

end

section
variable {T : Type} [LinearOrder T]

omit [LinearOrder T] in
theorem shrunk_keyAt {q : IndexPriorityQueue T} (h1 : I1 q) {pos x last : Int}
    (hp : 1 ≤ pos ∧ pos ≤ q.size_)
    (ea : lookup q.priorityQueue pos = some x)
    (eb : lookup q.priorityQueue q.size_ = some last) (r : Int) (hr : r < q.size_) :
    keyAt (shrunk q pos x last) r = if r = pos then keyAt q q.size_ else keyAt q r := by
  have hpl := I1_pq_length h1 (by omega)
  rw [← detached_keyAt q ea eb r (by omega)]
  exact @agree_keyAt T (detached q pos x last) (shrunk q pos x last) rfl r
    (shrunk_pq q pos x last r (by omega))

/-- What `erase` does when the erased index is not at the last occupied position. -/
theorem erase_inner {q : IndexPriorityQueue T} (h1 : I1 q) (h2 : I2 q) (h3 : I3 q)
    (hlen : q.indexToPosition.length ≤ q.priorities.length) {i pos : Int}
    (epos : lookup q.indexToPosition i = some pos) (hp1 : 1 ≤ pos) (hp2 : pos < q.size_) :
    ∃ q', erase q i = .ok q' ∧ q'.size_ = q.size_ - 1 ∧ q'.priorities = q.priorities ∧
      q'.priorityQueue.length + 1 = q.priorityQueue.length ∧
      q'.indexToPosition.length = q.indexToPosition.length ∧
      I1 q' ∧ I2 q' ∧ I3 q' ∧ ∀ j, present q' j ↔ (present q j ∧ j ≠ i) := by
  have hp : 1 ≤ pos ∧ pos ≤ q.size_ := ⟨hp1, by omega⟩
  have hs : 1 ≤ q.size_ ∧ q.size_ ≤ q.size_ := ⟨by omega, le_refl _⟩
  obtain ⟨_, _, ea⟩ := h2 i pos epos (by omega)
  obtain ⟨last, kl, eb, ekl, kkl⟩ := keyAt_defined h1 hlen hs
  have n1 := shrunk_I1 h1 hp ea eb
  have n2 := shrunk_I2 h1 h2 hp ea eb
  have key := shrunk_keyAt h1 hp ea eb
  have keypos : keyAt (shrunk q pos i last) pos = some kl := by
    rw [key pos hp2]
    simp [kkl]
  have nlen : (shrunk q pos i last).indexToPosition.length ≤
      (shrunk q pos i last).priorities.length := by
    simpa [shrunk, detached] using hlen
  have npres : ∀ j, present (shrunk q pos i last) j ↔ (present q j ∧ j ≠ i) :=
    fun j => detached_present h1 hp ea eb j
  have nsz : (shrunk q pos i last).size_ = q.size_ - 1 := rfl
  have npq : (shrunk q pos i last).priorityQueue.length + 1 = q.priorityQueue.length := by
    have := I1_pq_length h1 hs.1
    simp only [shrunk, detached, List.length_dropLast, List.length_set]
    omega
  have nitp : (shrunk q pos i last).indexToPosition.length = q.indexToPosition.length := by
    simp [shrunk, detached]
  -- the order facts of the old state that survive around `pos`
  have hgp : 1 < pos → ∀ c, 2 ≤ c → c ≤ (shrunk q pos i last).size_ → parent c = pos →
      LeAt (shrunk q pos i last) (parent pos) c := by
    intro hgt c hc2 hcs hcp
    have hcs : c ≤ q.size_ - 1 := hcs
    have hpar : parent pos = pos / 2 := parent_eq_div (by omega)
    have hcpar : parent c = c / 2 := parent_eq_div (by omega)
    refine LeAt_congr ?_ ?_ (LeAt_trans (h3 pos (by omega) hp.2) (hcp ▸ h3 c hc2 (by omega)))
    · rw [key _ (by rw [hpar]; omega)]
      have : parent pos ≠ pos := by rw [hpar]; omega
      simp [this]
    · rw [key _ (by omega)]
      have : c ≠ pos := by rw [hcpar] at hcp; omega
      simp [this]
  have hfar : ∀ r, 2 ≤ r → r ≤ q.size_ - 1 → r ≠ pos → parent r ≠ pos →
      LeAt (shrunk q pos i last) (parent r) r := by
    intro r hr2 hrs hr hu
    have hpar : parent r = r / 2 := parent_eq_div (by omega)
    refine LeAt_congr ?_ ?_ (h3 r hr2 (by omega))
    · rw [key _ (by rw [hpar]; omega)]
      simp [hu]
    · rw [key _ (by omega)]
      simp [hr]
  rw [erase_start h1 epos hp ea eb]
  by_cases hup : 1 < pos ∧ ∃ kg, keyAt q (parent pos) = some kg ∧ kl < kg
  · obtain ⟨hgt, kg, ekg, hlt⟩ := hup
    have hpar : parent pos = pos / 2 := parent_eq_div (by omega)
    obtain ⟨q4, r0, r1, r2, r3, r4, r5, r6, r7, r8, _⟩ :=
      swimAux_spec (pos.toNat + 1) (shrunk q pos i last) pos (by omega) n1 n2 nlen hp1
        (by rw [nsz]; omega)
        (by
          intro r hr2 hrs hr
          have hrs : r ≤ q.size_ - 1 := hrs
          by_cases hu : parent r = pos
          · obtain ⟨kg2, ko, e1, e2, hle1⟩ := h3 pos (by omega) hp.2
            rw [ekg] at e1
            cases e1
            obtain ⟨ko2, kr, e3, e4, hle2⟩ := h3 r hr2 (by omega)
            rw [hu, e2] at e3
            cases e3
            refine ⟨kl, kr, by rw [hu]; exact keypos, ?_,
              le_trans (le_of_lt hlt) (le_trans hle1 hle2)⟩
            rw [key _ (by omega)]
            simp [hr, e4]
          · exact hfar r hr2 hrs hr hu)
        hgp
    obtain ⟨q5, t0, t1, t2, t3, t4, t5, t6, t7, t8⟩ :=
      sink_of_I3 r5 r6 r7 (by rw [r4, r2]; exact nlen) hp1
    refine ⟨q5, ?_, ?_, ?_, ?_, ?_, t5, t6, t7, ?_⟩
    · unfold swim
      rw [r0]
      exact t0
    · rw [t1, r1, nsz]
    · rw [t2, r2]
      rfl
    · rw [t3, r3, npq]
    · rw [t4, r4, nitp]
    · intro j
      rw [t8 j, r8 j, npres j]
  · have hstay : pos ≤ 1 ∨ LeAt (shrunk q pos i last) (parent pos) pos := by
      by_cases hgt : 1 < pos
      · right
        have hpar : parent pos = pos / 2 := parent_eq_div (by omega)
        obtain ⟨g, kg, _, _, kkg⟩ := keyAt_defined h1 hlen (p := parent pos)
          ⟨by rw [hpar]; omega, by rw [hpar]; omega⟩
        refine ⟨kg, kl, ?_, keypos, ?_⟩
        · rw [key _ (by rw [hpar]; omega)]
          have : parent pos ≠ pos := by rw [hpar]; omega
          simp [this, kkg]
        · by_contra hcon
          exact hup ⟨hgt, kg, kkg, not_le.1 hcon⟩
      · left
        omega
    obtain ⟨q5, r0, r1, r2, r3, r4, r5, r6, r7, r8, _⟩ :=
      sinkAux_spec ((shrunk q pos i last).size_.toNat + 2) (shrunk q pos i last) pos
        (by omega) n1 n2 nlen hp1
        (by
          intro r hr2 hrs hu
          have hrs : r ≤ q.size_ - 1 := hrs
          by_cases hr : r = pos
          · rcases hstay with h | h
            · omega
            · rw [hr]; exact h
          · exact hfar r hr2 hrs hr hu)
        hgp
    refine ⟨q5, ?_, ?_, ?_, ?_, ?_, r5, r6, r7, ?_⟩
    · unfold swim
      rw [swimAux_noop _ _ _ hstay]
      exact r0
    · rw [r1, nsz]
    · rw [r2]
      rfl
    · rw [r3, npq]
    · rw [r4, nitp]
    · intro j
      rw [r8 j, npres j]

/-- What `erase` does when the erased index is at the last occupied position and the
heap vector has a spare slot behind it (or the queue holds one element). -/
theorem erase_last {q : IndexPriorityQueue T} (h1 : I1 q) (h2 : I2 q) (h3 : I3 q) {i : Int}
    (epos : lookup q.indexToPosition i = some q.size_) (hs1 : 1 ≤ q.size_)
    (hsafe : q.size_ = 1 ∨ q.size_ + 1 < q.priorityQueue.length) :
    ∃ q', erase q i = .ok q' ∧ q'.size_ = q.size_ - 1 ∧ q'.priorities = q.priorities ∧
      q'.priorityQueue.length + 1 = q.priorityQueue.length ∧
      q'.indexToPosition.length = q.indexToPosition.length ∧
      I1 q' ∧ I2 q' ∧ I3 q' ∧ ∀ j, present q' j ↔ (present q j ∧ j ≠ i) := by
  have hs : 1 ≤ q.size_ ∧ q.size_ ≤ q.size_ := ⟨hs1, le_refl _⟩
  obtain ⟨_, _, ea⟩ := h2 i q.size_ epos (by omega)
  have n1 := shrunk_I1 h1 hs ea ea
  have n2 := shrunk_I2 h1 h2 hs ea ea
  have key := shrunk_keyAt h1 hs ea ea
  have hpl := I1_pq_length h1 hs1
  have n3 : I3 (shrunk q q.size_ i i) := by
    intro r hr2 hrs
    have hrs : r ≤ q.size_ - 1 := hrs
    have hpar : parent r = r / 2 := parent_eq_div (by omega)
    refine LeAt_congr ?_ ?_ (h3 r hr2 (by omega))
    · rw [key _ (by rw [hpar]; omega)]
      have : parent r ≠ q.size_ := by rw [hpar]; omega
      simp [this]
    · rw [key _ (by omega)]
      have : r ≠ q.size_ := by omega
      simp [this]
  have hstay : q.size_ ≤ 1 ∨ LeAt (shrunk q q.size_ i i) (parent q.size_) q.size_ := by
    rcases hsafe with h | h
    · left
      omega
    · by_cases hone : q.size_ ≤ 1
      · left
        exact hone
      · right
        have hpar : parent q.size_ = q.size_ / 2 := parent_eq_div (by omega)
        have e1 : keyAt (shrunk q q.size_ i i) (parent q.size_) = keyAt q (parent q.size_) := by
          rw [key _ (by rw [hpar]; omega)]
          have : parent q.size_ ≠ q.size_ := by rw [hpar]; omega
          simp [this]
        have e2 : keyAt (shrunk q q.size_ i i) q.size_ = keyAt q q.size_ := by
          unfold keyAt
          rw [shrunk_pq q q.size_ i i q.size_ h, detached_pq q q.size_ i i q.size_ ea ea]
          simp only [if_true]
          rw [ea]
          rfl
        exact LeAt_congr e1 e2 (h3 q.size_ (by omega) (le_refl _))
  refine ⟨shrunk q q.size_ i i, ?_, rfl, rfl, ?_, ?_, n1, n2, n3, ?_⟩
  · rw [erase_start h1 epos hs ea ea]
    unfold swim
    rw [swimAux_noop _ _ _ hstay]
    simp only [bind, Except.bind]
    unfold sink
    refine sinkAux_noop _ _ _ ?_
    show ¬ 2 * q.size_ ≤ q.size_ - 1
    omega
  · simp only [shrunk, detached, List.length_dropLast, List.length_set]
    omega
  · simp [shrunk, detached]
  · exact fun j => detached_present h1 hs ea ea j

/-- In the remaining case `erase` reads outside the heap vector: the erased index is
at the last occupied position `size_ >= 2` and the vector has no slot behind it. -/
theorem erase_last_faults {q : IndexPriorityQueue T} (h1 : I1 q) (h2 : I2 q) {i : Int}
    (epos : lookup q.indexToPosition i = some q.size_) (hs2 : 2 ≤ q.size_)
    (hfull : (q.priorityQueue.length : Int) = q.size_ + 1) :
    erase q i = .error .outOfBounds := by
  have hs : 1 ≤ q.size_ ∧ q.size_ ≤ q.size_ := ⟨by omega, le_refl _⟩
  obtain ⟨_, _, ea⟩ := h2 i q.size_ epos (by omega)
  rw [erase_start h1 epos hs ea ea]
  have hnone : lookup (shrunk q q.size_ i i).priorityQueue q.size_ = none := by
    cases h : lookup (shrunk q q.size_ i i).priorityQueue q.size_ with
    | none => rfl
    | some v =>
      have b := lookup_bounds h
      simp only [shrunk, detached, List.length_dropLast, List.length_set] at b
      omega
  unfold swim swimAux
  have hgt : q.size_ > 1 := by omega
  simp only [hgt, if_true]
  unfold readAt
  rw [hnone]
  rfl

end

section
variable {T : Type} [LinearOrder T]

theorem push_no_room {q : IndexPriorityQueue T} (k : T) {i : Int}
    (habs : ¬ present q i) (hroom : ¬ q.size_ + 1 < q.priorityQueue.length) :
    push q k i = .error .outOfBounds := by
  have hc : contains q i = false := (contains_eq_false_iff q i).2 habs
  unfold push
  simp only [hc, Bool.false_eq_true, if_false]
  unfold writeAt
  have : ¬ (0 ≤ q.size_ + 1 ∧ q.size_ + 1 < (q.priorityQueue.length : Int)) := fun h => hroom h.2
  simp only [this, if_false]
  rfl

theorem push_present {q : IndexPriorityQueue T} (k : T) {i : Int} (hp : present q i) :
    push q k i = .ok q := by
  unfold push
  simp [(contains_iff_present q i).2 hp, pure, Except.pure]

theorem erase_absent {q : IndexPriorityQueue T} {i : Int} (habs : ¬ present q i) :
    erase q i = .ok q := by
  unfold erase
  simp [(contains_eq_false_iff q i).2 habs, pure, Except.pure]

theorem pop_empty {q : IndexPriorityQueue T} (h : q.size_ = 0) : pop q = .ok q := by
  unfold pop
  simp [h, pure, Except.pure]

theorem changeKey_absent {q : IndexPriorityQueue T} (k : T) {i : Int}
    (habs : ¬ present q i) : changeKey q k i = push q k i := by
  unfold changeKey
  simp [(contains_eq_false_iff q i).2 habs]

theorem erase_valid {N : Nat} {q : IndexPriorityQueue T} (hv : Valid N q) {i : Int}
    {q' : IndexPriorityQueue T} (he : erase q i = .ok q') : Valid N q' := by
  by_cases hp : present q i
  · have hlen := hv.hlen
    obtain ⟨⟨a, b, c⟩, h1, h2, h3, h4, _⟩ := hv
    obtain ⟨pos, epos, hne⟩ := id hp
    obtain ⟨hp1, hp2, _⟩ := h2 i pos epos hne
    have hpl := I1_pq_length h1 (by omega)
    have main : ∃ q'', erase q i = .ok q'' ∧ q''.size_ = q.size_ - 1 ∧
        q''.priorities = q.priorities ∧
        q''.priorityQueue.length + 1 = q.priorityQueue.length ∧
        q''.indexToPosition.length = q.indexToPosition.length ∧
        I1 q'' ∧ I2 q'' ∧ I3 q'' ∧ ∀ j, present q'' j ↔ (present q j ∧ j ≠ i) := by
      by_cases hin : pos < q.size_
      · exact erase_inner h1 h2 h3 hlen epos hp1 hin
      · have hps : pos = q.size_ := by omega
        subst hps
        by_cases hsafe : q.size_ = 1 ∨ q.size_ + 1 < q.priorityQueue.length
        · exact erase_last h1 h2 h3 epos hp1 hsafe
        · have := erase_last_faults h1 h2 epos (by omega) (by omega)
          rw [this] at he
          cases he
    obtain ⟨q'', e, r1, r2, _, r4, r5, r6, r7, r8⟩ := main
    rw [e] at he
    cases he
    refine ⟨⟨?_, ?_, ?_⟩, r5, r6, r7, ?_, I5_of_I1 r5⟩
    · rw [r2]; exact a
    · rw [r4]; exact b
    · omega
    · refine I4_of_present_lt ?_
      intro j hj
      exact (present_range h4 ((r8 j).1 hj).1).2
  · rw [erase_absent hp] at he
    cases he
    exact hv

theorem push_valid_of_ok {N : Nat} {q : IndexPriorityQueue T} (hv : Valid N q) (k : T)
    {i : Int} (hi : 0 ≤ i ∧ i < N) {q' : IndexPriorityQueue T}
    (he : push q k i = .ok q') : Valid N q' := by
  by_cases hp : present q i
  · rw [push_present k hp] at he
    cases he
    exact hv
  · by_cases hroom : q.size_ + 1 < q.priorityQueue.length
    · obtain ⟨q'', e, v, _⟩ := push_valid hv hroom k hi hp
      rw [e] at he
      cases he
      exact v
    · rw [push_no_room k hp hroom] at he
      cases he

/-- Every call with an index argument of `[0, N)` that returns keeps a valid state
valid. -/
theorem step_valid {N : Nat} {q : IndexPriorityQueue T} (hv : Valid N q) (c : Call T)
    (hc : ∀ i, c.index? = some i → 0 ≤ i ∧ i < N) {q' : IndexPriorityQueue T}
    (he : step q c = .ok q') : Valid N q' := by
  cases c with
  | push k i => exact push_valid_of_ok hv k (hc i rfl) he
  | pop =>
    by_cases hs : q.size_ = 0
    · have : step q Call.pop = pop q := rfl
      rw [this, pop_empty hs] at he
      cases he
      exact hv
    · have hs1 : 1 ≤ q.size_ := by
        have := hv.1.2.2
        omega
      obtain ⟨_, q'', _, e, v, _⟩ := pop_valid hv hs1
      have : step q Call.pop = pop q := rfl
      rw [this, e] at he
      cases he
      exact v
  | erase i => exact erase_valid hv he
  | changeKey k i =>
    have hstep : step q (Call.changeKey k i) = changeKey q k i := rfl
    rw [hstep] at he
    by_cases hp : present q i
    · obtain ⟨q'', e, v, _⟩ := changeKey_valid hv k hp
      rw [e] at he
      cases he
      exact v
    · rw [changeKey_absent k hp] at he
      exact push_valid_of_ok hv k (hc i rfl) he
  | top =>
    have hstep : step q Call.top = (do let _ ← top q; pure q) := rfl
    rw [hstep] at he
    cases ht : top q with
    | error e => rw [ht] at he; cases he
    | ok t =>
      rw [ht] at he
      cases he
      exact hv
  | contains i =>
    cases he
    exact hv

/-- Every call sequence with index arguments of `[0, N)` that runs to its end without
a fault ends in a state that satisfies I1..I5. -/
theorem run_valid {N : Nat} : ∀ (calls : List (Call T)) (q : IndexPriorityQueue T),
    Valid N q → (∀ c ∈ calls, ∀ i, c.index? = some i → 0 ≤ i ∧ i < N) →
    ∀ q', run q calls = .ok q' → Valid N q' := by
  intro calls
  induction calls with
  | nil =>
    intro q hv _ q' he
    cases he
    exact hv
  | cons c cs ih =>
    intro q hv hc q' he
    unfold run at he
    cases hs : step q c with
    | error e => rw [hs] at he; cases he
    | ok q1 =>
      rw [hs] at he
      exact ih q1 (step_valid hv c (hc c (List.mem_cons_self _ _)) hs)
        (fun d hd => hc d (List.mem_cons_of_mem _ hd)) q' he

end

section
variable {T : Type}

theorem bind_ne_outOfFuel {α β : Type} {x : Except Fault α} {f : α → Except Fault β}
    (hx : x ≠ .error .outOfFuel) (hf : ∀ a, x = .ok a → f a ≠ .error .outOfFuel) :
    (x >>= f) ≠ .error .outOfFuel := by
  cases x with
  | error e =>
    intro h
    have h2 : (Except.error e : Except Fault β) = Except.error Fault.outOfFuel := h
    cases h2
    exact hx rfl
  | ok a => exact hf a rfl

theorem readAt_ne_outOfFuel {α : Type} (xs : List α) (i : Int) :
    readAt xs i ≠ .error .outOfFuel := by
  unfold readAt
  cases lookup xs i <;> simp

theorem writeAt_ne_outOfFuel {α : Type} (xs : List α) (i : Int) (v : α) :
    writeAt xs i v ≠ .error .outOfFuel := by
  unfold writeAt
  split <;> simp

theorem swapPQ_ne_outOfFuel (q : IndexPriorityQueue T) (a b : Int) :
    swapPQ q a b ≠ .error .outOfFuel := by
  unfold swapPQ
  refine bind_ne_outOfFuel (readAt_ne_outOfFuel _ _) fun x _ => ?_
  refine bind_ne_outOfFuel (readAt_ne_outOfFuel _ _) fun y _ => ?_
  refine bind_ne_outOfFuel (writeAt_ne_outOfFuel _ _ _) fun l1 _ => ?_
  refine bind_ne_outOfFuel (writeAt_ne_outOfFuel _ _ _) fun l2 _ => ?_
  simp [pure, Except.pure]

theorem setIndexToPosAsPq_ne_outOfFuel (q : IndexPriorityQueue T) (i : Int) :
    setIndexToPosAsPq q i ≠ .error .outOfFuel := by
  unfold setIndexToPosAsPq
  refine bind_ne_outOfFuel (readAt_ne_outOfFuel _ _) fun x _ => ?_
  refine bind_ne_outOfFuel (writeAt_ne_outOfFuel _ _ _) fun l1 _ => ?_
  simp [pure, Except.pure]

theorem swapPQ_size {q q' : IndexPriorityQueue T} {a b : Int}
    (h : swapPQ q a b = .ok q') : q'.size_ = q.size_ := by
  unfold swapPQ at h
  cases h1 : readAt q.priorityQueue a with
  | error e => rw [h1] at h; cases h
  | ok x =>
    cases h2 : readAt q.priorityQueue b with
    | error e => rw [h1, h2] at h; cases h
    | ok y =>
      cases h3 : writeAt q.priorityQueue a y with
      | error e => rw [h1, h2] at h; simp only [bind, Except.bind, h3] at h; cases h
      | ok l1 =>
        cases h4 : writeAt l1 b x with
        | error e => rw [h1, h2] at h; simp only [bind, Except.bind, h3, h4] at h; cases h
        | ok l2 =>
          rw [h1, h2] at h
          simp only [bind, Except.bind, h3, h4, pure, Except.pure] at h
          cases h
          rfl

theorem setIndexToPosAsPq_size {q q' : IndexPriorityQueue T} {i : Int}
    (h : setIndexToPosAsPq q i = .ok q') : q'.size_ = q.size_ := by
  unfold setIndexToPosAsPq at h
  cases h1 : readAt q.priorityQueue i with
  | error e => rw [h1] at h; cases h
  | ok x =>
    cases h3 : writeAt q.indexToPosition x i with
    | error e => rw [h1] at h; simp only [bind, Except.bind, h3] at h; cases h
    | ok l1 =>
      rw [h1] at h
      simp only [bind, Except.bind, h3, pure, Except.pure] at h
      cases h
      rfl

end

section
variable {T : Type} [LinearOrder T]

/-- The fuel `swim` passes to its loop is never used up. -/
theorem swimAux_ne_outOfFuel (fuel : Nat) : ∀ (q : IndexPriorityQueue T) (p : Int),
    p.toNat < fuel → swimAux fuel q p ≠ .error .outOfFuel := by
  induction fuel with
  | zero => intro q p h; omega
  | succ fuel ih =>
    intro q p hf
    unfold swimAux
    by_cases hgt : p > 1
    · simp only [hgt, if_true]
      refine bind_ne_outOfFuel (readAt_ne_outOfFuel _ _) fun a _ => ?_
      refine bind_ne_outOfFuel (readAt_ne_outOfFuel _ _) fun ka _ => ?_
      refine bind_ne_outOfFuel (readAt_ne_outOfFuel _ _) fun b _ => ?_
      refine bind_ne_outOfFuel (readAt_ne_outOfFuel _ _) fun kb _ => ?_
      by_cases hlt : ka < kb
      · simp only [hlt, if_true]
        refine bind_ne_outOfFuel (swapPQ_ne_outOfFuel _ _ _) fun q1 _ => ?_
        refine bind_ne_outOfFuel (setIndexToPosAsPq_ne_outOfFuel _ _) fun q2 _ => ?_
        refine bind_ne_outOfFuel (setIndexToPosAsPq_ne_outOfFuel _ _) fun q3 _ => ?_
        refine ih q3 (parent p) ?_
        rw [parent_eq_div (by omega)]
        omega
      · simp [hlt, pure, Except.pure]
    · simp [hgt, pure, Except.pure]

theorem swim_ne_outOfFuel (q : IndexPriorityQueue T) (p : Int) :
    swim q p ≠ .error .outOfFuel :=
  swimAux_ne_outOfFuel _ q p (by omega)

theorem smallerChild_ne_outOfFuel (q : IndexPriorityQueue T) (p : Int) :
    smallerChild q p ≠ .error .outOfFuel := by
  unfold smallerChild
  split
  · refine bind_ne_outOfFuel (readAt_ne_outOfFuel _ _) fun a _ => ?_
    refine bind_ne_outOfFuel (readAt_ne_outOfFuel _ _) fun ka _ => ?_
    refine bind_ne_outOfFuel (readAt_ne_outOfFuel _ _) fun b _ => ?_
    refine bind_ne_outOfFuel (readAt_ne_outOfFuel _ _) fun kb _ => ?_
    simp [pure, Except.pure]
  · simp [pure, Except.pure]

theorem smallerChild_cases {q : IndexPriorityQueue T} {p m : Int}
    (h : smallerChild q p = .ok m) : m = 2 * p ∨ (m = 2 * p + 1 ∧ 2 * p < q.size_) := by
  unfold smallerChild at h
  simp only [leftChild] at h
  by_cases hlt : 2 * p < q.size_
  · simp only [hlt, if_true] at h
    cases h1 : readAt q.priorityQueue (2 * p) with
    | error e => rw [h1] at h; cases h
    | ok l =>
      cases h2 : readAt q.priorities l with
      | error e => rw [h1] at h; simp only [bind, Except.bind, h2] at h; cases h
      | ok kl =>
        cases h3 : readAt q.priorityQueue (rightChild p) with
        | error e => rw [h1] at h; simp only [bind, Except.bind, h2, h3] at h; cases h
        | ok r =>
          cases h4 : readAt q.priorities r with
          | error e => rw [h1] at h; simp only [bind, Except.bind, h2, h3, h4] at h; cases h
          | ok kr =>
            rw [h1] at h
            simp only [bind, Except.bind, h2, h3, h4, pure, Except.pure] at h
            by_cases hk : kl > kr
            · simp only [hk, if_true, Except.ok.injEq] at h
              exact Or.inr ⟨h.symm, hlt⟩
            · simp only [hk, if_false, Except.ok.injEq] at h
              exact Or.inl h.symm
  · simp only [hlt, if_false, pure, Except.pure, Except.ok.injEq] at h
    exact Or.inl h.symm

/-- The fuel `sink` passes to its loop is never used up. -/
theorem sinkAux_ne_outOfFuel (fuel : Nat) : ∀ (q : IndexPriorityQueue T) (p : Int),
    (if p ≤ 0 then q.size_.toNat + 2 else (q.size_ - p).toNat + 1) ≤ fuel →
    sinkAux fuel q p ≠ .error .outOfFuel := by
  induction fuel with
  | zero =>
    intro q p h
    split at h <;> omega
  | succ fuel ih =>
    intro q p hf
    unfold sinkAux
    by_cases hl : leftChild p ≤ q.size_
    · simp only [hl, if_true]
      unfold leftChild at hl
      refine bind_ne_outOfFuel (smallerChild_ne_outOfFuel _ _) fun m hm => ?_
      have hm := smallerChild_cases hm
      refine bind_ne_outOfFuel (readAt_ne_outOfFuel _ _) fun a ha => ?_
      refine bind_ne_outOfFuel (readAt_ne_outOfFuel _ _) fun ka hka => ?_
      refine bind_ne_outOfFuel (readAt_ne_outOfFuel _ _) fun c hc => ?_
      refine bind_ne_outOfFuel (readAt_ne_outOfFuel _ _) fun kc hkc => ?_
      by_cases hle : ka ≤ kc
      · simp [hle, pure, Except.pure]
      · simp only [hle, if_false]
        refine bind_ne_outOfFuel (swapPQ_ne_outOfFuel _ _ _) fun q1 e1 => ?_
        refine bind_ne_outOfFuel (setIndexToPosAsPq_ne_outOfFuel _ _) fun q2 e2 => ?_
        refine bind_ne_outOfFuel (setIndexToPosAsPq_ne_outOfFuel _ _) fun q3 e3 => ?_
        have hsz : q3.size_ = q.size_ := by
          rw [setIndexToPosAsPq_size e3, setIndexToPosAsPq_size e2, swapPQ_size e1]
        have hp0 : 0 ≤ p := by
          by_contra hneg
          unfold readAt at ha
          cases hlk : lookup q.priorityQueue p with
          | none => rw [hlk] at ha; cases ha
          | some v =>
            have := lookup_bounds hlk
            omega
        have hmp : m ≠ p := by
          intro e
          subst e
          rw [ha] at hc
          cases hc
          rw [hka] at hkc
          cases hkc
          exact hle (le_refl _)
        refine ih q3 m ?_
        rw [hsz]
        by_cases hp : p ≤ 0
        · have hp00 : p = 0 := by omega
          have hm1 : m = 1 := by omega
          rw [hm1]
          simp only [hp, if_true] at hf
          have : ¬ ((1 : Int) ≤ 0) := by omega
          simp only [this, if_false]
          omega
        · simp only [hp, if_false] at hf
          have : ¬ (m ≤ 0) := by omega
          simp only [this, if_false]
          omega
    · simp [hl, pure, Except.pure]

theorem sink_ne_outOfFuel (q : IndexPriorityQueue T) (p : Int) :
    sink q p ≠ .error .outOfFuel := by
  refine sinkAux_ne_outOfFuel _ q p ?_
  split <;> omega

end

section
variable {T : Type}

theorem length_filterMap_of_defined {α β : Type} (f : α → Option β) :
    ∀ l : List α, (∀ a ∈ l, ∃ b, f a = some b) → (l.filterMap f).length = l.length := by
  intro l
  induction l with
  | nil => intro _; rfl
  | cons a l ih =>
    intro h
    obtain ⟨b, hb⟩ := h a (List.mem_cons_self _ _)
    rw [List.filterMap_cons_some hb, List.length_cons, List.length_cons,
      ih (fun x hx => h x (List.mem_cons_of_mem _ hx))]

theorem heapList_length {q : IndexPriorityQueue T} (h1 : I1 q) :
    (heapList q).length = q.size_.toNat := by
  unfold heapList
  rw [length_filterMap_of_defined, List.length_range]
  intro k hk
  rw [List.mem_range] at hk
  obtain ⟨i, ei, _⟩ := h1 ((k : Int) + 1) (by omega) (by omega)
  exact ⟨i, ei⟩

/-- In a state that satisfies I1, I2 and I4, `size()` is the number of indices for
which `contains` answers true. -/
theorem contained_count {N : Nat} {q : IndexPriorityQueue T} (h1 : I1 q) (h2 : I2 q)
    (h4 : I4 N q) : (containedIndices N q).length = q.size_.toNat := by
  rw [← heapList_length h1]
  refine List.Perm.length_eq ?_
  have hnd : (containedIndices N q).Nodup := by
    unfold containedIndices
    refine List.Nodup.filter _ ?_
    refine List.Nodup.map ?_ (List.nodup_range _)
    intro a b hab
    exact Int.ofNat.inj hab
  rw [List.perm_ext_iff_of_nodup hnd (heapList_nodup h1)]
  intro j
  rw [heapList_mem_iff_present h1 h2 j]
  unfold containedIndices
  rw [List.mem_filter, List.mem_map]
  constructor
  · rintro ⟨_, hc⟩
    exact (contains_iff_present q j).1 hc
  · intro hp
    have hr := present_range h4 hp
    refine ⟨⟨j.toNat, List.mem_range.2 (by omega), by omega⟩,
      (contains_iff_present q j).2 hp⟩

end

section
variable {T : Type} [LinearOrder T]

/-- On every call sequence from a fresh queue with index arguments of `[0, N)` that
runs to its end without a fault, the final state satisfies heap order (I3), the
bijection (I1, I2, I5), I4, and `size()` counts the contained indices. -/
theorem run_invariants [Inhabited T] (N : Nat) (calls : List (Call T))
    (hidx : ∀ c ∈ calls, ∀ i, c.index? = some i → 0 ≤ i ∧ i < N)
    (q : IndexPriorityQueue T) (hrun : run (construct N) calls = .ok q) :
    I1 q ∧ I2 q ∧ I3 q ∧ I4 N q ∧ I5 q ∧
      ((containedIndices N q).length : Int) = size q := by
  have hv := run_valid calls (construct N) (construct_valid N) hidx q hrun
  refine ⟨hv.2.1, hv.2.2.1, hv.2.2.2.1, hv.2.2.2.2.1, hv.2.2.2.2.2, ?_⟩
  rw [contained_count hv.2.1 hv.2.2.1 hv.2.2.2.2.1]
  have := hv.1.2.2
  unfold size
  omega

end

section
variable {T : Type}

theorem bind_eq_ok {α β : Type} {x : Except Fault α} {f : α → Except Fault β} {b : β}
    (h : (x >>= f) = .ok b) : ∃ a, x = .ok a ∧ f a = .ok b := by
  cases x with
  | error e => cases h
  | ok a => exact ⟨a, rfl, h⟩

theorem writeAt_length {α : Type} {xs ys : List α} {i : Int} {v : α}
    (h : writeAt xs i v = .ok ys) : ys.length = xs.length := by
  unfold writeAt at h
  split at h
  · cases h
    simp
  · cases h

theorem SameStore.refl (q : IndexPriorityQueue T) : SameStore q q := ⟨rfl, rfl⟩

theorem SameStore.trans {q r s : IndexPriorityQueue T} (h1 : SameStore q r)
    (h2 : SameStore r s) : SameStore q s :=
  ⟨h2.1.trans h1.1, h2.2.trans h1.2⟩

theorem swapPQ_store {q q' : IndexPriorityQueue T} {a b : Int}
    (h : swapPQ q a b = .ok q') : SameStore q q' := by
  unfold swapPQ at h
  obtain ⟨x, _, h⟩ := bind_eq_ok h
  obtain ⟨y, _, h⟩ := bind_eq_ok h
  obtain ⟨l1, _, h⟩ := bind_eq_ok h
  obtain ⟨l2, _, h⟩ := bind_eq_ok h
  cases h
  exact ⟨rfl, rfl⟩

theorem setIndexToPosAsPq_store {q q' : IndexPriorityQueue T} {i : Int}
    (h : setIndexToPosAsPq q i = .ok q') : SameStore q q' := by
  unfold setIndexToPosAsPq at h
  obtain ⟨x, _, h⟩ := bind_eq_ok h
  obtain ⟨l1, hl, h⟩ := bind_eq_ok h
  cases h
  exact ⟨writeAt_length hl, rfl⟩

theorem popBack_store {q q' : IndexPriorityQueue T} (h : popBack q = .ok q') :
    SameStore q q' := by
  unfold popBack at h
  split at h
  · cases h
  · cases h
    exact ⟨rfl, rfl⟩

end

section
variable {T : Type} [LinearOrder T]

theorem swimAux_store (fuel : Nat) : ∀ (q q' : IndexPriorityQueue T) (p : Int),
    swimAux fuel q p = .ok q' → SameStore q q' := by
  induction fuel with
  | zero =>
    intro q q' p h
    cases h
  | succ fuel ih =>
    intro q q' p h
    unfold swimAux at h
    split at h
    · obtain ⟨a, _, h⟩ := bind_eq_ok h
      obtain ⟨ka, _, h⟩ := bind_eq_ok h
      obtain ⟨b, _, h⟩ := bind_eq_ok h
      obtain ⟨kb, _, h⟩ := bind_eq_ok h
      split at h
      · obtain ⟨q1, e1, h⟩ := bind_eq_ok h
        obtain ⟨q2, e2, h⟩ := bind_eq_ok h
        obtain ⟨q3, e3, h⟩ := bind_eq_ok h
        exact ((swapPQ_store e1).trans (setIndexToPosAsPq_store e2)).trans
          ((setIndexToPosAsPq_store e3).trans (ih q3 q' _ h))
      · cases h
        exact SameStore.refl q
    · cases h
      exact SameStore.refl q

theorem sinkAux_store (fuel : Nat) : ∀ (q q' : IndexPriorityQueue T) (p : Int),
    sinkAux fuel q p = .ok q' → SameStore q q' := by
  induction fuel with
  | zero =>
    intro q q' p h
    cases h
  | succ fuel ih =>
    intro q q' p h
    unfold sinkAux at h
    split at h
    · obtain ⟨m, _, h⟩ := bind_eq_ok h
      obtain ⟨a, _, h⟩ := bind_eq_ok h
      obtain ⟨ka, _, h⟩ := bind_eq_ok h
      obtain ⟨c, _, h⟩ := bind_eq_ok h
      obtain ⟨kc, _, h⟩ := bind_eq_ok h
      split at h
      · cases h
        exact SameStore.refl q
      · obtain ⟨q1, e1, h⟩ := bind_eq_ok h
        obtain ⟨q2, e2, h⟩ := bind_eq_ok h
        obtain ⟨q3, e3, h⟩ := bind_eq_ok h
        exact ((swapPQ_store e1).trans (setIndexToPosAsPq_store e2)).trans
          ((setIndexToPosAsPq_store e3).trans (ih q3 q' _ h))
    · cases h
      exact SameStore.refl q

theorem push_store {q q' : IndexPriorityQueue T} {k : T} {i : Int}
    (h : push q k i = .ok q') : SameStore q q' := by
  unfold push at h
  split at h
  · cases h
    exact SameStore.refl q
  · obtain ⟨l1, _, h⟩ := bind_eq_ok h
    obtain ⟨l2, e2, h⟩ := bind_eq_ok h
    obtain ⟨l3, e3, h⟩ := bind_eq_ok h
    have := swimAux_store _ _ _ _ h
    exact ⟨this.1.trans (writeAt_length e2), this.2.trans (writeAt_length e3)⟩

theorem pop_store {q q' : IndexPriorityQueue T} (h : pop q = .ok q') : SameStore q q' := by
  unfold pop at h
  split at h
  · cases h
    exact SameStore.refl q
  · obtain ⟨m, _, h⟩ := bind_eq_ok h
    obtain ⟨q1, e1, h⟩ := bind_eq_ok h
    obtain ⟨q2, e2, h⟩ := bind_eq_ok h
    obtain ⟨l, e3, h⟩ := bind_eq_ok h
    obtain ⟨q3, e4, h⟩ := bind_eq_ok h
    have s12 := (swapPQ_store e1).trans (setIndexToPosAsPq_store e2)
    have s3 := sinkAux_store _ _ _ _ e4
    have s4 := popBack_store h
    exact ⟨s4.1.trans (s3.1.trans ((writeAt_length e3).trans s12.1)),
      s4.2.trans (s3.2.trans s12.2)⟩

theorem erase_store {q q' : IndexPriorityQueue T} {i : Int} (h : erase q i = .ok q') :
    SameStore q q' := by
  unfold erase at h
  split at h
  · cases h
    exact SameStore.refl q
  · obtain ⟨pos, _, h⟩ := bind_eq_ok h
    obtain ⟨q1, e1, h⟩ := bind_eq_ok h
    obtain ⟨q2, e2, h⟩ := bind_eq_ok h
    obtain ⟨l, e3, h⟩ := bind_eq_ok h
    obtain ⟨q3, e4, h⟩ := bind_eq_ok h
    obtain ⟨q4, e5, h⟩ := bind_eq_ok h
    have s12 := (swapPQ_store e1).trans (setIndexToPosAsPq_store e2)
    have s3 := popBack_store e4
    have s4 := swimAux_store _ _ _ _ e5
    have s5 := sinkAux_store _ _ _ _ h
    exact ⟨s5.1.trans (s4.1.trans (s3.1.trans ((writeAt_length e3).trans s12.1))),
      s5.2.trans (s4.2.trans (s3.2.trans s12.2))⟩

theorem changeKey_store {q q' : IndexPriorityQueue T} {k : T} {i : Int}
    (h : changeKey q k i = .ok q') : SameStore q q' := by
  unfold changeKey at h
  split at h
  · obtain ⟨old, _, h⟩ := bind_eq_ok h
    obtain ⟨l, e2, h⟩ := bind_eq_ok h
    obtain ⟨pos, _, h⟩ := bind_eq_ok h
    split at h
    · have := swimAux_store _ _ _ _ h
      exact ⟨this.1, this.2.trans (writeAt_length e2)⟩
    · have := sinkAux_store _ _ _ _ h
      exact ⟨this.1, this.2.trans (writeAt_length e2)⟩
  · exact push_store h

theorem step_store {q q' : IndexPriorityQueue T} {c : Call T} (h : step q c = .ok q') :
    SameStore q q' := by
  cases c with
  | push k i => exact push_store h
  | pop => exact pop_store h
  | erase i => exact erase_store h
  | changeKey k i => exact changeKey_store h
  | top =>
    have hstep : step q Call.top = (do let _ ← top q; pure q) := rfl
    rw [hstep] at h
    obtain ⟨_, _, h⟩ := bind_eq_ok h
    cases h
    exact SameStore.refl q
  | contains i =>
    cases h
    exact SameStore.refl q

/-- No call sequence changes the length of the priorities or of the position map. -/
theorem run_store : ∀ (calls : List (Call T)) (q q' : IndexPriorityQueue T),
    run q calls = .ok q' → SameStore q q' := by
  intro calls
  induction calls with
  | nil =>
    intro q q' h
    cases h
    exact SameStore.refl q
  | cons c cs ih =>
    intro q q' h
    unfold run at h
    obtain ⟨q1, e1, h⟩ := bind_eq_ok h
    exact (step_store e1).trans (ih q1 q' h)

end

section
variable {T : Type}

theorem contains_iff_lookup (q : IndexPriorityQueue T) (index : Int) :
    contains q index = true ↔
      (0 ≤ index ∧ index < q.indexToPosition.length ∧
        ∃ pos, lookup q.indexToPosition index = some pos ∧ pos ≠ -1) := by
  rw [contains_iff_present]
  unfold present
  constructor
  · rintro ⟨pos, e, hne⟩
    have b := lookup_bounds e
    exact ⟨b.1, b.2, pos, e, hne⟩
  · rintro ⟨_, _, h⟩
    exact h

theorem contains_outside (q : IndexPriorityQueue T) (index : Int)
    (h : index < 0 ∨ (q.indexToPosition.length : Int) ≤ index) :
    contains q index = false := by
  rw [contains_eq_false_iff]
  rintro ⟨pos, e, _⟩
  have b := lookup_bounds e
  omega

end

section
variable {T : Type} [LinearOrder T]

/-- C11, as stated, fails: on `IndexPriorityQueue<int>(5)` the call `push(7, 5)` stays
inside the storage and leads to `capQueue`, where `contains(5)` is true although
`5 < 5` is false, so I4 does not hold with the bound `N`. -/
theorem contains_true_at_capacity :
    run (construct 5 : IndexPriorityQueue Int) [.push 7 5] = .ok capQueue ∧
    contains capQueue 5 = true ∧ ¬ ((5 : Int) < ((5 : Nat) : Int)) ∧ ¬ I4 5 capQueue := by
  refine ⟨rfl, rfl, by decide, ?_⟩
  intro h
  have := (h 5).1 rfl
  omega

/-- C11, amended: in every state reached from a fresh queue of capacity `N` by calls
whose accesses stay inside the storage, `contains(index)` is true iff
`0 <= index <= N` (the position map has `N + 1` entries) and
`positionOf[index] != -1`; it is false, without a fault, for every `index < 0` and
every `index > N`. -/
theorem contains_iff_stored [Inhabited T] (N : Nat) (calls : List (Call T))
    (q : IndexPriorityQueue T) (hrun : run (construct N) calls = .ok q) (index : Int) :
    (contains q index = true ↔
      (0 ≤ index ∧ index ≤ N ∧
        ∃ pos, lookup q.indexToPosition index = some pos ∧ pos ≠ -1)) ∧
    ((index < 0 ∨ (N : Int) < index) → contains q index = false) := by
  have hlen : q.indexToPosition.length = N + 1 := by
    rw [(run_store calls _ q hrun).1]
    simp [construct]
  constructor
  · rw [contains_iff_lookup, hlen]
    constructor
    · rintro ⟨a, b, c⟩
      exact ⟨a, by push_cast at b; omega, c⟩
    · rintro ⟨a, b, c⟩
      exact ⟨a, by push_cast; omega, c⟩
  · intro h
    refine contains_outside q index ?_
    rw [hlen]
    push_cast
    omega

/-- The theorem of C11 at a concrete input: `contains(-1)` and `contains(100)` on a
capacity-5 queue. -/
theorem contains_iff_stored_witness :
    run (construct 5 : IndexPriorityQueue Int) [.push 10 0, .push 5 1] = .ok twoQueue ∧
    ((contains twoQueue 100 = true ↔
      ((0 : Int) ≤ 100 ∧ (100 : Int) ≤ (5 : Nat) ∧
        ∃ pos, lookup twoQueue.indexToPosition 100 = some pos ∧ pos ≠ -1)) ∧
    (((100 : Int) < 0 ∨ ((5 : Nat) : Int) < 100) → contains twoQueue 100 = false)) ∧
    contains twoQueue (-1) = false ∧ contains twoQueue 100 = false :=
  ⟨rfl,
    contains_iff_stored 5 [.push 10 0, .push 5 1] twoQueue (by rfl) 100,
    (contains_iff_stored 5 [.push 10 0, .push 5 1] twoQueue (by rfl) (-1)).2 (Or.inl (by decide)),
    (contains_iff_stored 5 [.push 10 0, .push 5 1] twoQueue (by rfl) 100).2 (Or.inr (by decide))⟩

/-- C12 as stated fails at index `N`: `capQueue` is the state of
`IndexPriorityQueue<int>(5)` after `push(7, 5)`; 5 lies outside `[0, 5)`, yet
`contains(5)` is true and `erase(5)` is carried out: it returns a state of size 0,
not the state it was given. -/
theorem erase_at_capacity_not_rejected :
    run (construct 5 : IndexPriorityQueue Int) [.push 7 5] = .ok capQueue ∧
    IsQueue 5 capQueue ∧ ¬ ((5 : Int) < ((5 : Nat) : Int)) ∧
    contains capQueue 5 = true ∧
    erase capQueue 5 =
      .ok { priorities := [0, 0, 0, 0, 0, 7], priorityQueue := [0, 5, 0, 0, 0],
            indexToPosition := [-1, -1, -1, -1, -1, -1], size_ := 0 } ∧
    erase capQueue 5 ≠ .ok capQueue :=
  ⟨rfl, ⟨rfl, rfl, by decide⟩, by decide, rfl, rfl, fun h => by
    have h2 : size capQueue = 0 := by
      injection h with h
      rw [← h]
      rfl
    exact absurd h2 (by decide)⟩

/-- C12, with the index range that `contains` tests: a rejected call leaves the whole
state as it was: `push(p, i)` when `contains(i)`, `pop()` when `size() == 0`,
`erase(i)` when `contains(i)` is false; on a state of a capacity-`N` queue
`contains(i)` is false, and `erase(i)` rejected, for every `i < 0` and every `i > N`;
and after `push(k, 2)` into a fresh queue a second `push(k', 2)` changes nothing:
`size()` is 1 and the stored priority of index 2 is still `k`. -/
theorem rejected_calls_change_nothing [Inhabited T] (N : Nat) (q : IndexPriorityQueue T) :
    (∀ (p : T) (i : Int), contains q i = true → push q p i = .ok q) ∧
    (size q = 0 → pop q = .ok q) ∧
    (∀ i : Int, contains q i = false → erase q i = .ok q) ∧
    (IsQueue N q → ∀ i : Int, (i < 0 ∨ (N : Int) < i) →
      contains q i = false ∧ erase q i = .ok q) ∧
    (∀ k k' : T, 3 ≤ N →
      ∃ q1, push (construct N) k 2 = .ok q1 ∧ push q1 k' 2 = .ok q1 ∧
        size q1 = 1 ∧ lookup q1.priorities 2 = some k) := by
  refine ⟨?_, ?_, ?_, ?_, ?_⟩
  · intro p i h
    exact push_present p ((contains_iff_present q i).1 h)
  · intro h
    exact pop_empty h
  · intro i h
    exact erase_absent ((contains_eq_false_iff q i).1 h)
  · intro hq i h
    have hout : i < 0 ∨ (q.indexToPosition.length : Int) ≤ i := by
      rw [hq.2.1]
      rcases h with h | h
      · exact Or.inl h
      · right
        push_cast
        omega
    have hc := contains_outside q i hout
    exact ⟨hc, erase_absent ((contains_eq_false_iff q i).1 hc)⟩
  · intro k k' hN
    have hv : Valid N (construct N : IndexPriorityQueue T) := construct_valid N
    have habs : ¬ present (construct N : IndexPriorityQueue T) 2 := by
      intro hp
      have hmem := (heapList_mem_iff_present hv.2.1 hv.2.2.1 2).2 hp
      simp [heapList, construct] at hmem
    obtain ⟨q1, e, v, hsz, hpr, _, hpres⟩ :=
      push_valid hv (by simp [construct]; omega) k (i := 2) ⟨by omega, by omega⟩ habs
    refine ⟨q1, e, push_present k' ((hpres 2).2 (Or.inr rfl)), ?_, ?_⟩
    · show q1.size_ = 1
      rw [hsz]
      rfl
    · rw [hpr]
      have hl : (2 : Int) < ((construct N : IndexPriorityQueue T).priorities.length : Int) := by
        simp [construct]
        omega
      rw [lookup_set _ _ _ _ (by omega) hl]
      simp

/-- The theorem of C12 at concrete inputs, one for each rejected call: on
`sampleQueue` (capacity 5, indices 0, 1, 2 contained) `push(9, 1)` is rejected, as are
`erase(4)`, `erase(-1)`, `erase(6)` and `erase(100)`; `pop()` on the fresh queue is
rejected; and `push(5, 2)` twice into the fresh queue leaves size 1 and priority 5. -/
theorem rejected_calls_change_nothing_witness :
    (contains sampleQueue 1 = true ∧ push sampleQueue 9 1 = .ok sampleQueue) ∧
    (size (construct 5 : IndexPriorityQueue Int) = 0 ∧
      pop (construct 5 : IndexPriorityQueue Int) = .ok (construct 5)) ∧
    (contains sampleQueue 4 = false ∧ erase sampleQueue 4 = .ok sampleQueue) ∧
    (IsQueue 5 sampleQueue ∧
      (contains sampleQueue (-1) = false ∧ erase sampleQueue (-1) = .ok sampleQueue) ∧
      (contains sampleQueue 6 = false ∧ erase sampleQueue 6 = .ok sampleQueue) ∧
      (contains sampleQueue 100 = false ∧ erase sampleQueue 100 = .ok sampleQueue)) ∧
    (∃ q1, push (construct 5 : IndexPriorityQueue Int) 5 2 = .ok q1 ∧
      push q1 5 2 = .ok q1 ∧ size q1 = 1 ∧ lookup q1.priorities 2 = some 5) ∧
    (do
      let q1 ← push (construct 5 : IndexPriorityQueue Int) 5 2
      let q2 ← push q1 5 2
      pure (size q2, lookup q2.priorities 2)) = .ok (1, some 5) :=
  have hq : IsQueue 5 sampleQueue := ⟨rfl, rfl, by decide⟩
  ⟨⟨rfl, (rejected_calls_change_nothing 5 sampleQueue).1 9 1 rfl⟩,
    ⟨rfl, (rejected_calls_change_nothing 5 (construct 5 : IndexPriorityQueue Int)).2.1 rfl⟩,
    ⟨rfl, (rejected_calls_change_nothing 5 sampleQueue).2.2.1 4 rfl⟩,
    ⟨hq, (rejected_calls_change_nothing 5 sampleQueue).2.2.2.1 hq (-1) (Or.inl (by decide)),
      (rejected_calls_change_nothing 5 sampleQueue).2.2.2.1 hq 6 (Or.inr (by decide)),
      (rejected_calls_change_nothing 5 sampleQueue).2.2.2.1 hq 100 (Or.inr (by decide))⟩,
    (rejected_calls_change_nothing 5 sampleQueue).2.2.2.2 5 5 (by decide),
    rfl⟩

/-- C13: for an index that is not contained, `changeKey(k, i)` is `push(k, i)`: the
two calls end in the same state (or in the same fault). -/
theorem changeKey_absent_is_push (q : IndexPriorityQueue T) (k : T) (i : Int)
    (habs : contains q i = false) : changeKey q k i = push q k i :=
  changeKey_absent k ((contains_eq_false_iff q i).1 habs)

/-- The theorem of C13 at a concrete input. -/
theorem changeKey_absent_is_push_witness :
    contains sampleQueue 4 = false ∧
    changeKey sampleQueue 7 4 = push sampleQueue 7 4 ∧
    push sampleQueue 7 4 =
      .ok { priorities := [10, 5, 20, 0, 7, 0], priorityQueue := [0, 1, 4, 2, 0, 0],
            indexToPosition := [4, 1, 3, -1, 2, -1], size_ := 4 } :=
  ⟨rfl, changeKey_absent_is_push sampleQueue 7 4 rfl, rfl⟩

/-- C15: the scenario on `IndexPriorityQueue<int>(5)`: after `push(10,0)`, `push(5,1)`,
`push(20,2)`, `top()` is `(5,1)`; after `changeKey(1,2)`, `top()` is `(1,2)`; after
`pop()`, `top()` is `(5,1)` and `size()` is 2; after `erase(0)`, `size()` is 1 and
`contains(0)` is false; after a last `pop()`, `empty()` is true. -/
theorem scenario_capacity_five :
    (do
      let q1 ← push (construct 5 : IndexPriorityQueue Int) 10 0
      let q2 ← push q1 5 1
      let q3 ← push q2 20 2
      let t3 ← top q3
      let q4 ← changeKey q3 1 2
      let t4 ← top q4
      let q5 ← pop q4
      let t5 ← top q5
      let q6 ← erase q5 0
      let q7 ← pop q6
      pure (t3, t4, t5, size q5, size q6, contains q6 0, empty q7)) =
    .ok ((5, 1), (1, 2), (5, 1), 2, 1, false, true) :=
  rfl

end

section
variable {T : Type}

/-- Two states with the same present indices hold the same indices in `heap[1..size]`,
up to order. -/
theorem heapList_perm {q q' : IndexPriorityQueue T} (h1 : I1 q) (h2 : I2 q)
    (h1' : I1 q') (h2' : I2 q') (hp : ∀ i, present q' i ↔ present q i) :
    (heapList q').Perm (heapList q) := by
  rw [List.perm_ext_iff_of_nodup (heapList_nodup h1') (heapList_nodup h1)]
  intro j
  rw [heapList_mem_iff_present h1' h2', heapList_mem_iff_present h1 h2, hp j]

end

section
variable {T : Type} [LinearOrder T]

/-- C19: on a state of a capacity-`N` queue in which I1 and I2 hold, for a position
`p` of `[1, size]` such that heap order holds at every position of `[2, size]` other
than `p` and, when `p > 1`, the parent of `p` is in order with each child of `p`
within `[1, size]`: `swim(p)` returns, and afterwards I3, I1 and I2 hold,
`heap[1..size]` is a permutation of its former contents, and `size` and the
priorities are as before. -/
theorem swim_restores_heap_order (N : Nat) (q : IndexPriorityQueue T) (p : Int)
    (hq : IsQueue N q) (h1 : I1 q) (h2 : I2 q) (hp1 : 1 ≤ p) (hp2 : p ≤ size q)
    (hord : ∀ r, 2 ≤ r → r ≤ size q → r ≠ p → LeAt q (parent r) r)
    (hgp : 1 < p → ∀ c, (c = leftChild p ∨ c = rightChild p) → 1 ≤ c → c ≤ size q →
      LeAt q (parent p) c) :
    ∃ q', swim q p = .ok q' ∧ I3 q' ∧ I1 q' ∧ I2 q' ∧
      (heapList q').Perm (heapList q) ∧ size q' = size q ∧
      q'.priorities = q.priorities := by
  have hlen : q.indexToPosition.length ≤ q.priorities.length := by
    obtain ⟨a, b, _⟩ := hq
    omega
  obtain ⟨q', r0, r1, r2, _, _, r5, r6, r7, r8, _⟩ :=
    swimAux_spec (p.toNat + 1) q p (by omega) h1 h2 hlen hp1 hp2 hord
      (by
        intro hgt c hc2 hcs hcp
        refine hgp hgt c ?_ (by omega) hcs
        rw [parent_eq_div (by omega)] at hcp
        unfold leftChild rightChild
        omega)
  exact ⟨q', r0, r7, r5, r6, heapList_perm h1 h2 r5 r6 r8, r1, r2⟩

/-- The theorem of C19 at a concrete input. -/
theorem swim_restores_heap_order_witness :
    IsQueue 5 swimInput ∧ I1 swimInput ∧ I2 swimInput ∧ (1 : Int) ≤ 3 ∧
    3 ≤ size swimInput ∧
    (∀ r, 2 ≤ r → r ≤ size swimInput → r ≠ 3 → LeAt swimInput (parent r) r) ∧
    ((1 : Int) < 3 → ∀ c, (c = leftChild 3 ∨ c = rightChild 3) → 1 ≤ c →
      c ≤ size swimInput → LeAt swimInput (parent 3) c) ∧
    ∃ q', swim swimInput 3 = .ok q' ∧ I3 q' ∧ I1 q' ∧ I2 q' ∧
      (heapList q').Perm (heapList swimInput) ∧ size q' = size swimInput ∧
      q'.priorities = swimInput.priorities :=
  have hq : IsQueue 5 swimInput := ⟨rfl, rfl, by decide⟩
  have h1 : I1 swimInput := I1_of_check (by decide)
  have h2 : I2 swimInput := I2_of_check (by decide)
  have hord : ∀ r, 2 ≤ r → r ≤ size swimInput → r ≠ 3 →
      LeAt swimInput (parent r) r := by
    intro r hr2 hrs hr
    have hrs : r ≤ 3 := hrs
    have : r = 2 := by omega
    subst this
    exact ⟨5, 10, rfl, rfl, by decide⟩
  have hgp : (1 : Int) < 3 → ∀ c, (c = leftChild 3 ∨ c = rightChild 3) → 1 ≤ c →
      c ≤ size swimInput → LeAt swimInput (parent 3) c := by
    intro _ c hc _ hcs
    have hcs : c ≤ 3 := hcs
    unfold leftChild rightChild at hc
    omega
  ⟨hq, h1, h2, by decide, by decide, hord, hgp,
    swim_restores_heap_order 5 swimInput 3 hq h1 h2 (by decide) (by decide) hord hgp⟩

/-- C20: on a state of a capacity-`N` queue in which I1 and I2 hold, for a position
`p` of `[1, size]` such that heap order holds at every position of `[2, size]` whose
parent is not `p` and, when `p > 1`, the parent of `p` is in order with each child of
`p` within `[1, size]`: `sink(p)` returns, and afterwards I3, I1 and I2 hold,
`heap[1..size]` is a permutation of its former contents, and `size` and the
priorities are as before. -/
theorem sink_restores_heap_order (N : Nat) (q : IndexPriorityQueue T) (p : Int)
    (hq : IsQueue N q) (h1 : I1 q) (h2 : I2 q) (hp1 : 1 ≤ p) (hp2 : p ≤ size q)
    (hord : ∀ r, 2 ≤ r → r ≤ size q → parent r ≠ p → LeAt q (parent r) r)
    (hgp : 1 < p → ∀ c, (c = leftChild p ∨ c = rightChild p) → 1 ≤ c → c ≤ size q →
      LeAt q (parent p) c) :
    ∃ q', sink q p = .ok q' ∧ I3 q' ∧ I1 q' ∧ I2 q' ∧
      (heapList q').Perm (heapList q) ∧ size q' = size q ∧
      q'.priorities = q.priorities := by
  have hlen : q.indexToPosition.length ≤ q.priorities.length := by
    obtain ⟨a, b, _⟩ := hq
    omega
  have hp2 : p ≤ q.size_ := hp2
  obtain ⟨q', r0, r1, r2, _, _, r5, r6, r7, r8, _⟩ :=
    sinkAux_spec (q.size_.toNat + 2) q p (by omega) h1 h2 hlen hp1 hord
      (by
        intro hgt c hc2 hcs hcp
        refine hgp hgt c ?_ (by omega) hcs
        rw [parent_eq_div (by omega)] at hcp
        unfold leftChild rightChild
        omega)
  exact ⟨q', r0, r7, r5, r6, heapList_perm h1 h2 r5 r6 r8, r1, r2⟩

/-- The theorem of C20 at a concrete input. -/
theorem sink_restores_heap_order_witness :
    IsQueue 5 sinkInput ∧ I1 sinkInput ∧ I2 sinkInput ∧ (1 : Int) ≤ 1 ∧
    1 ≤ size sinkInput ∧
    (∀ r, 2 ≤ r → r ≤ size sinkInput → parent r ≠ 1 → LeAt sinkInput (parent r) r) ∧
    ((1 : Int) < 1 → ∀ c, (c = leftChild 1 ∨ c = rightChild 1) → 1 ≤ c →
      c ≤ size sinkInput → LeAt sinkInput (parent 1) c) ∧
    ∃ q', sink sinkInput 1 = .ok q' ∧ I3 q' ∧ I1 q' ∧ I2 q' ∧
      (heapList q').Perm (heapList sinkInput) ∧ size q' = size sinkInput ∧
      q'.priorities = sinkInput.priorities :=
  have hq : IsQueue 5 sinkInput := ⟨rfl, rfl, by decide⟩
  have h1 : I1 sinkInput := I1_of_check (by decide)
  have h2 : I2 sinkInput := I2_of_check (by decide)
  have hord : ∀ r, 2 ≤ r → r ≤ size sinkInput → parent r ≠ 1 →
      LeAt sinkInput (parent r) r := by
    intro r hr2 hrs hr
    have hrs : r ≤ 3 := hrs
    rw [parent_eq_div (by omega)] at hr
    omega
  have hgp : (1 : Int) < 1 → ∀ c, (c = leftChild 1 ∨ c = rightChild 1) → 1 ≤ c →
      c ≤ size sinkInput → LeAt sinkInput (parent 1) c := by
    intro h
    omega
  ⟨hq, h1, h2, by decide, by decide, hord, hgp,
    sink_restores_heap_order 5 sinkInput 1 hq h1 h2 (by decide) (by decide) hord hgp⟩

end

section
variable {T : Type} [LinearOrder T]

/-- What a returning `erase` of a present index has done to a valid state. -/
theorem erase_of_ok {N : Nat} {q q' : IndexPriorityQueue T} (hv : Valid N q) {i : Int}
    (hp : present q i) (he : erase q i = .ok q') :
    Valid N q' ∧ q'.size_ = q.size_ - 1 ∧ q'.priorities = q.priorities ∧
      ∀ j, present q' j ↔ (present q j ∧ j ≠ i) := by
  have hv' := erase_valid hv he
  have hlen := hv.hlen
  obtain ⟨⟨a, b, c⟩, h1, h2, h3, h4, _⟩ := hv
  obtain ⟨pos, epos, hne⟩ := id hp
  obtain ⟨hp1, hp2, _⟩ := h2 i pos epos hne
  have hpl := I1_pq_length h1 (by omega)
  have main : ∃ q'', erase q i = .ok q'' ∧ q''.size_ = q.size_ - 1 ∧
      q''.priorities = q.priorities ∧
      q''.priorityQueue.length + 1 = q.priorityQueue.length ∧
      q''.indexToPosition.length = q.indexToPosition.length ∧
      I1 q'' ∧ I2 q'' ∧ I3 q'' ∧ ∀ j, present q'' j ↔ (present q j ∧ j ≠ i) := by
    by_cases hin : pos < q.size_
    · exact erase_inner h1 h2 h3 hlen epos hp1 hin
    · have hps : pos = q.size_ := by omega
      subst hps
      by_cases hsafe : q.size_ = 1 ∨ q.size_ + 1 < q.priorityQueue.length
      · exact erase_last h1 h2 h3 epos hp1 hsafe
      · have := erase_last_faults h1 h2 epos (by omega) (by omega)
        rw [this] at he
        cases he
  obtain ⟨q'', e, r1, r2, _, _, _, _, _, r8⟩ := main
  rw [e] at he
  cases he
  exact ⟨hv', r1, r2, r8⟩

/-- `erase` of a present index returns whenever the heap vector has a slot behind the
last occupied position, or the queue holds one element. -/
theorem erase_ok_of_slack {N : Nat} {q : IndexPriorityQueue T} (hv : Valid N q) {i : Int}
    (hp : present q i) (hsafe : q.size_ = 1 ∨ q.size_ + 1 < q.priorityQueue.length) :
    ∃ q', erase q i = .ok q' := by
  have hlen := hv.hlen
  obtain ⟨_, h1, h2, h3, _, _⟩ := hv
  obtain ⟨pos, epos, hne⟩ := id hp
  obtain ⟨hp1, hp2, _⟩ := h2 i pos epos hne
  by_cases hin : pos < q.size_
  · obtain ⟨q', e, _⟩ := erase_inner h1 h2 h3 hlen epos hp1 hin
    exact ⟨q', e⟩
  · have hps : pos = q.size_ := by omega
    subst hps
    obtain ⟨q', e, _⟩ := erase_last h1 h2 h3 epos hp1 hsafe
    exact ⟨q', e⟩

/-- Whenever `erase(i)` after `push(p, i)` returns, the queue is back at its former
indices, priorities and size. -/
theorem push_then_erase_of_ok {N : Nat} {q q1 q2 : IndexPriorityQueue T}
    (hv : Valid N q) (k : T) {i : Int} (hi : 0 ≤ i ∧ i < N) (habs : ¬ present q i)
    (e1 : push q k i = .ok q1) (e2 : erase q1 i = .ok q2) :
    Valid N q2 ∧ q2.size_ = q.size_ ∧ (∀ j, present q2 j ↔ present q j) ∧
      ∀ j, present q j → lookup q2.priorities j = lookup q.priorities j := by
  have hroom : q.size_ + 1 < q.priorityQueue.length := by
    by_contra h
    rw [push_no_room k habs h] at e1
    cases e1
  obtain ⟨q1', e, v1, hsz, hpr, _, hpres⟩ := push_valid hv hroom k hi habs
  rw [e] at e1
  cases e1
  obtain ⟨v2, s2, p2, pres2⟩ := erase_of_ok v1 ((hpres i).2 (Or.inr rfl)) e2
  refine ⟨v2, by omega, ?_, ?_⟩
  · intro j
    rw [pres2 j, hpres j]
    constructor
    · rintro ⟨h | h, hne⟩
      · exact h
      · exact absurd h hne
    · intro h
      refine ⟨Or.inl h, ?_⟩
      intro e
      rw [e] at h
      exact habs h
  · intro j hj
    have hji : j ≠ i := by
      intro e
      rw [e] at hj
      exact habs hj
    have hik : i < q.priorities.length := by
      have := hv.1.1
      omega
    rw [p2, hpr, lookup_set _ _ _ _ hi.1 hik]
    simp [hji]

/-- `push(p, i)` then `erase(i)` returns when the push does not fill the queue (or the
queue was empty). -/
theorem push_then_erase_ok {N : Nat} {q : IndexPriorityQueue T} (hv : Valid N q)
    (hfresh : q.priorityQueue.length = N + 1) (k : T) {i : Int} (hi : 0 ≤ i ∧ i < N)
    (habs : ¬ present q i) (hspare : q.size_ + 1 < N ∨ q.size_ = 0) :
    ∃ q1 q2, push q k i = .ok q1 ∧ erase q1 i = .ok q2 := by
  have hlt := size_lt_capacity hv.2.1 hv.2.2.2.2.1 hi habs
  obtain ⟨q1, e, v1, hsz, _, hl, hpres⟩ :=
    push_valid hv (by rw [hfresh]; omega) k hi habs
  obtain ⟨q2, e2⟩ := erase_ok_of_slack v1 ((hpres i).2 (Or.inr rfl))
    (by rw [hsz, hl, hfresh]; omega)
  exact ⟨q1, q2, e, e2⟩

end

/-- C14: `oneQueue` is the capacity-2 queue reached from a fresh one by `push(1, 0)`;
it satisfies I1..I5 and does not contain index 1. `push(2, 1)` fills the queue
(`fullQueue`), and the following `erase(1)` reads outside the heap vector. -/
theorem push_then_erase_faults :
    run (construct 2 : IndexPriorityQueue Int) [.push 1 0] = .ok oneQueue ∧
    Valid 2 oneQueue ∧ contains oneQueue 1 = false ∧
    push oneQueue 2 1 = .ok fullQueue ∧
    (do
      let q1 ← push oneQueue 2 1
      erase q1 1) = .error .outOfBounds :=
  ⟨rfl, Valid_of_check (by decide), rfl, rfl, rfl⟩

section
variable {T : Type} [LinearOrder T]

theorem lookup_set_same {α : Type} {xs : List α} {i : Int} {v : α}
    (h : lookup xs i = some v) : xs.set i.toNat v = xs := by
  rw [lookup_eq_some_iff] at h
  apply List.ext_getElem?
  intro n
  by_cases e : i.toNat = n
  · subst e
    have hlt := (List.getElem?_eq_some_iff.1 h.2).1
    rw [List.getElem?_set_self hlt, h.2]
  · rw [List.getElem?_set_ne e]

/-- One iteration of the loop of `sink` on a state with heap order: the comparison
with the chosen child succeeds, and the state is returned as it is. -/
theorem sinkAux_fixed (fuel : Nat) {q : IndexPriorityQueue T} (h1 : I1 q) (h3 : I3 q)
    (hlen : q.indexToPosition.length ≤ q.priorities.length) {p : Int} (hp1 : 1 ≤ p) :
    sinkAux (fuel + 1) q p = .ok q := by
  by_cases hl : leftChild p ≤ q.size_
  · have hp2 : p ≤ q.size_ := by unfold leftChild at hl; omega
    obtain ⟨m, em, hm, hms, _⟩ := smallerChild_spec h1 hlen hp1 hl
    have hm1 : 1 ≤ m ∧ m ≤ q.size_ := ⟨by omega, hms⟩
    have hmpar : parent m = p := by rw [parent_eq_div (by omega)]; omega
    obtain ⟨a, ka, ea, eka, kka⟩ := keyAt_defined h1 hlen ⟨hp1, hp2⟩
    obtain ⟨c, kc, ec, ekc, kkc⟩ := keyAt_defined h1 hlen hm1
    have hle : ka ≤ kc := by
      obtain ⟨x, y, ex, ey, hxy⟩ := h3 m (by omega) hms
      rw [hmpar, kka] at ex
      rw [kkc] at ey
      cases ex
      cases ey
      exact hxy
    unfold sinkAux
    simp only [hl, if_true]
    rw [em]
    simp only [bind, Except.bind]
    rw [readAt_of_lookup ea, readAt_of_lookup ec]
    simp only
    rw [readAt_of_lookup eka, readAt_of_lookup ekc]
    simp only [hle, if_true]
    rfl
  · exact sinkAux_noop fuel q p hl

/-- C21: on a state of a capacity-`N` queue that satisfies I1..I3, `sink(p)` returns
the state unchanged for every position `p` of `[1, size]`; and for every present
index `i`, `changeKey(priorities[i], i)` returns the state unchanged. -/
theorem sink_fixes_ordered_state (N : Nat) (q : IndexPriorityQueue T) (hq : IsQueue N q)
    (h1 : I1 q) (h2 : I2 q) (h3 : I3 q) :
    (∀ p, 1 ≤ p → p ≤ size q → sink q p = .ok q) ∧
    (∀ i, present q i →
      ∃ k, lookup q.priorities i = some k ∧ changeKey q k i = .ok q) := by
  have hlen : q.indexToPosition.length ≤ q.priorities.length := by
    rw [hq.1, hq.2.1]
  have hsink : ∀ p, 1 ≤ p → p ≤ size q → sink q p = .ok q :=
    fun p hp1 _ => sinkAux_fixed _ h1 h3 hlen hp1
  refine ⟨hsink, ?_⟩
  intro i hpres
  obtain ⟨pos, epos, hne⟩ := hpres
  have hb := lookup_bounds epos
  obtain ⟨k, ek⟩ := @lookup_defined _ q.priorities i hb.1 (by omega)
  refine ⟨k, ek, ?_⟩
  have hc : contains q i = true := (contains_iff_present q i).2 ⟨pos, epos, hne⟩
  have hpos := h2 i pos epos hne
  unfold changeKey
  simp only [hc, if_true]
  rw [readAt_of_lookup ek, writeAt_of_bounds _ _ _ hb.1 (by omega), lookup_set_same ek]
  simp only [bind, Except.bind]
  rw [readAt_of_lookup epos]
  simp only [lt_irrefl, if_false]
  exact hsink pos hpos.1 hpos.2.1

end

/-- C21 on `sampleQueue`: the hypotheses hold, `sink(1)` returns the state as it is,
and so does `changeKey(5, 1)`, which sets the key of index 1 to the value it has. -/
theorem sink_fixes_ordered_state_witness :
    IsQueue 5 sampleQueue ∧ I1 sampleQueue ∧ I2 sampleQueue ∧ I3 sampleQueue ∧
    sink sampleQueue 1 = .ok sampleQueue ∧ changeKey sampleQueue 5 1 = .ok sampleQueue ∧
    (∀ p, 1 ≤ p → p ≤ size sampleQueue → sink sampleQueue p = .ok sampleQueue) ∧
    (∀ i, present sampleQueue i →
      ∃ k, lookup sampleQueue.priorities i = some k ∧
        changeKey sampleQueue k i = .ok sampleQueue) :=
  have hv : Valid 5 sampleQueue := Valid_of_check (by decide)
  ⟨hv.1, hv.2.1, hv.2.2.1, hv.2.2.2.1, rfl, rfl,
    sink_fixes_ordered_state 5 sampleQueue hv.1 hv.2.1 hv.2.2.1 hv.2.2.2.1⟩

section
variable {T : Type}

/-! ## The length of the heap vector -/

/-- The constructor gives the three vectors the length `N + 1`, fills the position
map with `-1` and sets the size to 0. -/
theorem construct_storage [Inhabited T] (N : Nat) :
    (construct N : IndexPriorityQueue T).priorities.length = N + 1 ∧
    (construct N : IndexPriorityQueue T).priorityQueue.length = N + 1 ∧
    (construct N : IndexPriorityQueue T).indexToPosition = List.replicate (N + 1) (-1) ∧
    size (construct N : IndexPriorityQueue T) = 0 := by
  simp [construct, size]

theorem swapPQ_heap_length {q q' : IndexPriorityQueue T} {a b : Int}
    (h : swapPQ q a b = .ok q') : q'.priorityQueue.length = q.priorityQueue.length := by
  unfold swapPQ at h
  obtain ⟨x, _, h⟩ := bind_eq_ok h
  obtain ⟨y, _, h⟩ := bind_eq_ok h
  obtain ⟨l1, e1, h⟩ := bind_eq_ok h
  obtain ⟨l2, e2, h⟩ := bind_eq_ok h
  cases h
  exact (writeAt_length e2).trans (writeAt_length e1)

theorem setIndexToPosAsPq_heap {q q' : IndexPriorityQueue T} {i : Int}
    (h : setIndexToPosAsPq q i = .ok q') : q'.priorityQueue = q.priorityQueue := by
  unfold setIndexToPosAsPq at h
  obtain ⟨x, _, h⟩ := bind_eq_ok h
  obtain ⟨l1, _, h⟩ := bind_eq_ok h
  cases h
  rfl

theorem popBack_heap_length {q q' : IndexPriorityQueue T} (h : popBack q = .ok q') :
    q'.priorityQueue.length + 1 = q.priorityQueue.length := by
  unfold popBack at h
  split at h
  · cases h
  · cases h
    simp only [List.length_dropLast]
    omega

end

section
variable {T : Type} [LinearOrder T]

theorem swimAux_heap_length (fuel : Nat) : ∀ (q q' : IndexPriorityQueue T) (p : Int),
    swimAux fuel q p = .ok q' → q'.priorityQueue.length = q.priorityQueue.length := by
  induction fuel with
  | zero =>
    intro q q' p h
    cases h
  | succ fuel ih =>
    intro q q' p h
    unfold swimAux at h
    split at h
    · obtain ⟨a, _, h⟩ := bind_eq_ok h
      obtain ⟨ka, _, h⟩ := bind_eq_ok h
      obtain ⟨b, _, h⟩ := bind_eq_ok h
      obtain ⟨kb, _, h⟩ := bind_eq_ok h
      split at h
      · obtain ⟨q1, e1, h⟩ := bind_eq_ok h
        obtain ⟨q2, e2, h⟩ := bind_eq_ok h
        obtain ⟨q3, e3, h⟩ := bind_eq_ok h
        rw [ih q3 q' _ h, setIndexToPosAsPq_heap e3, setIndexToPosAsPq_heap e2,
          swapPQ_heap_length e1]
      · cases h
        rfl
    · cases h
      rfl

theorem sinkAux_heap_length (fuel : Nat) : ∀ (q q' : IndexPriorityQueue T) (p : Int),
    sinkAux fuel q p = .ok q' → q'.priorityQueue.length = q.priorityQueue.length := by
  induction fuel with
  | zero =>
    intro q q' p h
    cases h
  | succ fuel ih =>
    intro q q' p h
    unfold sinkAux at h
    split at h
    · obtain ⟨m, _, h⟩ := bind_eq_ok h
      obtain ⟨a, _, h⟩ := bind_eq_ok h
      obtain ⟨ka, _, h⟩ := bind_eq_ok h
      obtain ⟨c, _, h⟩ := bind_eq_ok h
      obtain ⟨kc, _, h⟩ := bind_eq_ok h
      split at h
      · cases h
        rfl
      · obtain ⟨q1, e1, h⟩ := bind_eq_ok h
        obtain ⟨q2, e2, h⟩ := bind_eq_ok h
        obtain ⟨q3, e3, h⟩ := bind_eq_ok h
        rw [ih q3 q' _ h, setIndexToPosAsPq_heap e3, setIndexToPosAsPq_heap e2,
          swapPQ_heap_length e1]
    · cases h
      rfl

/-- A returning `push` leaves the length of the heap vector as it was. -/
theorem push_heap_length {q q' : IndexPriorityQueue T} {k : T} {i : Int}
    (h : push q k i = .ok q') : q'.priorityQueue.length = q.priorityQueue.length := by
  unfold push at h
  split at h
  · cases h
    rfl
  · obtain ⟨l1, e1, h⟩ := bind_eq_ok h
    obtain ⟨l2, _, h⟩ := bind_eq_ok h
    obtain ⟨l3, _, h⟩ := bind_eq_ok h
    rw [swimAux_heap_length _ _ _ _ h]
    exact writeAt_length e1

/-- A returning `changeKey` leaves the length of the heap vector as it was. -/
theorem changeKey_heap_length {q q' : IndexPriorityQueue T} {k : T} {i : Int}
    (h : changeKey q k i = .ok q') : q'.priorityQueue.length = q.priorityQueue.length := by
  unfold changeKey at h
  split at h
  · obtain ⟨old, _, h⟩ := bind_eq_ok h
    obtain ⟨l, _, h⟩ := bind_eq_ok h
    obtain ⟨pos, _, h⟩ := bind_eq_ok h
    split at h
    · exact (swimAux_heap_length _ _ _ _ h).trans rfl
    · exact (sinkAux_heap_length _ _ _ _ h).trans rfl
  · exact push_heap_length h

/-- A returning `pop` on a non-empty queue leaves the heap vector one slot shorter. -/
theorem pop_heap_length {q q' : IndexPriorityQueue T} (h : pop q = .ok q')
    (hs : q.size_ ≠ 0) : q'.priorityQueue.length + 1 = q.priorityQueue.length := by
  unfold pop at h
  rw [if_neg hs] at h
  obtain ⟨m, _, h⟩ := bind_eq_ok h
  obtain ⟨q1, e1, h⟩ := bind_eq_ok h
  obtain ⟨q2, e2, h⟩ := bind_eq_ok h
  obtain ⟨l, _, h⟩ := bind_eq_ok h
  obtain ⟨q3, e4, h⟩ := bind_eq_ok h
  rw [popBack_heap_length h, sinkAux_heap_length _ _ _ _ e4]
  simp only
  rw [setIndexToPosAsPq_heap e2, swapPQ_heap_length e1]

/-- A returning `erase` of a contained index leaves the heap vector one slot shorter. -/
theorem erase_heap_length {q q' : IndexPriorityQueue T} {i : Int}
    (h : erase q i = .ok q') (hc : contains q i = true) :
    q'.priorityQueue.length + 1 = q.priorityQueue.length := by
  unfold erase at h
  simp only [hc, Bool.not_true, Bool.false_eq_true, if_false] at h
  obtain ⟨pos, _, h⟩ := bind_eq_ok h
  obtain ⟨q1, e1, h⟩ := bind_eq_ok h
  obtain ⟨q2, e2, h⟩ := bind_eq_ok h
  obtain ⟨l, _, h⟩ := bind_eq_ok h
  obtain ⟨q3, e4, h⟩ := bind_eq_ok h
  obtain ⟨q4, e5, h⟩ := bind_eq_ok h
  rw [sinkAux_heap_length _ _ _ _ h, swimAux_heap_length _ _ _ _ e5, popBack_heap_length e4]
  simp only
  rw [setIndexToPosAsPq_heap e2, swapPQ_heap_length e1]

/-- What one returning call does to the three lengths: the priorities and the position
map keep theirs; the heap vector keeps its length under `push`, `changeKey`, `top`,
`contains`, a `pop` of the empty queue and an `erase` of an absent index, and loses
one slot under every other `pop` and `erase`. -/
theorem step_storage {q q' : IndexPriorityQueue T} {c : Call T} (h : step q c = .ok q') :
    SameStore q q' ∧
    ((c = Call.pop ∧ q.size_ ≠ 0) ∨ (∃ i, c = Call.erase i ∧ contains q i = true) →
      q'.priorityQueue.length + 1 = q.priorityQueue.length) ∧
    (¬ ((c = Call.pop ∧ q.size_ ≠ 0) ∨ (∃ i, c = Call.erase i ∧ contains q i = true)) →
      q'.priorityQueue.length = q.priorityQueue.length) := by
  refine ⟨step_store h, ?_, ?_⟩
  · rintro (⟨rfl, hs⟩ | ⟨i, rfl, hc⟩)
    · exact pop_heap_length h hs
    · exact erase_heap_length h hc
  · intro hn
    cases c with
    | push k i => exact push_heap_length h
    | pop =>
      have hs : q.size_ = 0 := by
        by_contra hs
        exact hn (Or.inl ⟨rfl, hs⟩)
      have : pop q = .ok q := by
        unfold pop
        rw [if_pos hs]
        rfl
      have h : pop q = .ok q' := h
      rw [this] at h
      cases h
      rfl
    | erase i =>
      have hc : contains q i = false := by
        cases hc : contains q i with
        | false => rfl
        | true => exact absurd (Or.inr ⟨i, rfl, hc⟩) hn
      have : erase q i = .ok q := by
        unfold erase
        simp only [hc, Bool.not_false, if_true]
        rfl
      have h : erase q i = .ok q' := h
      rw [this] at h
      cases h
      rfl
    | changeKey k i => exact changeKey_heap_length h
    | top =>
      have hstep : step q Call.top = (do let _ ← top q; pure q) := rfl
      rw [hstep] at h
      obtain ⟨_, _, h⟩ := bind_eq_ok h
      cases h
      rfl
    | contains i =>
      cases h
      rfl

end

/-- C22: `IndexPriorityQueue<int>(2)` starts with three vectors of length 3; after
`push(1, 0)` the heap vector still has 3 slots, and `pop()` returns a state whose
heap vector has 2 slots, as does `erase(0)`; the other two vectors keep length 3. -/
theorem pop_and_erase_shrink_heap_vector :
    ((construct 2 : IndexPriorityQueue Int).priorities.length,
      (construct 2 : IndexPriorityQueue Int).priorityQueue.length,
      (construct 2 : IndexPriorityQueue Int).indexToPosition.length) = (3, 3, 3) ∧
    run (construct 2 : IndexPriorityQueue Int) [.push 1 0] = .ok oneQueue ∧
    oneQueue.priorityQueue.length = 3 ∧
    (do
      let q1 ← pop oneQueue
      pure (q1.priorities.length, q1.priorityQueue.length, q1.indexToPosition.length)) =
      .ok (3, 2, 3) ∧
    (do
      let q1 ← erase oneQueue 0
      pure (q1.priorities.length, q1.priorityQueue.length, q1.indexToPosition.length)) =
      .ok (3, 2, 3) :=
  ⟨rfl, rfl, rfl, rfl, rfl⟩

section
variable {T : Type} [LinearOrder T]

theorem not_swimSwaps_of_le {q : IndexPriorityQueue T} {p : Int}
    (h : p ≤ 1 ∨ LeAt q (parent p) p) : ¬ SwimSwaps q p := by
  rintro ⟨hgt, ka, kb, eka, ekb, hlt⟩
  rcases h with h | ⟨kb2, ka2, e1, e2, hle⟩
  · omega
  · rw [ekb] at e1
    rw [eka] at e2
    cases e1
    cases e2
    exact absurd hlt (not_lt.2 hle)

/-- The two passes of `erase` when the erased index is not at the last occupied
position: both return, and when `swim` swaps, `sink` returns its state as it is;
when `swim` does not swap, it returns its state as it is. -/
theorem erase_passes_inner {q : IndexPriorityQueue T} (h1 : I1 q) (h2 : I2 q) (h3 : I3 q)
    (hlen : q.indexToPosition.length ≤ q.priorities.length) {i pos : Int}
    (epos : lookup q.indexToPosition i = some pos) (hp1 : 1 ≤ pos) (hp2 : pos < q.size_) :
    ∃ last q4 q5, lookup q.priorityQueue q.size_ = some last ∧
      erase q i = (do
        let q4 ← swim (shrunk q pos i last) pos
        sink q4 pos) ∧
      swim (shrunk q pos i last) pos = .ok q4 ∧ sink q4 pos = .ok q5 ∧
      (SwimSwaps (shrunk q pos i last) pos → q5 = q4) ∧
      (¬ SwimSwaps (shrunk q pos i last) pos → q4 = shrunk q pos i last) := by
  have hp : 1 ≤ pos ∧ pos ≤ q.size_ := ⟨hp1, by omega⟩
  have hs : 1 ≤ q.size_ ∧ q.size_ ≤ q.size_ := ⟨by omega, le_refl _⟩
  obtain ⟨_, _, ea⟩ := h2 i pos epos (by omega)
  obtain ⟨last, kl, eb, ekl, kkl⟩ := keyAt_defined h1 hlen hs
  have n1 := shrunk_I1 h1 hp ea eb
  have n2 := shrunk_I2 h1 h2 hp ea eb
  have key := shrunk_keyAt h1 hp ea eb
  have keypos : keyAt (shrunk q pos i last) pos = some kl := by
    rw [key pos hp2]
    simp [kkl]
  have nlen : (shrunk q pos i last).indexToPosition.length ≤
      (shrunk q pos i last).priorities.length := by
    simpa [shrunk, detached] using hlen
  have nsz : (shrunk q pos i last).size_ = q.size_ - 1 := rfl
  have hgp : 1 < pos → ∀ c, 2 ≤ c → c ≤ (shrunk q pos i last).size_ → parent c = pos →
      LeAt (shrunk q pos i last) (parent pos) c := by
    intro hgt c hc2 hcs hcp
    have hcs : c ≤ q.size_ - 1 := hcs
    have hpar : parent pos = pos / 2 := parent_eq_div (by omega)
    have hcpar : parent c = c / 2 := parent_eq_div (by omega)
    refine LeAt_congr ?_ ?_ (LeAt_trans (h3 pos (by omega) hp.2) (hcp ▸ h3 c hc2 (by omega)))
    · rw [key _ (by rw [hpar]; omega)]
      have : parent pos ≠ pos := by rw [hpar]; omega
      simp [this]
    · rw [key _ (by omega)]
      have : c ≠ pos := by rw [hcpar] at hcp; omega
      simp [this]
  have hfar : ∀ r, 2 ≤ r → r ≤ q.size_ - 1 → r ≠ pos → parent r ≠ pos →
      LeAt (shrunk q pos i last) (parent r) r := by
    intro r hr2 hrs hr hu
    have hpar : parent r = r / 2 := parent_eq_div (by omega)
    refine LeAt_congr ?_ ?_ (h3 r hr2 (by omega))
    · rw [key _ (by rw [hpar]; omega)]
      simp [hu]
    · rw [key _ (by omega)]
      simp [hr]
  refine ⟨last, ?_⟩
  by_cases hsw : SwimSwaps (shrunk q pos i last) pos
  · obtain ⟨hgt, ka, kg, eka, ekg, hlt⟩ := hsw
    have hpar : parent pos = pos / 2 := parent_eq_div (by omega)
    rw [keypos] at eka
    cases eka
    have ekg : keyAt q (parent pos) = some kg := by
      rw [key _ (by rw [hpar]; omega)] at ekg
      have : parent pos ≠ pos := by rw [hpar]; omega
      simpa [this] using ekg
    obtain ⟨q4, r0, r1, r2, r3, r4, r5, r6, r7, r8, _⟩ :=
      swimAux_spec (pos.toNat + 1) (shrunk q pos i last) pos (by omega) n1 n2 nlen hp1
        (by rw [nsz]; omega)
        (by
          intro r hr2 hrs hr
          have hrs : r ≤ q.size_ - 1 := hrs
          by_cases hu : parent r = pos
          · obtain ⟨kg2, ko, e1, e2, hle1⟩ := h3 pos (by omega) hp.2
            rw [ekg] at e1
            cases e1
            obtain ⟨ko2, kr, e3, e4, hle2⟩ := h3 r hr2 (by omega)
            rw [hu, e2] at e3
            cases e3
            refine ⟨kl, kr, by rw [hu]; exact keypos, ?_,
              le_trans (le_of_lt hlt) (le_trans hle1 hle2)⟩
            rw [key _ (by omega)]
            simp [hr, e4]
          · exact hfar r hr2 hrs hr hu)
        hgp
    have hsink : sink q4 pos = .ok q4 :=
      sinkAux_fixed _ r5 r7 (by rw [r4, r2]; exact nlen) hp1
    exact ⟨q4, q4, eb, erase_start h1 epos hp ea eb, r0, hsink, fun _ => rfl,
      fun hn => absurd ⟨hgt, kl, kg, keypos, by
        rw [key _ (by rw [hpar]; omega)]
        have : parent pos ≠ pos := by rw [hpar]; omega
        simpa [this] using ekg, hlt⟩ hn⟩
  · have hstay : pos ≤ 1 ∨ LeAt (shrunk q pos i last) (parent pos) pos := by
      by_cases hgt : 1 < pos
      · right
        have hpar : parent pos = pos / 2 := parent_eq_div (by omega)
        obtain ⟨g, kg, _, _, kkg⟩ := keyAt_defined h1 hlen (p := parent pos)
          ⟨by rw [hpar]; omega, by rw [hpar]; omega⟩
        have ekg : keyAt (shrunk q pos i last) (parent pos) = some kg := by
          rw [key _ (by rw [hpar]; omega)]
          have : parent pos ≠ pos := by rw [hpar]; omega
          simp [this, kkg]
        refine ⟨kg, kl, ekg, keypos, ?_⟩
        by_contra hcon
        exact hsw ⟨hgt, kl, kg, keypos, ekg, not_le.1 hcon⟩
      · left
        omega
    obtain ⟨q5, r0, _⟩ :=
      sinkAux_spec ((shrunk q pos i last).size_.toNat + 2) (shrunk q pos i last) pos
        (by omega) n1 n2 nlen hp1
        (by
          intro r hr2 hrs hu
          have hrs : r ≤ q.size_ - 1 := hrs
          by_cases hr : r = pos
          · rcases hstay with h | h
            · omega
            · rw [hr]; exact h
          · exact hfar r hr2 hrs hr hu)
        hgp
    exact ⟨shrunk q pos i last, q5, eb, erase_start h1 epos hp ea eb,
      swimAux_noop _ _ _ hstay, r0, fun h => absurd h hsw, fun _ => rfl⟩

/-- The two passes of `erase` when the erased index is at the last occupied position
and the heap vector has a slot behind it (or the queue holds one element): neither
pass changes the state it is given. -/
theorem erase_passes_last {q : IndexPriorityQueue T} (h1 : I1 q) (h2 : I2 q) (h3 : I3 q)
    {i : Int} (epos : lookup q.indexToPosition i = some q.size_) (hs1 : 1 ≤ q.size_)
    (hsafe : q.size_ = 1 ∨ q.size_ + 1 < q.priorityQueue.length) :
    lookup q.priorityQueue q.size_ = some i ∧
      erase q i = (do
        let q4 ← swim (shrunk q q.size_ i i) q.size_
        sink q4 q.size_) ∧
      ¬ SwimSwaps (shrunk q q.size_ i i) q.size_ ∧
      swim (shrunk q q.size_ i i) q.size_ = .ok (shrunk q q.size_ i i) ∧
      sink (shrunk q q.size_ i i) q.size_ = .ok (shrunk q q.size_ i i) := by
  have hs : 1 ≤ q.size_ ∧ q.size_ ≤ q.size_ := ⟨hs1, le_refl _⟩
  obtain ⟨_, _, ea⟩ := h2 i q.size_ epos (by omega)
  have key := shrunk_keyAt h1 hs ea ea
  have hstay : q.size_ ≤ 1 ∨ LeAt (shrunk q q.size_ i i) (parent q.size_) q.size_ := by
    rcases hsafe with h | h
    · left
      omega
    · by_cases hone : q.size_ ≤ 1
      · left
        exact hone
      · right
        have hpar : parent q.size_ = q.size_ / 2 := parent_eq_div (by omega)
        have e1 : keyAt (shrunk q q.size_ i i) (parent q.size_) = keyAt q (parent q.size_) := by
          rw [key _ (by rw [hpar]; omega)]
          have : parent q.size_ ≠ q.size_ := by rw [hpar]; omega
          simp [this]
        have e2 : keyAt (shrunk q q.size_ i i) q.size_ = keyAt q q.size_ := by
          unfold keyAt
          rw [shrunk_pq q q.size_ i i q.size_ h, detached_pq q q.size_ i i q.size_ ea ea]
          simp only [if_true]
          rw [ea]
          rfl
        exact LeAt_congr e1 e2 (h3 q.size_ (by omega) (le_refl _))
  refine ⟨ea, erase_start h1 epos hs ea ea, not_swimSwaps_of_le hstay,
    swimAux_noop _ _ _ hstay, ?_⟩
  unfold sink
  refine sinkAux_noop _ _ _ ?_
  show ¬ 2 * q.size_ ≤ q.size_ - 1
  omega

/-- The two restoration passes of `erase(i)` on a state of a capacity-`N` queue that
satisfies I1..I3, for a present index `i` at position `pos`, whenever `pos` is not the
last occupied position, or the queue holds one element, or the heap vector has a slot
behind the last occupied position: both passes return; if the loop condition of
`swim(pos)` holds on entry, `sink(pos)` returns its state as it is; otherwise
`swim(pos)` returns its state as it is; and at the last occupied position both do. -/
theorem erase_passes (N : Nat) (q : IndexPriorityQueue T) (hq : IsQueue N q) (h1 : I1 q)
    (h2 : I2 q) (h3 : I3 q) {i pos : Int} (epos : lookup q.indexToPosition i = some pos)
    (hne : pos ≠ -1)
    (hsafe : pos < q.size_ ∨ q.size_ = 1 ∨ q.size_ + 1 < q.priorityQueue.length) :
    ∃ last q4 q5, lookup q.priorityQueue q.size_ = some last ∧
      erase q i = (do
        let q4 ← swim (shrunk q pos i last) pos
        sink q4 pos) ∧
      swim (shrunk q pos i last) pos = .ok q4 ∧ sink q4 pos = .ok q5 ∧
      (SwimSwaps (shrunk q pos i last) pos → q5 = q4) ∧
      (¬ SwimSwaps (shrunk q pos i last) pos → q4 = shrunk q pos i last) ∧
      (pos = q.size_ → q4 = shrunk q pos i last ∧ q5 = q4) := by
  have hlen : q.indexToPosition.length ≤ q.priorities.length := by
    rw [hq.1, hq.2.1]
  obtain ⟨hp1, hp2, _⟩ := h2 i pos epos hne
  rcases lt_or_eq_of_le hp2 with hlt | heq
  · obtain ⟨last, q4, q5, a1, a2, a3, a4, a5, a6⟩ :=
      erase_passes_inner h1 h2 h3 hlen epos hp1 hlt
    exact ⟨last, q4, q5, a1, a2, a3, a4, a5, a6, fun h => by omega⟩
  · subst heq
    have hs : q.size_ = 1 ∨ q.size_ + 1 < q.priorityQueue.length := by
      rcases hsafe with h | h | h
      · omega
      · exact Or.inl h
      · exact Or.inr h
    obtain ⟨b1, b2, b3, b4, b5⟩ := erase_passes_last h1 h2 h3 epos hp1 hs
    exact ⟨i, _, _, b1, b2, b4, b5, fun _ => rfl, fun _ => rfl, fun _ => ⟨rfl, rfl⟩⟩

end

/-- C23: on `fullQueue` (I1..I5 hold, index 1 is present at position 2, the last
occupied one), `erase(1)` hands to `swim(2)` a state whose heap vector `pop_back` has
cut to 2 slots, and the loop condition of `swim(2)` reads `priorityQueue[2]` outside
it: the pass ends in a fault instead of returning without a swap. -/
theorem erase_last_pass_reads_outside :
    Valid 2 fullQueue ∧ lookup fullQueue.indexToPosition 1 = some 2 ∧
    size fullQueue = 2 ∧
    erase fullQueue 1 = (do
      let q4 ← swim (shrunk fullQueue 2 1 1) 2
      sink q4 2) ∧
    (shrunk fullQueue 2 1 1).priorityQueue = [0, 0] ∧
    lookup (shrunk fullQueue 2 1 1).priorityQueue 2 = none ∧
    swim (shrunk fullQueue 2 1 1) 2 = .error .outOfBounds :=
  ⟨Valid_of_check (by decide), rfl, rfl, rfl, rfl, rfl, rfl⟩

end IndexPQ

/-! # Theorems about the weighted directed graph -/

namespace WGraph

open IndexPQ (lookup)

section
variable {T : Type}

theorem containsKey_iff (m : EdgeMap T) (j : Int) :
    m.containsKey j = true ↔ ∃ w, (j, w) ∈ m := by
  unfold EdgeMap.containsKey
  rw [List.any_eq_true]
  constructor
  · rintro ⟨⟨k, w⟩, hmem, hk⟩
    simp only [decide_eq_true_eq] at hk
    subst hk
    exact ⟨w, hmem⟩
  · rintro ⟨w, hmem⟩
    exact ⟨(j, w), hmem, by simp⟩

theorem valueAt_of_absent (m : EdgeMap T) (j : Int) (h : m.containsKey j = false) :
    m.valueAt j = .error .outOfRange := by
  unfold EdgeMap.valueAt
  cases hf : m.find? (fun e => decide (e.1 = j)) with
  | none => rfl
  | some e =>
    have hmem := List.mem_of_find?_eq_some hf
    have hk := List.find?_some hf
    simp only [decide_eq_true_eq] at hk
    have : m.containsKey j = true := (containsKey_iff m j).2 ⟨e.2, by rw [← hk]; exact hmem⟩
    rw [h] at this
    cases this

theorem valueAt_of_present (m : EdgeMap T) (j : Int) (h : m.containsKey j = true) :
    ∃ w, m.valueAt j = .ok w ∧ (j, w) ∈ m := by
  unfold EdgeMap.valueAt
  cases hf : m.find? (fun e => decide (e.1 = j)) with
  | none =>
    rw [List.find?_eq_none] at hf
    obtain ⟨w, hmem⟩ := (containsKey_iff m j).1 h
    exact absurd (by simp) (hf (j, w) hmem)
  | some e =>
    have hmem := List.mem_of_find?_eq_some hf
    have hk := List.find?_some hf
    simp only [decide_eq_true_eq] at hk
    exact ⟨e.2, rfl, by rw [← hk]; exact hmem⟩

theorem valueAt_of_mem {m : EdgeMap T} (hnd : (m.map Prod.fst).Nodup) {j : Int} {w : T}
    (h : (j, w) ∈ m) : m.valueAt j = .ok w := by
  obtain ⟨w2, e, hmem⟩ := valueAt_of_present m j ((containsKey_iff m j).2 ⟨w, h⟩)
  rw [e]
  have := List.inj_on_of_nodup_map hnd hmem h rfl
  rw [(Prod.mk.inj this).2]

theorem mem_insertEntry (m : EdgeMap T) (j : Int) (w : T) (e : Int × T) :
    e ∈ m.insertEntry j w ↔ e ∈ m ∨ (e = (j, w) ∧ m.containsKey j = false) := by
  unfold EdgeMap.insertEntry
  cases h : m.containsKey j
  · simp only [Bool.false_eq_true, if_false, List.mem_cons, and_true]
    exact Or.comm
  · simp

theorem nodup_insertEntry {m : EdgeMap T} (hnd : (m.map Prod.fst).Nodup) (j : Int) (w : T) :
    ((m.insertEntry j w).map Prod.fst).Nodup := by
  unfold EdgeMap.insertEntry
  cases h : m.containsKey j
  · simp only [Bool.false_eq_true, if_false, List.map_cons, List.nodup_cons]
    refine ⟨?_, hnd⟩
    intro hmem
    rw [List.mem_map] at hmem
    obtain ⟨⟨k, w2⟩, hm, hk⟩ := hmem
    simp only at hk
    subst hk
    have : m.containsKey k = true := (containsKey_iff m k).2 ⟨w2, hm⟩
    rw [h] at this
    cases this
  · simpa using hnd

theorem mem_eraseKey (m : EdgeMap T) (j : Int) (e : Int × T) :
    e ∈ m.eraseKey j ↔ e ∈ m ∧ e.1 ≠ j := by
  unfold EdgeMap.eraseKey
  simp [List.mem_filter]

theorem nodup_eraseKey {m : EdgeMap T} (hnd : (m.map Prod.fst).Nodup) (j : Int) :
    ((m.eraseKey j).map Prod.fst).Nodup := by
  unfold EdgeMap.eraseKey
  exact (List.Nodup.sublist (List.Sublist.map _ (List.filter_sublist _)) hnd)

theorem mem_set_cases {α : Type} {xs : List α} {n : Nat} {v x : α}
    (h : x ∈ xs.set n v) : x = v ∨ x ∈ xs := by
  rcases List.mem_or_eq_of_mem_set h with h | h
  · exact Or.inr h
  · exact Or.inl h

theorem init_graphOf (N : Nat) : GraphOf N (Graph.init N : Graph T) := by
  refine ⟨rfl, ⟨by simp [Graph.init], ?_⟩, ?_⟩
  · intro m hm
    have := List.eq_of_mem_replicate hm
    subst this
    simp
  · intro m hm e he
    have := List.eq_of_mem_replicate hm
    subst this
    cases he

theorem graphOf_lookup {N : Nat} {g : Graph T} (hg : GraphOf N g) {i : Int}
    (h0 : 0 ≤ i) (h1 : i < N) : ∃ m, lookup g.adjList i = some m ∧ m ∈ g.adjList := by
  have hlen : (g.adjList.length : Int) = N := by rw [hg.2.1.1, hg.1]
  obtain ⟨m, hm⟩ := @IndexPQ.lookup_defined _ g.adjList i h0 (by omega)
  refine ⟨m, hm, ?_⟩
  rw [IndexPQ.lookup_eq_some_iff] at hm
  exact List.getElem?_mem hm.2

theorem graphOf_set {N : Nat} {g : Graph T} (hg : GraphOf N g) (n : Nat) (m : EdgeMap T)
    (hnd : (m.map Prod.fst).Nodup) (hk : ∀ e ∈ m, 0 ≤ e.1 ∧ e.1 < (N : Int)) :
    GraphOf N { g with adjList := g.adjList.set n m } := by
  obtain ⟨hn, ⟨hl, hd⟩, hv⟩ := hg
  refine ⟨hn, ⟨by simpa using hl, ?_⟩, ?_⟩
  · intro x hx
    rcases mem_set_cases hx with h | h
    · rw [h]; exact hnd
    · exact hd x h
  · intro x hx e he
    rcases mem_set_cases hx with h | h
    · rw [h] at he
      have := hk e he
      show 0 ≤ e.1 ∧ e.1 < g.numVertices
      rw [hn]
      exact this
    · exact hv x h e he

/-- For valid vertices `addEdge` returns, and the graph it returns is again one of
`N` vertices with distinct valid keys. -/
theorem addEdge_graphOf {N : Nat} {g : Graph T} (hg : GraphOf N g) {i j : Int}
    (hi : 0 ≤ i ∧ i < N) (hj : 0 ≤ j ∧ j < N) (w : T) :
    ∃ m, lookup g.adjList i = some m ∧
      addEdge g i j w = .ok { g with adjList := g.adjList.set i.toNat (m.insertEntry j w) } ∧
      GraphOf N { g with adjList := g.adjList.set i.toNat (m.insertEntry j w) } := by
  obtain ⟨m, hm, hmem⟩ := graphOf_lookup hg hi.1 hi.2
  refine ⟨m, hm, ?_, ?_⟩
  · unfold addEdge
    have : ¬ (i < 0 ∨ i ≥ g.numVertices ∨ j < 0 ∨ j ≥ g.numVertices) := by
      rw [hg.1]
      omega
    simp only [this, if_false, hm]
  · refine graphOf_set hg _ _ (nodup_insertEntry (hg.2.1.2 m hmem) j w) ?_
    intro e he
    rw [mem_insertEntry] at he
    rcases he with h | ⟨h, _⟩
    · have := hg.2.2 m hmem e h
      rw [hg.1] at this
      exact this
    · rw [h]
      exact hj

theorem addEdge_throws {N : Nat} {g : Graph T} (hg : GraphOf N g) {i j : Int}
    (h : i < 0 ∨ (N : Int) ≤ i ∨ j < 0 ∨ (N : Int) ≤ j) (w : T) :
    addEdge g i j w = .error .outOfRange := by
  unfold addEdge
  have : i < 0 ∨ i ≥ g.numVertices ∨ j < 0 ∨ j ≥ g.numVertices := by
    rw [hg.1]
    omega
  simp only [this, if_true]

theorem removeEdge_graphOf {N : Nat} {g : Graph T} (hg : GraphOf N g) (i j : Int) :
    ∃ g', removeEdge g i j = .ok g' ∧ GraphOf N g' := by
  unfold removeEdge
  by_cases h : i ≥ 0 ∧ i < g.numVertices ∧ j ≥ 0 ∧ j < g.numVertices
  · simp only [h, and_self, if_true]
    have hi : 0 ≤ i ∧ i < (N : Int) := by
      rw [← hg.1]
      exact ⟨h.1, h.2.1⟩
    obtain ⟨m, hm, hmem⟩ := graphOf_lookup hg hi.1 hi.2
    rw [hm]
    refine ⟨_, rfl, graphOf_set hg _ _ (nodup_eraseKey (hg.2.1.2 m hmem) j) ?_⟩
    intro e he
    rw [mem_eraseKey] at he
    have := hg.2.2 m hmem e he.1
    rw [hg.1] at this
    exact this
  · simp only [h, if_false]
    exact ⟨g, rfl, hg⟩

theorem gstep_graphOf {N : Nat} {g : Graph T} (hg : GraphOf N g) (c : GCall T) :
    ∃ g', gstep g c = .ok g' ∧ GraphOf N g' := by
  cases c with
  | addEdge i j w =>
    by_cases h : (0 ≤ i ∧ i < (N : Int)) ∧ (0 ≤ j ∧ j < (N : Int))
    · obtain ⟨m, _, e, hg'⟩ := addEdge_graphOf hg h.1 h.2 w
      refine ⟨_, ?_, hg'⟩
      simp only [gstep, e]
    · have := addEdge_throws hg (i := i) (j := j) (by omega) w
      refine ⟨g, ?_, hg⟩
      simp only [gstep, this]
  | removeEdge i j => exact removeEdge_graphOf hg i j

theorem grun_graphOf {N : Nat} : ∀ (calls : List (GCall T)) (g : Graph T), GraphOf N g →
    ∃ g', grun g calls = .ok g' ∧ GraphOf N g' := by
  intro calls
  induction calls with
  | nil =>
    intro g hg
    exact ⟨g, rfl, hg⟩
  | cons c cs ih =>
    intro g hg
    obtain ⟨g1, e1, hg1⟩ := gstep_graphOf hg c
    obtain ⟨g2, e2, hg2⟩ := ih g1 hg1
    refine ⟨g2, ?_, hg2⟩
    unfold grun
    rw [e1]
    exact e2

end

section
variable {T : Type}

theorem set_getElem_same {α : Type} (l : List α) (i : Nat) (h : i < l.length) :
    l.set i l[i] = l := by
  apply List.ext_getElem
  · simp
  · intro n h1 h2
    by_cases e : i = n
    · subst e
      simp
    · simp [List.getElem_set, e]

theorem edge_iff_containsKey {g : Graph T} {i : Int} {m : EdgeMap T}
    (hm : lookup g.adjList i = some m) (j : Int) : Edge g i j ↔ m.containsKey j = true := by
  rw [containsKey_iff]
  constructor
  · rintro ⟨m2, w, h, hmem⟩
    rw [hm] at h
    cases h
    exact ⟨w, hmem⟩
  · rintro ⟨w, hmem⟩
    exact ⟨m, w, hm, hmem⟩

/-- What `isEdge` and `getEdgeWeight` answer on a graph of `N` vertices with valid
keys. -/
theorem edge_queries {N : Nat} {g : Graph T} (hg : GraphOf N g) (i j : Int) :
    ∃ b, isEdge g i j = .ok b ∧
      (b = true ↔ (0 ≤ i ∧ i < (N : Int) ∧ 0 ≤ j ∧ j < (N : Int) ∧ Edge g i j)) ∧
      (b = false ↔ getEdgeWeight g i j = .error .outOfRange) ∧
      (b = true → ∃ w, getEdgeWeight g i j = .ok w ∧ HasWeight g i j w) := by
  have hlen : (g.adjList.length : Int) = N := by rw [hg.2.1.1, hg.1]
  by_cases hi : 0 ≤ i ∧ i < (N : Int)
  · obtain ⟨m, hm, hmem⟩ := graphOf_lookup hg hi.1 hi.2
    have hget : getEdgeWeight g i j = m.valueAt j := by
      unfold getEdgeWeight
      rw [hm]
    by_cases hj : 0 ≤ j ∧ j < (N : Int)
    · have hedge : isEdge g i j = .ok (m.containsKey j) := by
        unfold isEdge
        have : i ≥ 0 ∧ i < g.numVertices ∧ j ≥ 0 ∧ j < g.numVertices := by
          rw [hg.1]
          exact ⟨hi.1, hi.2, hj.1, hj.2⟩
        simp only [this, and_self, if_true, hm]
      refine ⟨m.containsKey j, hedge, ?_, ?_, ?_⟩
      · rw [edge_iff_containsKey hm j]
        constructor
        · intro h
          exact ⟨hi.1, hi.2, hj.1, hj.2, h⟩
        · intro h
          exact h.2.2.2.2
      · rw [hget]
        constructor
        · intro h
          exact valueAt_of_absent m j h
        · intro h
          cases hc : m.containsKey j with
          | false => rfl
          | true =>
            obtain ⟨w, e, _⟩ := valueAt_of_present m j hc
            rw [e] at h
            cases h
      · intro h
        obtain ⟨w, e, hw⟩ := valueAt_of_present m j h
        exact ⟨w, by rw [hget, e], m, hm, hw⟩
    · have hedge : isEdge g i j = .ok false := by
        unfold isEdge
        have : ¬ (i ≥ 0 ∧ i < g.numVertices ∧ j ≥ 0 ∧ j < g.numVertices) := by
          rw [hg.1]
          intro h
          exact hj ⟨h.2.2.1, h.2.2.2⟩
        simp only [this, if_false]
      have habs : m.containsKey j = false := by
        cases hc : m.containsKey j with
        | false => rfl
        | true =>
          obtain ⟨w, hw⟩ := (containsKey_iff m j).1 hc
          have := hg.2.2 m hmem (j, w) hw
          rw [hg.1] at this
          exact absurd this hj
      refine ⟨false, hedge, ?_, ?_, ?_⟩
      · constructor
        · intro h
          cases h
        · intro h
          exact absurd ⟨h.2.2.1, h.2.2.2.1⟩ hj
      · rw [hget, valueAt_of_absent m j habs]
        simp
      · intro h
        cases h
  · have hnone : lookup g.adjList i = none := by
      cases h : lookup g.adjList i with
      | none => rfl
      | some m =>
        have := IndexPQ.lookup_bounds h
        omega
    have hedge : isEdge g i j = .ok false := by
      unfold isEdge
      have : ¬ (i ≥ 0 ∧ i < g.numVertices ∧ j ≥ 0 ∧ j < g.numVertices) := by
        rw [hg.1]
        intro h
        exact hi ⟨h.1, h.2.1⟩
      simp only [this, if_false]
    refine ⟨false, hedge, ?_, ?_, ?_⟩
    · constructor
      · intro h
        cases h
      · intro h
        exact absurd ⟨h.1, h.2.1⟩ hi
    · unfold getEdgeWeight
      rw [hnone]
      simp
    · intro h
      cases h

/-- C17: on every graph obtained from `Graph(N)` by `addEdge` and `removeEdge` calls
(the calls all return or throw; none is undefined), for all integers `i`, `j`:
`isEdge(i, j)` is true exactly when `i` and `j` are vertices joined by an edge;
`getEdgeWeight(i, j)` throws exactly when `isEdge(i, j)` is false and otherwise
returns the weight stored for the edge; and `addEdge` with `i` or `j` outside
`[0, N)` throws and leaves the graph as it was. -/
theorem getEdgeWeight_throws_iff_not_edge (N : Nat) (calls : List (GCall T)) :
    ∃ g, grun (Graph.init N) calls = .ok g ∧
      ∀ i j : Int,
        (∃ b, isEdge g i j = .ok b ∧
          (b = true ↔ (0 ≤ i ∧ i < (N : Int) ∧ 0 ≤ j ∧ j < (N : Int) ∧ Edge g i j)) ∧
          (b = false ↔ getEdgeWeight g i j = .error .outOfRange) ∧
          (b = true → ∃ w, getEdgeWeight g i j = .ok w ∧ HasWeight g i j w)) ∧
        ((i < 0 ∨ (N : Int) ≤ i ∨ j < 0 ∨ (N : Int) ≤ j) →
          ∀ w, addEdge g i j w = .error .outOfRange ∧
            gstep g (GCall.addEdge i j w) = .ok g) := by
  obtain ⟨g, e, hg⟩ := grun_graphOf calls (Graph.init N : Graph T) (init_graphOf N)
  refine ⟨g, e, ?_⟩
  intro i j
  refine ⟨edge_queries hg i j, ?_⟩
  intro h w
  have := addEdge_throws hg h w
  refine ⟨this, ?_⟩
  simp only [gstep, this]

/-- When the edge from `i` to `j` exists, `addEdge(i, j, w)` leaves the graph as it
is, old weight included. -/
theorem addEdge_existing {N : Nat} {g : Graph T} (hg : GraphOf N g) {i j : Int} {w0 : T}
    (h : HasWeight g i j w0) (w : T) : addEdge g i j w = .ok g := by
  obtain ⟨m, hm, hmem⟩ := h
  have hb := IndexPQ.lookup_bounds hm
  have hmemg : m ∈ g.adjList := by
    rw [IndexPQ.lookup_eq_some_iff] at hm
    exact List.getElem?_mem hm.2
  have hj := hg.2.2 m hmemg (j, w0) hmem
  have hlen : (g.adjList.length : Int) = g.numVertices := hg.2.1.1
  unfold addEdge
  have : ¬ (i < 0 ∨ i ≥ g.numVertices ∨ j < 0 ∨ j ≥ g.numVertices) := by
    have := hj.1
    have := hj.2
    omega
  simp only [this, if_false, hm]
  have hc : m.containsKey j = true := (containsKey_iff m j).2 ⟨w0, hmem⟩
  have hins : m.insertEntry j w = m := by
    unfold EdgeMap.insertEntry
    simp [hc]
  rw [hins]
  have hset : g.adjList.set i.toNat m = g.adjList := by
    rw [IndexPQ.lookup_eq_some_iff] at hm
    obtain ⟨hlt, hget⟩ := List.getElem?_eq_some_iff.1 hm.2
    rw [← hget]
    exact set_getElem_same _ _ hlt
  rw [hset]

/-- When there is no edge from `i` to `j`, `addEdge(i, j, w)` adds it with weight `w`
and leaves every other edge and weight as it was. -/
theorem addEdge_fresh {N : Nat} {g : Graph T} (hg : GraphOf N g) {i j : Int}
    (hi : 0 ≤ i ∧ i < N) (hj : 0 ≤ j ∧ j < N) (hno : ¬ Edge g i j) (w : T) :
    ∃ g', addEdge g i j w = .ok g' ∧ GraphOf N g' ∧ isEdge g' i j = .ok true ∧
      getEdgeWeight g' i j = .ok w ∧
      ∀ a b, ¬ (a = i ∧ b = j) → getEdgeWeight g' a b = getEdgeWeight g a b := by
  obtain ⟨m, hm, e, hg'⟩ := addEdge_graphOf hg hi hj w
  have hb := IndexPQ.lookup_bounds hm
  have hc : m.containsKey j = false := by
    cases hc : m.containsKey j with
    | false => rfl
    | true => exact absurd ((edge_iff_containsKey hm j).2 hc) hno
  have hins : m.insertEntry j w = (j, w) :: m := by
    unfold EdgeMap.insertEntry
    simp [hc]
  have hlook : ∀ a, lookup (g.adjList.set i.toNat (m.insertEntry j w)) a =
      if a = i then some (m.insertEntry j w) else lookup g.adjList a :=
    fun a => IndexPQ.lookup_set _ _ _ _ hb.1 hb.2
  have hw : getEdgeWeight { g with adjList := g.adjList.set i.toNat (m.insertEntry j w) } i j
      = .ok w := by
    unfold getEdgeWeight
    simp only
    rw [hlook i]
    simp only [if_true, hins]
    unfold EdgeMap.valueAt
    simp
  refine ⟨_, e, hg', ?_, hw, ?_⟩
  · obtain ⟨b, eb, _, hb2, _⟩ := edge_queries hg' i j
    cases b with
    | true => exact eb
    | false =>
      rw [hb2.1 rfl] at hw
      cases hw
  · intro a b hab
    unfold getEdgeWeight
    simp only
    rw [hlook a]
    by_cases ha : a = i
    · subst ha
      have hbj : ¬ j = b := fun h => hab ⟨rfl, h.symm⟩
      simp only [if_true, hm, hins]
      unfold EdgeMap.valueAt
      simp [List.find?_cons, hbj]
    · simp [ha]

end

/-- C16: on `Graph<int>(2)` with the edge from 0 to 1 of weight 5, `addEdge(0, 1, 7)`
returns the graph as it was: `isEdge(0, 1)` is true, but `getEdgeWeight(0, 1)` is
still 5, not 7. -/
theorem addEdge_keeps_old_weight :
    addEdge (Graph.init 2 : Graph Int) 0 1 5 =
      .ok { adjList := [[(1, 5)], []], numVertices := 2 } ∧
    addEdge ({ adjList := [[(1, 5)], []], numVertices := 2 } : Graph Int) 0 1 7 =
      .ok { adjList := [[(1, 5)], []], numVertices := 2 } ∧
    (do
      let g1 ← addEdge (Graph.init 2 : Graph Int) 0 1 5
      let g2 ← addEdge g1 0 1 7
      let b ← isEdge g2 0 1
      let w ← getEdgeWeight g2 0 1
      pure (b, w)) = .ok (true, 5) :=
  ⟨rfl, rfl, rfl⟩

section
variable {T : Type}

/-! ## The `visited` vector -/

theorem visited_nat (vis : List Bool) (i : Nat) :
    Visited vis (i : Int) ↔ vis[i]? = some true := by
  unfold Visited lookup
  simp

theorem vread_spec {vis : List Bool} {a : Int} (h0 : 0 ≤ a) (h1 : a < vis.length) :
    ∃ b, vread vis a = .ok b ∧ (b = true ↔ Visited vis a) := by
  obtain ⟨b, hb⟩ := IndexPQ.lookup_defined h0 h1
  refine ⟨b, by simp [vread, hb], ?_⟩
  unfold Visited
  rw [hb]
  simp

theorem vwrite_spec {vis : List Bool} {a : Int} (h0 : 0 ≤ a) (h1 : a < vis.length) :
    vwrite vis a true = .ok (vis.set a.toNat true) ∧
      (vis.set a.toNat true).length = vis.length ∧
      ∀ x, Visited (vis.set a.toNat true) x ↔ (Visited vis x ∨ x = a) := by
  refine ⟨by simp [vwrite, h0, h1], by simp, ?_⟩
  intro x
  unfold Visited
  rw [IndexPQ.lookup_set _ _ _ _ h0 h1]
  by_cases hx : x = a
  · simp [hx]
  · simp [hx]

theorem mem_unvisited (vis : List Bool) (i : Nat) :
    i ∈ unvisited vis ↔ i < vis.length ∧ ¬ Visited vis (i : Int) := by
  unfold unvisited
  rw [Finset.mem_filter, Finset.mem_range, visited_nat]

theorem unvisited_subset {vis vis' : List Bool} (hl : vis'.length = vis.length)
    (h : ∀ x, Visited vis x → Visited vis' x) : unvisited vis' ⊆ unvisited vis := by
  intro i hi
  rw [mem_unvisited] at hi ⊢
  exact ⟨by omega, fun hv => hi.2 (h _ hv)⟩

theorem unvisited_card_le {vis vis' : List Bool} (hl : vis'.length = vis.length)
    (h : ∀ x, Visited vis x → Visited vis' x) :
    (unvisited vis').card ≤ (unvisited vis).card :=
  Finset.card_le_card (unvisited_subset hl h)

theorem unvisited_card_lt {vis vis' : List Bool} (hl : vis'.length = vis.length)
    (h : ∀ x, Visited vis x → Visited vis' x) {a : Int} (h0 : 0 ≤ a)
    (h1 : a < vis.length) (hna : ¬ Visited vis a) (hva : Visited vis' a) :
    (unvisited vis').card < (unvisited vis).card := by
  apply Finset.card_lt_card
  rw [Finset.ssubset_iff_of_subset (unvisited_subset hl h)]
  have hc : ((a.toNat : Nat) : Int) = a := Int.toNat_of_nonneg h0
  refine ⟨a.toNat, ?_, ?_⟩
  · rw [mem_unvisited, hc]
    exact ⟨by omega, hna⟩
  · rw [mem_unvisited, hc]
    intro h2
    exact h2.2 hva

theorem unvisited_card_le_length (vis : List Bool) : (unvisited vis).card ≤ vis.length := by
  unfold unvisited
  calc ((Finset.range vis.length).filter (fun i => vis[i]? ≠ some true)).card
      ≤ (Finset.range vis.length).card := Finset.card_filter_le _ _
    _ = vis.length := Finset.card_range _

theorem not_visited_replicate (n : Nat) (x : Int) :
    ¬ Visited (List.replicate n false) x := by
  unfold Visited
  intro h
  rw [IndexPQ.lookup_eq_some_iff] at h
  have := List.getElem?_mem h.2
  simp at this

/-! ## Directed paths -/

theorem edge_iff_key {g : Graph T} {a : Int} {m : EdgeMap T}
    (hm : lookup g.adjList a = some m) (b : Int) : Edge g a b ↔ b ∈ m.map Prod.fst := by
  constructor
  · rintro ⟨m2, w, h, hmem⟩
    rw [hm] at h
    cases h
    exact List.mem_map.2 ⟨(b, w), hmem, rfl⟩
  · intro h
    obtain ⟨e, he, rfl⟩ := List.mem_map.1 h
    exact ⟨m, e.2, hm, he⟩

theorem reach_refl (g : Graph T) (a : Int) : Reach g a a := ⟨[], Walk.nil a⟩

theorem walk_snoc {g : Graph T} {u v w : Int} {l : List Int} (h : Walk g u v l)
    (e : Edge g v w) : Walk g u w (l ++ [w]) := by
  induction h with
  | nil u => exact Walk.cons e (Walk.nil w)
  | cons e1 _ ih => exact Walk.cons e1 (ih e)

theorem reach_edge {g : Graph T} {u v w : Int} (h : Reach g u v) (e : Edge g v w) :
    Reach g u w := by
  obtain ⟨l, hl⟩ := h
  exact ⟨_, walk_snoc hl e⟩

theorem reachFrom_nil (g : Graph T) (x : Int) : ¬ ReachFrom g [] x := by
  rintro ⟨a, ha, _⟩
  cases ha

theorem reachFrom_cons (g : Graph T) (a : Int) (ks : List Int) (x : Int) :
    ReachFrom g (a :: ks) x ↔ (Reach g a x ∨ ReachFrom g ks x) := by
  unfold ReachFrom
  constructor
  · rintro ⟨b, hb, hr⟩
    rcases List.mem_cons.1 hb with hb | hb
    · left
      rw [← hb]
      exact hr
    · right
      exact ⟨b, hb, hr⟩
  · rintro (hr | ⟨b, hb, hr⟩)
    · exact ⟨a, List.mem_cons_self _ _, hr⟩
    · exact ⟨b, List.mem_cons_of_mem _ hb, hr⟩

theorem reachFrom_single (g : Graph T) (a x : Int) : ReachFrom g [a] x ↔ Reach g a x := by
  rw [reachFrom_cons]
  constructor
  · rintro (h | h)
    · exact h
    · exact absurd h (reachFrom_nil g x)
  · intro h
    exact Or.inl h

theorem uniqueFrom_single (g : Graph T) (a : Int) : UniqueFrom g [a] ↔ UniquePaths g a := by
  constructor
  · intro h x l1 l2 h1 h2
    exact (h a a x l1 l2 (List.mem_cons_self _ _) (List.mem_cons_self _ _) h1 h2).2
  · intro h a1 a2 x l1 l2 m1 m2 h1 h2
    have e1 : a1 = a := by simpa using m1
    have e2 : a2 = a := by simpa using m2
    subst e1
    subst e2
    exact ⟨rfl, h x l1 l2 h1 h2⟩

theorem uniqueFrom_tail {g : Graph T} {a : Int} {ks : List Int}
    (h : UniqueFrom g (a :: ks)) : UniqueFrom g ks :=
  fun a1 a2 x l1 l2 m1 m2 h1 h2 =>
    h a1 a2 x l1 l2 (List.mem_cons_of_mem _ m1) (List.mem_cons_of_mem _ m2) h1 h2

theorem uniqueFrom_head {g : Graph T} {a : Int} {ks : List Int}
    (h : UniqueFrom g (a :: ks)) : UniquePaths g a :=
  fun x l1 l2 h1 h2 =>
    (h a a x l1 l2 (List.mem_cons_self _ _) (List.mem_cons_self _ _) h1 h2).2

theorem reach_iff_children {g : Graph T} {a : Int} {m : EdgeMap T}
    (hm : lookup g.adjList a = some m) (x : Int) :
    Reach g a x ↔ (x = a ∨ ReachFrom g (m.map Prod.fst) x) := by
  constructor
  · rintro ⟨l, hw⟩
    cases hw with
    | nil => exact Or.inl rfl
    | cons e h => exact Or.inr ⟨_, (edge_iff_key hm _).1 e, _, h⟩
  · rintro (rfl | ⟨b, hb, l, hw⟩)
    · exact reach_refl g _
    · exact ⟨b :: l, Walk.cons ((edge_iff_key hm b).2 hb) hw⟩

theorem uniquePaths_iff_children {g : Graph T} {a : Int} {m : EdgeMap T}
    (hm : lookup g.adjList a = some m) :
    UniquePaths g a ↔
      (UniqueFrom g (m.map Prod.fst) ∧ ∀ x, ReachFrom g (m.map Prod.fst) x → x ≠ a) := by
  constructor
  · intro hU
    constructor
    · intro a1 a2 x l1 l2 m1 m2 h1 h2
      have := hU x (a1 :: l1) (a2 :: l2) (Walk.cons ((edge_iff_key hm a1).2 m1) h1)
        (Walk.cons ((edge_iff_key hm a2).2 m2) h2)
      exact ⟨(List.cons.inj this).1, (List.cons.inj this).2⟩
    · rintro x ⟨b, hb, l, hw⟩ rfl
      have := hU x [] (b :: l) (Walk.nil x) (Walk.cons ((edge_iff_key hm b).2 hb) hw)
      cases this
  · rintro ⟨hU, hne⟩ x l1 l2 h1 h2
    cases h1 with
    | nil =>
      cases h2 with
      | nil => rfl
      | cons e h => exact absurd rfl (hne a ⟨_, (edge_iff_key hm _).1 e, _, h⟩)
    | cons e1 h1 =>
      cases h2 with
      | nil => exact absurd rfl (hne a ⟨_, (edge_iff_key hm _).1 e1, _, h1⟩)
      | cons e2 h2 =>
        obtain ⟨ea, el⟩ := hU _ _ x _ _ ((edge_iff_key hm _).1 e1)
          ((edge_iff_key hm _).1 e2) h1 h2
        rw [ea, el]

/-! ## The depth-first pass -/

theorem dfsPost_nil (g : Graph T) (vis : List Bool) : DfsPost g [] vis (true, vis) := by
  refine ⟨fun _ => ⟨rfl, ?_, ?_, ?_⟩, fun h => by cases h⟩
  · intro x
    constructor
    · exact fun h => Or.inl h
    · rintro (h | h)
      · exact h
      · exact absurd h (reachFrom_nil g x)
  · intro x h
    exact absurd h (reachFrom_nil g x)
  · intro a1 a2 x l1 l2 m1
    cases m1

theorem dfsPost_seen (g : Graph T) (a : Int) (ks : List Int) (vis : List Bool)
    (h : Visited vis a) : DfsPost g (a :: ks) vis (false, vis) :=
  ⟨fun h => Bool.noConfusion h,
    fun _ => Or.inl ⟨a, (reachFrom_cons g a ks a).2 (Or.inl (reach_refl g a)), h⟩⟩

/-- From the pass over the neighbours of `a`, started after `a` was marked, to the
pass over `a` alone. -/
theorem dfsPost_node {g : Graph T} {a : Int} {m : EdgeMap T} {vis : List Bool}
    {r : Bool × List Bool} (hm : lookup g.adjList a = some m) (h0 : 0 ≤ a)
    (h1 : a < vis.length) (hna : ¬ Visited vis a)
    (hp : DfsPost g (m.map Prod.fst) (vis.set a.toNat true) r) : DfsPost g [a] vis r := by
  obtain ⟨_, hl1, hV⟩ := vwrite_spec h0 h1
  have hR := reach_iff_children hm
  have hU := uniquePaths_iff_children hm
  constructor
  · intro hr
    obtain ⟨hl, hvis, hfresh, huniq⟩ := hp.1 hr
    refine ⟨by rw [hl, hl1], ?_, ?_, ?_⟩
    · intro x
      rw [hvis x, hV x, reachFrom_single, hR x]
      tauto
    · intro x hx
      rw [reachFrom_single, hR x] at hx
      rcases hx with hx | hx
      · rw [hx]
        exact hna
      · intro hv
        exact hfresh x hx ((hV x).2 (Or.inl hv))
    · rw [uniqueFrom_single, hU]
      refine ⟨huniq, ?_⟩
      intro x hx hxa
      exact hfresh x hx ((hV x).2 (Or.inr hxa))
  · intro hr
    rcases hp.2 hr with ⟨x, hx, hv⟩ | hnu
    · rcases (hV x).1 hv with hv | hxa
      · left
        exact ⟨x, (reachFrom_single g a x).2 ((hR x).2 (Or.inr hx)), hv⟩
      · right
        rw [uniqueFrom_single, hU]
        intro h
        exact h.2 x hx hxa
    · right
      rw [uniqueFrom_single, hU]
      intro h
      exact hnu h.1

theorem dfsPost_cons_false {g : Graph T} {a : Int} {ks : List Int} {vis : List Bool}
    {r : Bool × List Bool} (hp : DfsPost g [a] vis r) (hr : r.1 = false) :
    DfsPost g (a :: ks) vis (false, r.2) := by
  refine ⟨fun h => Bool.noConfusion h, fun _ => ?_⟩
  rcases hp.2 hr with ⟨x, hx, hv⟩ | hnu
  · left
    exact ⟨x, (reachFrom_cons g a ks x).2 (Or.inl ((reachFrom_single g a x).1 hx)), hv⟩
  · right
    intro h
    exact hnu ((uniqueFrom_single g a).2 (uniqueFrom_head h))

theorem dfsPost_cons_true {g : Graph T} {a : Int} {ks : List Int} {vis : List Bool}
    {r1 r2 : Bool × List Bool} (hp1 : DfsPost g [a] vis r1) (hr1 : r1.1 = true)
    (hp2 : DfsPost g ks r1.2 r2) (hnot : a ∉ ks) : DfsPost g (a :: ks) vis r2 := by
  obtain ⟨hl1, hvis1, hfresh1, huniq1⟩ := hp1.1 hr1
  have huniq1 := (uniqueFrom_single g a).1 huniq1
  constructor
  · intro hr2
    obtain ⟨hl2, hvis2, hfresh2, huniq2⟩ := hp2.1 hr2
    refine ⟨by rw [hl2, hl1], ?_, ?_, ?_⟩
    · intro x
      rw [hvis2 x, hvis1 x, reachFrom_single, reachFrom_cons]
      tauto
    · intro x hx
      rcases (reachFrom_cons g a ks x).1 hx with hx | hx
      · exact hfresh1 x ((reachFrom_single g a x).2 hx)
      · intro hv
        exact hfresh2 x hx ((hvis1 x).2 (Or.inl hv))
    · intro a1 a2 x l1 l2 m1 m2 h1 h2
      rcases List.mem_cons.1 m1 with e1 | k1
      · rcases List.mem_cons.1 m2 with e2 | k2
        · rw [e1, e2]
          rw [e1] at h1
          rw [e2] at h2
          exact ⟨rfl, huniq1 x l1 l2 h1 h2⟩
        · rw [e1] at h1
          exact absurd ((hvis1 x).2 (Or.inr ((reachFrom_single g a x).2 ⟨l1, h1⟩)))
            (hfresh2 x ⟨a2, k2, l2, h2⟩)
      · rcases List.mem_cons.1 m2 with e2 | k2
        · rw [e2] at h2
          exact absurd ((hvis1 x).2 (Or.inr ((reachFrom_single g a x).2 ⟨l2, h2⟩)))
            (hfresh2 x ⟨a1, k1, l1, h1⟩)
        · exact huniq2 a1 a2 x l1 l2 k1 k2 h1 h2
  · intro hr2
    rcases hp2.2 hr2 with ⟨x, ⟨b, hb, l2, h2⟩, hv⟩ | hnu
    · rcases (hvis1 x).1 hv with hv | hx
      · left
        exact ⟨x, (reachFrom_cons g a ks x).2 (Or.inr ⟨b, hb, l2, h2⟩), hv⟩
      · right
        obtain ⟨l1, h1⟩ := (reachFrom_single g a x).1 hx
        intro h
        have := (h a b x l1 l2 (List.mem_cons_self _ _) (List.mem_cons_of_mem _ hb) h1 h2).1
        rw [this] at hnot
        exact hnot hb
    · right
      intro h
      exact hnu (uniqueFrom_tail h)

/-- The loop of `isTreeDFS` over the entries `rest`, given that the recursive call
`dfs` is right whenever fewer than `k` vertices are unmarked. -/
theorem isTreeLoop_spec {n : Nat} {g : Graph T} (hg : GraphOf n g) (k : Nat)
    (dfs : Int → List Bool → Except GFault (Bool × List Bool))
    (hdfs : ∀ a vis m, lookup g.adjList a = some m → vis.length = n →
      (unvisited vis).card < k →
      ∃ r, dfs a vis = .ok r ∧ DfsPost g (m.map Prod.fst) vis r) :
    ∀ (rest : EdgeMap T) (vis : List Bool),
      (∀ e ∈ rest, 0 ≤ e.1 ∧ e.1 < (n : Int)) → (rest.map Prod.fst).Nodup →
      vis.length = n → (unvisited vis).card ≤ k →
      ∃ r, isTreeLoop dfs rest vis = .ok r ∧ DfsPost g (rest.map Prod.fst) vis r := by
  intro rest
  induction rest with
  | nil =>
    intro vis _ _ _ _
    exact ⟨(true, vis), rfl, dfsPost_nil g vis⟩
  | cons e rest ih =>
    intro vis hkeys hnd hlen hcard
    obtain ⟨a, w⟩ := e
    have ha := hkeys (a, w) (List.mem_cons_self _ _)
    have ha1 : a < (vis.length : Int) := by
      have := ha.2
      omega
    obtain ⟨b, hb, hbv⟩ := vread_spec ha.1 ha1
    rw [List.map_cons, List.nodup_cons] at hnd
    cases b with
    | true =>
      refine ⟨(false, vis), ?_, dfsPost_seen g a _ vis (hbv.1 rfl)⟩
      rw [isTreeLoop, hb]
      rfl
    | false =>
      have hna : ¬ Visited vis a := by
        intro h
        cases hbv.2 h
      obtain ⟨hw1, hl1, hV1⟩ := vwrite_spec ha.1 ha1
      obtain ⟨m, hm, _⟩ := graphOf_lookup hg ha.1 ha.2
      have hc1 : (unvisited (vis.set a.toNat true)).card < k :=
        lt_of_lt_of_le (unvisited_card_lt hl1 (fun x h => (hV1 x).2 (Or.inl h)) ha.1 ha1
          hna ((hV1 a).2 (Or.inr rfl))) hcard
      obtain ⟨r1, hr1, hp1⟩ := hdfs a _ m hm (by rw [hl1, hlen]) hc1
      have hnode := dfsPost_node hm ha.1 ha1 hna hp1
      have hrun : isTreeLoop dfs ((a, w) :: rest) vis =
          if (!r1.1) = true then pure (false, r1.2) else isTreeLoop dfs rest r1.2 := by
        rw [isTreeLoop, hb]
        simp only [bind, Except.bind, Bool.false_eq_true, if_false, hw1, hr1]
      cases h1 : r1.1 with
      | false =>
        refine ⟨(false, r1.2), ?_, dfsPost_cons_false hnode h1⟩
        rw [hrun, h1]
        rfl
      | true =>
        obtain ⟨hl2, hV2, _, _⟩ := hnode.1 h1
        obtain ⟨r2, hr2, hp2⟩ := ih r1.2
          (fun e he => hkeys e (List.mem_cons_of_mem _ he)) hnd.2 (by rw [hl2, hlen])
          (le_trans (unvisited_card_le hl2 (fun x h => (hV2 x).2 (Or.inl h))) hcard)
        refine ⟨r2, ?_, dfsPost_cons_true hnode h1 hp2 hnd.1⟩
        rw [hrun, h1]
        simpa using hr2

/-- The function `isTreeDFS` returns, with the marks and the verdict of `DfsPost`,
whenever the fuel exceeds the number of unmarked vertices. -/
theorem isTreeDFS_spec {n : Nat} {g : Graph T} (hg : GraphOf n g) :
    ∀ (fuel : Nat) (a : Int) (vis : List Bool) (m : EdgeMap T),
      lookup g.adjList a = some m → vis.length = n → (unvisited vis).card < fuel →
      ∃ r, isTreeDFS fuel g a vis = .ok r ∧ DfsPost g (m.map Prod.fst) vis r := by
  intro fuel
  induction fuel with
  | zero =>
    intro a vis m _ _ h
    omega
  | succ fuel ih =>
    intro a vis m hm hlen hcard
    have hmem : m ∈ g.adjList := by
      rw [IndexPQ.lookup_eq_some_iff] at hm
      exact List.getElem?_mem hm.2
    have hkeys : ∀ e ∈ m, 0 ≤ e.1 ∧ e.1 < (n : Int) := by
      intro e he
      have := hg.2.2 m hmem e he
      rw [hg.1] at this
      exact this
    obtain ⟨r, hr, hp⟩ := isTreeLoop_spec hg fuel (isTreeDFS fuel g) ih m vis hkeys
      (hg.2.1.2 m hmem) hlen (by omega)
    refine ⟨r, ?_, hp⟩
    rw [isTreeDFS]
    simp only [neighbours, hm, bind, Except.bind]
    exact hr

/-- The second loop of `isTreePlusIsolated` returns `true` exactly when no unmarked
vertex of the list has an outgoing edge. -/
theorem isolatedLoop_spec {n : Nat} {g : Graph T} (hg : GraphOf n g) (vis : List Bool)
    (hlen : vis.length = n) :
    ∀ l : List Nat, (∀ i ∈ l, i < n) →
      ∃ b, isolatedLoop g vis l = .ok b ∧
        (b = true ↔ ∀ i ∈ l, ¬ Visited vis (i : Int) → ∀ w, ¬ Edge g (i : Int) w) := by
  intro l
  induction l with
  | nil =>
    intro _
    refine ⟨true, rfl, ?_⟩
    simp
  | cons i l ih =>
    intro hl
    have hi := hl i (List.mem_cons_self _ _)
    obtain ⟨b, hb, hiff⟩ := ih (fun j hj => hl j (List.mem_cons_of_mem _ hj))
    obtain ⟨s, hs, hsv⟩ := @vread_spec vis (i : Int) (by omega) (by omega)
    cases s with
    | true =>
      refine ⟨b, ?_, ?_⟩
      · rw [isolatedLoop, hs]
        simpa [bind, Except.bind] using hb
      · rw [hiff]
        constructor
        · intro h j hj
          rcases List.mem_cons.1 hj with e | hj
          · rw [e]
            intro hnv
            exact absurd (hsv.1 rfl) hnv
          · exact h j hj
        · intro h j hj
          exact h j (List.mem_cons_of_mem _ hj)
    | false =>
      have hnv : ¬ Visited vis (i : Int) := by
        intro h
        cases hsv.2 h
      obtain ⟨m, hm, _⟩ := graphOf_lookup hg (i := (i : Int)) (by omega) (by omega)
      cases m with
      | nil =>
        refine ⟨b, ?_, ?_⟩
        · rw [isolatedLoop, hs]
          simpa [bind, Except.bind, neighbours, hm] using hb
        · rw [hiff]
          constructor
          · intro h j hj
            rcases List.mem_cons.1 hj with e | hj
            · rw [e]
              intro _ w hE
              have := (edge_iff_key hm w).1 hE
              simp at this
            · exact h j hj
          · intro h j hj
            exact h j (List.mem_cons_of_mem _ hj)
      | cons e m =>
        refine ⟨false, ?_, ?_⟩
        · rw [isolatedLoop, hs]
          simp [bind, Except.bind, neighbours, hm, pure, Except.pure]
        · constructor
          · intro h
            cases h
          · intro h
            exact absurd ((edge_iff_key hm e.1).2 (by simp)) (h i (List.mem_cons_self _ _) hnv e.1)

end

/-- C18: for every graph whose adjacency keys are valid vertices and every `root` in
`[0, G.size())`, `isTreePlusIsolated(G, root)` returns, and it returns `true` exactly
when (a) every vertex is reached from `root` by at most one directed path (the empty
path to `root` included, so nothing reachable leads back to `root`) and (b) every
vertex not reachable from `root` has no outgoing and no incoming edge. -/
theorem isTreePlusIsolated_correct {T : Type} (g : Graph T) (root : Int)
    (hwf : WellFormed g) (hk : KeysValid g) (h0 : 0 ≤ root) (h1 : root < g.size) :
    ∃ b, isTreePlusIsolated g root = .ok b ∧
      (b = true ↔ (UniquePaths g root ∧
        ∀ v, 0 ≤ v → v < g.size → ¬ Reach g root v → Isolated g v)) := by
  have h1 : root < g.numVertices := h1
  have hn : g.numVertices = ((g.numVertices.toNat : Nat) : Int) :=
    (Int.toNat_of_nonneg (by omega)).symm
  generalize hnn : g.numVertices.toNat = n at hn
  have hg : GraphOf n g := ⟨hn, hwf, hk⟩
  have hl0 : (List.replicate n false).length = n := List.length_replicate _ _
  have hr1 : root < ((List.replicate n false).length : Int) := by
    rw [hl0]
    omega
  obtain ⟨hw1, hl1, hV1⟩ := vwrite_spec h0 hr1
  obtain ⟨m, hm, _⟩ := graphOf_lookup hg h0 (by omega)
  obtain ⟨r, hr, hp⟩ := isTreeDFS_spec hg (n + 1) root
    ((List.replicate n false).set root.toNat true) m hm (by rw [hl1, hl0])
    (by
      have := unvisited_card_le_length ((List.replicate n false).set root.toNat true)
      rw [hl1, hl0] at this
      omega)
  have hnode := dfsPost_node hm h0 hr1 (not_visited_replicate n root) hp
  have hrun : isTreePlusIsolated g root =
      if (!r.1) = true then pure false else isolatedLoop g r.2 (List.range n) := by
    unfold isTreePlusIsolated
    simp only [Graph.size, hnn, hw1, hr, bind, Except.bind]
  cases h : r.1 with
  | false =>
    refine ⟨false, ?_, ?_⟩
    · rw [hrun, h]
      rfl
    · constructor
      · intro h2
        cases h2
      · rintro ⟨hU, _⟩
        rcases hnode.2 h with ⟨x, _, hv⟩ | hnu
        · exact absurd hv (not_visited_replicate n x)
        · exact absurd ((uniqueFrom_single g root).2 hU) hnu
  | true =>
    obtain ⟨hl, hvis, _, huniq⟩ := hnode.1 h
    have hU := (uniqueFrom_single g root).1 huniq
    have hvis2 : ∀ x, Visited r.2 x ↔ Reach g root x := by
      intro x
      rw [hvis x, reachFrom_single]
      constructor
      · rintro (hv | hv)
        · exact absurd hv (not_visited_replicate n x)
        · exact hv
      · exact fun hv => Or.inr hv
    obtain ⟨b, hb, hiff⟩ := isolatedLoop_spec hg r.2 (by rw [hl, hl0]) (List.range n)
      (fun i hi => List.mem_range.1 hi)
    refine ⟨b, ?_, ?_⟩
    · rw [hrun, h]
      simpa using hb
    · rw [hiff]
      have hsz : g.size = (n : Int) := hn
      constructor
      · intro hall
        refine ⟨hU, ?_⟩
        intro v hv0 hv1 hnr
        rw [hsz] at hv1
        have hout : ∀ u : Int, 0 ≤ u → u < (n : Int) → ¬ Reach g root u →
            ∀ w, ¬ Edge g u w := by
          intro u hu0 hu1 hnu
          have := hall u.toNat (List.mem_range.2 (by omega))
          rw [Int.toNat_of_nonneg hu0] at this
          exact this (fun hv => hnu ((hvis2 u).1 hv))
        refine ⟨hout v hv0 hv1 hnr, ?_⟩
        intro u hE
        obtain ⟨mu, w, hmu, _⟩ := hE
        have hub := IndexPQ.lookup_bounds hmu
        have hub2 : u < (n : Int) := by
          have := hg.2.1.1
          omega
        by_cases hru : Reach g root u
        · exact hnr (reach_edge hru ⟨mu, w, hmu, by assumption⟩)
        · exact hout u hub.1 hub2 hru v ⟨mu, w, hmu, by assumption⟩
      · rintro ⟨_, hiso⟩ i hi hnv w
        have hi := List.mem_range.1 hi
        exact (hiso (i : Int) (by omega) (by rw [hsz]; omega)
          (fun hr => hnv ((hvis2 _).2 hr))).1 w

/-- C18 at a concrete graph: `sampleTree` with root 0 meets the hypotheses, and the
call returns `true`. -/
theorem isTreePlusIsolated_correct_witness :
    WellFormed sampleTree ∧ KeysValid sampleTree ∧ (0 : Int) ≤ 0 ∧
    (0 : Int) < sampleTree.size ∧
    isTreePlusIsolated sampleTree 0 = .ok true ∧
    ∃ b, isTreePlusIsolated sampleTree 0 = .ok b ∧
      (b = true ↔ (UniquePaths sampleTree 0 ∧
        ∀ v, 0 ≤ v → v < sampleTree.size → ¬ Reach sampleTree 0 v →
          Isolated sampleTree v)) :=
  have hw : WellFormed sampleTree := ⟨rfl, by decide⟩
  have hk : KeysValid sampleTree := by
    unfold KeysValid
    decide
  ⟨hw, hk, by decide, by decide, rfl,
    isTreePlusIsolated_correct sampleTree 0 hw hk (by decide) (by decide)⟩

end WGraph
